import Mathlib

/-!
Verification of the A-Maze-Ing maze generator against its specification.

The development shallowly embeds the core of the repository:

* `findPath` — `src/mazegen/internal/path_finder.py` (breadth-first solver);
* `Cell`, `initGrid`, `neighbors`, `removeWallBetween` — `internal/maze_base.py`;
* `primGenerate` — `internal/maze_generator_prim.py`;
* `dfsGenerate` — `internal/maze_generator_dfs.py`;
* `removeExtraWalls` — `internal/maze_with_animation.py` (loop injection);
* `patternRemoveExtraWalls` — `internal/animated_maze_with_pattern.py`;
* `writeToFile` / `saveToFile` — `mazegen/generator.py` and
  `mazegen/utils/file_writer.py`.

Python's globally seeded Mersenne-Twister generator is modelled by the
stream of draws it determines: a run that seeds the generator with `seed`
and then performs draws `r0, r1, ...` is modelled by the function
`rng : Nat → Nat` with `rng i = ri`; every concrete seeded execution is an
instance of a stream, so facts proved for every stream cover every seed.
`random.randint(0, n-1)`, and `random.choice` on a list of length `n`,
consume one draw and are modelled as `rng k % n`.

Loops are embedded with explicit fuel; the termination theorems show that
the fuel actually supplied by the embedded generators suffices, so the
fuel-exhaustion branches are never taken on the states the program runs.
-/

namespace Maze

/-- Compass directions, in the enumeration order `N, E, S, W` used
throughout the source. -/
inductive Dir : Type where
  | N | E | S | W
deriving DecidableEq, Repr

/-- Wall bit for a direction: `N=1, E=2, S=4, W=8` (`maze_base.Cell`). -/
def wallBit : Dir → Nat
  | .N => 1
  | .E => 2
  | .S => 4
  | .W => 8

/-- The `opposite` mapping used by `remove_wall_between`. -/
def oppositeDir : Dir → Dir
  | .N => .S
  | .S => .N
  | .E => .W
  | .W => .E

/-- Direction letters used in route strings. -/
def dirChar : Dir → Char
  | .N => 'N'
  | .E => 'E'
  | .S => 'S'
  | .W => 'W'

/-- The list `[('N',0,-1), ('E',1,0), ('S',0,1), ('W',-1,0)]` that the
source iterates over, reduced to its direction components. -/
def dirList : List Dir := [.N, .E, .S, .W]

/-- `dirs[i]` for an index produced by `random.choice`. -/
def dirAt (n : Nat) : Dir := dirList.getD n .N

/-- A grid coordinate `(x, y)`. -/
abbrev Pos := Nat × Nat

/-- One step from `p` in direction `d` guarded by the source's bounds check
`0 <= nx < width and 0 <= ny < height` (coordinates are machine integers in
Python; the downward moves are guarded before subtracting so the embedding
can stay in `Nat`). -/
def nextPos (w h : Nat) (p : Pos) : Dir → Option Pos
  | .N => if p.1 < w ∧ 0 < p.2 ∧ p.2 - 1 < h then some (p.1, p.2 - 1) else none
  | .E => if p.1 + 1 < w ∧ p.2 < h then some (p.1 + 1, p.2) else none
  | .S => if p.1 < w ∧ p.2 + 1 < h then some (p.1, p.2 + 1) else none
  | .W => if 0 < p.1 ∧ p.1 - 1 < w ∧ p.2 < h then some (p.1 - 1, p.2) else none

/-! ### Path finder (`internal/path_finder.py`) -/

/-- `width = len(grid[0])`. -/
def gridWidth (g : List (List Nat)) : Nat := (g.headD []).length

/-- `height = len(grid)`. -/
def gridHeight (g : List (List Nat)) : Nat := g.length

/-- `grid[y][x]`, the 4-bit wall mask of the cell at `p`. -/
def maskAt (g : List (List Nat)) (p : Pos) : Nat := (g.getD p.2 []).getD p.1 0

/-- The `for dir_char, (dx, dy) in directions.items()` body: try each
direction, and when the wall is open and the neighbour is in bounds and
unvisited, mark it visited and enqueue it with the grown path. -/
def bfsExpand (g : List (List Nat)) (w h : Nat) (p : Pos) (ds : List Dir) :
    List Dir → List (Pos × List Dir) × List Pos → List (Pos × List Dir) × List Pos
  | [], st => st
  | d :: rest, (q, vis) =>
    bfsExpand g w h p ds rest <|
      if maskAt g p &&& wallBit d = 0 then
        match nextPos w h p d with
        | some np => if np ∈ vis then (q, vis) else (q ++ [(np, ds ++ [d])], np :: vis)
        | none => (q, vis)
      else (q, vis)

/-- The `while queue:` loop of `find_path`, with explicit fuel.  The queue
is a FIFO list (head = front); `vis` is the `visited` set. -/
def bfsLoop (g : List (List Nat)) (goal : Pos) (w h : Nat) :
    Nat → List (Pos × List Dir) → List Pos → List Dir
  | 0, _, _ => []
  | _ + 1, [], _ => []
  | fuel + 1, (p, ds) :: rest, vis =>
    if p = goal then ds
    else
      let st := bfsExpand g w h p ds dirList (rest, vis)
      bfsLoop g goal w h fuel st.1 st.2

/-- `find_path`, returning the route as a list of directions.  The fuel
`w*h + 1` is shown below to dominate the iteration count, so the fuel
branch is never taken. -/
def findPathD (g : List (List Nat)) (entry goal : Pos) : List Dir :=
  bfsLoop g goal (gridWidth g) (gridHeight g) (gridWidth g * gridHeight g + 1)
    [(entry, [])] [entry]

/-- `find_path(grid, entry, exit)` — the route as a string over N, E, S, W. -/
def findPath (g : List (List Nat)) (entry goal : Pos) : String :=
  ⟨(findPathD g entry goal).map dirChar⟩

/-- One open-walled step, exactly the wall-and-bounds test of the BFS
expansion body. -/
def openStep (g : List (List Nat)) (w h : Nat) (p : Pos) (d : Dir) : Option Pos :=
  if maskAt g p &&& wallBit d = 0 then nextPos w h p d else none

/-- Follow a direction list from `p` through open walls; `some` iff every
step crosses an open in-bounds wall. -/
def follow (g : List (List Nat)) (w h : Nat) : Pos → List Dir → Option Pos
  | p, [] => some p
  | p, d :: ds =>
    match openStep g w h p d with
    | some q => follow g w h q ds
    | none => none

/-- `t` is reachable from `p` through open walls. -/
def ReachableFrom (g : List (List Nat)) (w h : Nat) (p t : Pos) : Prop :=
  ∃ ds, follow g w h p ds = some t

/-! ### File export (`mazegen/generator.py` and `mazegen/utils/file_writer.py`) -/

/-- `format(walls, 'X')` for a 4-bit mask: one uppercase hex digit. -/
def hexDigit (n : Nat) : Char :=
  if n < 10 then Char.ofNat (48 + n) else Char.ofNat (55 + n)

/-- One output row: `''.join(format(cell.walls, 'X') for cell in row)`. -/
def rowHex (row : List Nat) : String := ⟨row.map hexDigit⟩

/-- `f"{p[0]},{p[1]}"`. -/
def natPair (p : Pos) : String := toString p.1 ++ "," ++ toString p.2

/-- `MazeGenerator.write_to_file`: hex rows, a blank line, the entry and
exit lines, then the route line — written unconditionally. -/
def writeToFile (m : List (List Nat)) (entry goal : Pos) (path : String) : String :=
  String.join (m.map fun row => rowHex row ++ "\n")
    ++ "\n" ++ natPair entry ++ "\n" ++ natPair goal ++ "\n" ++ path ++ "\n"

/-- `save_to_file` from `utils/file_writer.py`: identical layout except the
route line is written only under `if path:`, i.e. when it is non-empty. -/
def saveToFile (m : List (List Nat)) (entry goal : Pos) (path : String) : String :=
  String.join (m.map fun row => rowHex row ++ "\n")
    ++ "\n" ++ natPair entry ++ "\n" ++ natPair goal ++ "\n"
    ++ (if path = "" then "" else path ++ "\n")

/-- The on-disk layout as the specification words it: a per-row encoding of
each cell's 4-bit wall mask as one hex digit, a blank line, `entryX,entryY`,
`exitX,exitY`, and the route direction string, each on its own line. -/
def specLayout (m : List (List Nat)) (entry goal : Pos) (route : String) : String :=
  String.join (m.map fun row => String.mk (row.map hexDigit) ++ "\n")
    ++ "\n" ++ toString entry.1 ++ "," ++ toString entry.2
    ++ "\n" ++ toString goal.1 ++ "," ++ toString goal.2
    ++ "\n" ++ route ++ "\n"

/-! ### Grid and cell model (`internal/maze_base.py`) -/

/-- A maze cell: its coordinates live in the grid index, so only the 4-bit
wall mask and the visited flag are carried (`maze_base.Cell`). -/
structure Cell where
  walls : Nat
  visited : Bool
deriving DecidableEq, Repr

/-- The grid as Python holds it: a row-major list of rows of cells,
indexed `grid[y][x]`. -/
abbrev Grid := List (List Cell)

/-- A random draw stream; see the module docstring. -/
abbrev Rng := Nat → Nat

/-- `self.grid[y][x]`; out-of-range reads (which the source never performs)
default to a fresh cell. -/
def cellAt (g : Grid) (p : Pos) : Cell := (g.getD p.2 []).getD p.1 ⟨15, false⟩

/-- Overwrite the cell at `p`; out-of-range writes are no-ops. -/
def setCell (g : Grid) (p : Pos) (c : Cell) : Grid :=
  g.set p.2 ((g.getD p.2 []).set p.1 c)

/-- `MazeGeneratorBase.__init__`: every cell starts fully walled and
unvisited, then each in-bounds pattern coordinate is pre-marked visited. -/
def initGrid (pattern : List Pos) (w h : Nat) : Grid :=
  (List.range h).map fun y => (List.range w).map fun x =>
    ⟨15, decide ((x, y) ∈ pattern)⟩

/-- `cell.visited = True`. -/
def setVisited (g : Grid) (p : Pos) : Grid := setCell g p ⟨(cellAt g p).walls, true⟩

/-- `cell.remove_wall(direction)`: `walls &= ~bit`, which for masks below 16
is `walls &&& (15 ^^^ bit)`. -/
def removeWall (g : Grid) (p : Pos) (d : Dir) : Grid :=
  setCell g p ⟨(cellAt g p).walls &&& (15 ^^^ wallBit d), (cellAt g p).visited⟩

/-- `remove_wall_between(cell1, cell2, direction)`: clear the wall on
`cell1` in `d` and on `cell2` in the opposite direction. -/
def removeWallBetween (g : Grid) (p q : Pos) (d : Dir) : Grid :=
  removeWall (removeWall g p d) q (oppositeDir d)

/-- `get_neighbors`: in-bounds adjacent cells with their directions, in the
fixed order N, E, S, W. -/
def neighbors (w h : Nat) (p : Pos) : List (Pos × Dir) :=
  (if 0 < p.2 then [((p.1, p.2 - 1), Dir.N)] else []) ++
  (if p.1 + 1 < w then [((p.1 + 1, p.2), Dir.E)] else []) ++
  (if p.2 + 1 < h then [((p.1, p.2 + 1), Dir.S)] else []) ++
  (if 0 < p.1 then [((p.1 - 1, p.2), Dir.W)] else [])

/-- `get_unvisited_neighbors`. -/
def unvisitedNeighbors (g : Grid) (w h : Nat) (p : Pos) : List (Pos × Dir) :=
  (neighbors w h p).filter fun qd => ¬(cellAt g qd.1).visited

/-- `[(x, y) for y in range(height) for x in range(width)
     if (x, y) not in self.pattern_cells]`. -/
def nonPatternCells (w h : Nat) (pattern : List Pos) : List Pos :=
  (List.range h).flatMap fun y =>
    ((List.range w).filter fun x => (x, y) ∉ pattern).map fun x => (x, y)

/-! ### Prim's algorithm (`internal/maze_generator_prim.py`) -/

/-- The loop state of `PrimMazeGenerator.generate`: the grid, the frontier
list of `(current, neighbour, direction)` edges, and the index of the next
random draw. -/
structure PrimState where
  grid : Grid
  frontier : List (Pos × Pos × Dir)
  k : Nat

/-- One iteration of the `while frontier:` loop: draw a random index, pop
that edge, and if its target is still unvisited carve the wall, mark the
target visited and append the target's unvisited neighbour edges. -/
def primStep (rng : Rng) (w h : Nat) (s : PrimState) : PrimState :=
  let i := rng s.k % s.frontier.length
  let e := s.frontier.getD i ((0, 0), (0, 0), Dir.N)
  let rest := s.frontier.eraseIdx i
  if (cellAt s.grid e.2.1).visited then
    { grid := s.grid, frontier := rest, k := s.k + 1 }
  else
    let g2 := setVisited (removeWallBetween s.grid e.1 e.2.1 e.2.2) e.2.1
    { grid := g2
      frontier := rest ++ (unvisitedNeighbors g2 w h e.2.1).map fun qd => (e.2.1, qd.1, qd.2)
      k := s.k + 1 }

/-- The fuelled `while frontier:` loop. -/
def primLoop (rng : Rng) (w h : Nat) : Nat → PrimState → PrimState
  | 0, s => s
  | fuel + 1, s =>
    if s.frontier = [] then s else primLoop rng w h fuel (primStep rng w h s)

/-- The state right before the loop: a uniformly random non-pattern start
cell (draw 0) is marked visited and its unvisited neighbour edges seed the
frontier. -/
def primInitState (rng : Rng) (w h : Nat) (pattern : List Pos) : PrimState :=
  let nc := nonPatternCells w h pattern
  let start := nc.getD (rng 0 % nc.length) (0, 0)
  let g1 := setVisited (initGrid pattern w h) start
  { grid := g1
    frontier := (unvisitedNeighbors g1 w h start).map fun qd => (start, qd.1, qd.2)
    k := 1 }

/-- `PrimMazeGenerator.generate`, returning the final grid and the number
of random draws consumed.  When every cell is a pattern cell the generator
returns the untouched grid. -/
def primGenerate (rng : Rng) (w h : Nat) (pattern : List Pos) : Grid × Nat :=
  if nonPatternCells w h pattern = [] then (initGrid pattern w h, 0)
  else
    let s := primLoop rng w h (4 * w * h + 8) (primInitState rng w h pattern)
    (s.grid, s.k)

/-! ### DFS algorithm (`internal/maze_generator_dfs.py`) -/

/-- The loop state of `DFSMazeGenerator.generate`: the stack holds the
current path with its top at the head. -/
structure DfsState where
  grid : Grid
  stack : List Pos
  k : Nat

/-- The initial reset: every non-pattern cell becomes unvisited. -/
def dfsReset (pattern : List Pos) (w h : Nat) (g : Grid) : Grid :=
  (List.range h).map fun y => (List.range w).map fun x =>
    if (x, y) ∈ pattern then cellAt g (x, y) else ⟨(cellAt g (x, y)).walls, false⟩

/-- Start-cell fixing: if the requested start is a pattern cell, the first
non-pattern cell in row-major order replaces it (or the request stands when
every cell is a pattern cell). -/
def dfsStart (w h : Nat) (pattern : List Pos) (sx sy : Nat) : Pos :=
  if (sx, sy) ∈ pattern then
    match nonPatternCells w h pattern with
    | [] => (sx, sy)
    | p :: _ => p
  else (sx, sy)

/-- One iteration of the `while stack:` loop: inspect the top cell's
unvisited neighbours; backtrack when there are none, otherwise carve to a
uniformly random one, mark it visited and push it. -/
def dfsStep (rng : Rng) (w h : Nat) (s : DfsState) : DfsState :=
  match s.stack with
  | [] => s
  | current :: tail =>
    let nbrs := unvisitedNeighbors s.grid w h current
    if nbrs = [] then { grid := s.grid, stack := tail, k := s.k }
    else
      let qd := nbrs.getD (rng s.k % nbrs.length) ((0, 0), Dir.N)
      let g2 := setVisited (removeWallBetween s.grid current qd.1 qd.2) qd.1
      { grid := g2, stack := qd.1 :: s.stack, k := s.k + 1 }

/-- The fuelled `while stack:` loop. -/
def dfsLoop (rng : Rng) (w h : Nat) : Nat → DfsState → DfsState
  | 0, s => s
  | fuel + 1, s =>
    if s.stack = [] then s else dfsLoop rng w h fuel (dfsStep rng w h s)

/-- The state right before the loop: reset visited flags, fix the start
cell, mark it visited and push it. -/
def dfsInitState (w h : Nat) (pattern : List Pos) (sx sy : Nat) : DfsState :=
  let st := dfsStart w h pattern sx sy
  { grid := setVisited (dfsReset pattern w h (initGrid pattern w h)) st
    stack := [st]
    k := 0 }

/-- `DFSMazeGenerator.generate(start_x, start_y)`. -/
def dfsGenerate (rng : Rng) (w h : Nat) (pattern : List Pos) (sx sy : Nat) : Grid × Nat :=
  let s := dfsLoop rng w h (2 * w * h + 2) (dfsInitState w h pattern sx sy)
  (s.grid, s.k)

/-! ### Loop injection and pipeline (`internal/maze_with_animation.py`,
`internal/animated_maze_with_pattern.py`) -/

/-- The algorithm selector of `MazeGeneratorWithAnimation.generate`. -/
inductive Algo : Type where
  | prim | dfs
deriving DecidableEq, Repr

/-- The base generation run of the animated pipeline (DFS is invoked with
its default `(0, 0)` start). -/
def baseGenerate (algo : Algo) (rng : Rng) (w h : Nat) (pattern : List Pos) : Grid × Nat :=
  match algo with
  | .prim => primGenerate rng w h pattern
  | .dfs => dfsGenerate rng w h pattern 0 0

/-- The start cell a base generation run settles on: Prim draws a uniformly
random non-pattern cell (draw 0), DFS fixes its default `(0, 0)` request. -/
def runStart (algo : Algo) (rng : Rng) (w h : Nat) (pattern : List Pos) : Pos :=
  match algo with
  | .prim => (nonPatternCells w h pattern).getD
      (rng 0 % (nonPatternCells w h pattern).length) (0, 0)
  | .dfs => dfsStart w h pattern 0 0

/-- `MazeGeneratorWithAnimation._remove_extra_walls`: up to 1000 attempts;
each attempt draws a random cell (two draws), skips it if it is a pattern
cell, otherwise draws a random direction and, when the neighbour is in
bounds, not a pattern cell, and the wall is still closed, removes the wall
symmetrically.  Returns the final grid and the removal count. -/
def removeExtraLoop (rng : Rng) (w h : Nat) (pattern : List Pos) (target : Nat) :
    Nat → Nat → Nat → Grid → Grid × Nat
  | 0, removed, _, g => (g, removed)
  | fuel + 1, removed, k, g =>
    if target ≤ removed then (g, removed)
    else
      let rp : Pos := (rng k % w, rng (k + 1) % h)
      if rp ∈ pattern then removeExtraLoop rng w h pattern target fuel removed (k + 2) g
      else
        let d := dirAt (rng (k + 2) % 4)
        match nextPos w h rp d with
        | some np =>
          if np ∈ pattern then removeExtraLoop rng w h pattern target fuel removed (k + 3) g
          else if (cellAt g rp).walls &&& wallBit d ≠ 0 then
            removeExtraLoop rng w h pattern target fuel (removed + 1) (k + 3)
              (removeWallBetween g rp np d)
          else removeExtraLoop rng w h pattern target fuel removed (k + 3) g
        | none => removeExtraLoop rng w h pattern target fuel removed (k + 3) g

/-- The loop-injection pass with its target `(width * height) // 20` and
the 1000-attempt cap. -/
def removeExtraWalls (rng : Rng) (k : Nat) (w h : Nat) (pattern : List Pos) (g : Grid) :
    Grid × Nat :=
  removeExtraLoop rng w h pattern (w * h / 20) 1000 0 k g

/-- `AnimatedMazeGeneratorWithPattern._remove_extra_walls`: same loop, but
the randomly drawn origin cell is never tested against the pattern mask —
only the neighbour is — and each attempt always consumes three draws. -/
def patternRemoveExtraLoop (rng : Rng) (w h : Nat) (pattern : List Pos) (target : Nat) :
    Nat → Nat → Nat → Grid → Grid × Nat
  | 0, removed, _, g => (g, removed)
  | fuel + 1, removed, k, g =>
    if target ≤ removed then (g, removed)
    else
      let rp : Pos := (rng k % w, rng (k + 1) % h)
      let d := dirAt (rng (k + 2) % 4)
      match nextPos w h rp d with
      | some np =>
        if (cellAt g rp).walls &&& wallBit d ≠ 0 ∧ np ∉ pattern then
          patternRemoveExtraLoop rng w h pattern target fuel (removed + 1) (k + 3)
            (removeWallBetween g rp np d)
        else patternRemoveExtraLoop rng w h pattern target fuel removed (k + 3) g
      | none => patternRemoveExtraLoop rng w h pattern target fuel removed (k + 3) g

/-- The pattern-variant injection pass. -/
def patternRemoveExtraWalls (rng : Rng) (k : Nat) (w h : Nat) (pattern : List Pos)
    (g : Grid) : Grid × Nat :=
  patternRemoveExtraLoop rng w h pattern (w * h / 20) 1000 0 k g

/-- `MazeGeneratorWithAnimation.generate(algorithm)`: base generation, then
loop injection when `perfect` is false.  Frame captures only read the grid
and are omitted. -/
def animGenerate (algo : Algo) (rng : Rng) (w h : Nat) (pattern : List Pos)
    (perfect : Bool) : Grid :=
  let gk := baseGenerate algo rng w h pattern
  if perfect then gk.1 else (removeExtraWalls rng gk.2 w h pattern gk.1).1

/-- One iteration of the legacy `algorithms/prim.py` `MazeGenerator.generate`
loop: unlike the internal generator, the frontier extension runs on every
iteration (its `for` loop sits outside the `if not neighbor_cell.visited`
block). -/
def legacyPrimStep (rng : Rng) (w h : Nat) (s : PrimState) : PrimState :=
  let i := rng s.k % s.frontier.length
  let e := s.frontier.getD i ((0, 0), (0, 0), Dir.N)
  let rest := s.frontier.eraseIdx i
  let g2 := if (cellAt s.grid e.2.1).visited then s.grid
    else setVisited (removeWallBetween s.grid e.1 e.2.1 e.2.2) e.2.1
  { grid := g2
    frontier := rest ++ (unvisitedNeighbors g2 w h e.2.1).map fun qd => (e.2.1, qd.1, qd.2)
    k := s.k + 1 }

/-- The fuelled legacy loop. -/
def legacyPrimLoop (rng : Rng) (w h : Nat) : Nat → PrimState → PrimState
  | 0, s => s
  | fuel + 1, s =>
    if s.frontier = [] then s else legacyPrimLoop rng w h fuel (legacyPrimStep rng w h s)

/-- `algorithms/prim.py` `MazeGenerator.generate()` on a previously built
grid: a uniformly random start cell (two draws), a frontier seeded with all
of its neighbours, then the legacy loop. -/
def legacyPrimGenerate (rng : Rng) (w h : Nat) (g0 : Grid) : Grid × Nat :=
  let start : Pos := (rng 0 % w, rng 1 % h)
  let g1 := setVisited g0 start
  let s := legacyPrimLoop rng w h (5 ^ (w * h + 1))
    { grid := g1, frontier := (neighbors w h start).map fun qd => (start, qd.1, qd.2), k := 2 }
  (s.grid, s.k)

/-- `AnimatedPrim.generate` of `animated_maze_with_pattern.py`: a random
non-pattern start, a frontier seeded with all of its neighbours (visited
ones included, unlike the internal generator), and the same loop body as
the internal generator; when every cell is a pattern cell it falls back to
the legacy generator. -/
def animatedPrimGenerate (rng : Rng) (w h : Nat) (pattern : List Pos) : Grid × Nat :=
  if nonPatternCells w h pattern = [] then
    legacyPrimGenerate rng w h (initGrid pattern w h)
  else
    let nc := nonPatternCells w h pattern
    let start := nc.getD (rng 0 % nc.length) (0, 0)
    let g1 := setVisited (initGrid pattern w h) start
    let s := primLoop rng w h (4 * w * h + 8)
      { grid := g1
        frontier := (neighbors w h start).map fun qd => (start, qd.1, qd.2)
        k := 1 }
    (s.grid, s.k)

/-- The `algorithm="prim"` path of
`AnimatedMazeGeneratorWithPattern.generate`: animated Prim generation, then
the pattern-variant loop injection when `perfect` is false. -/
def animPatternPrimGenerate (rng : Rng) (w h : Nat) (pattern : List Pos)
    (perfect : Bool) : Grid :=
  let gk := animatedPrimGenerate rng w h pattern
  if perfect then gk.1 else (patternRemoveExtraWalls rng gk.2 w h pattern gk.1).1

/-- The wall-state matrix of a run, row-major as in `_capture_frame`. -/
def wallMatrix (w h : Nat) (g : Grid) : List (List Nat) :=
  (List.range h).map fun y => (List.range w).map fun x => (cellAt g (x, y)).walls

/-- The `enabled` flag added by `AnimatableMazeGenerator.__init__`:
pattern cells get `enabled = False`, all others `True`. -/
def cellEnabled (pattern : List Pos) (p : Pos) : Bool := p ∉ pattern

/-- All in-bounds coordinates. -/
def allPositions (w h : Nat) : List Pos := List.range w ×ˢ List.range h

/-- Every undirected interior edge of the grid, once, through its east or
south side. -/
def edgeSides (w h : Nat) : List (Pos × Dir) := allPositions w h ×ˢ [Dir.E, Dir.S]

/-- The number of in-bounds cells not on the BFS visited list. -/
def bfsUnvis (w h : Nat) (vis : List Pos) : Nat :=
  (allPositions w h).countP fun a => !decide (a ∈ vis)

/-- The number of in-bounds cells marked visited. -/
def visitedCount (w h : Nat) (g : Grid) : Nat :=
  (allPositions w h).countP fun p => (cellAt g p).visited

/-- The number of carved passages: adjacent in-bounds pairs whose shared
wall is open, counted once per pair through its east/south side. -/
def passageCount (w h : Nat) (g : Grid) : Nat :=
  (edgeSides w h).countP fun pd =>
    (nextPos w h pd.1 pd.2).isSome && decide ((cellAt g pd.1).walls &&& wallBit pd.2 = 0)

/-- The number of in-bounds enabled (non-pattern) cells marked visited. -/
def enabledVisitedCount (w h : Nat) (pattern : List Pos) (g : Grid) : Nat :=
  (allPositions w h).countP fun p => (cellAt g p).visited && decide (p ∉ pattern)

/-- The number of in-bounds enabled (non-pattern) cells. -/
def enabledCellCount (w h : Nat) (pattern : List Pos) : Nat :=
  (allPositions w h).countP fun p => decide (p ∉ pattern)

/-- The closed carvable edges of the specification's loop-injection sizing:
adjacent in-bounds pairs with both endpoints outside the pattern whose
shared wall is still closed. -/
def closedCarvableEdgeCount (w h : Nat) (pattern : List Pos) (g : Grid) : Nat :=
  (edgeSides w h).countP fun pd =>
    match nextPos w h pd.1 pd.2 with
    | some np => decide (pd.1 ∉ pattern) && decide (np ∉ pattern)
        && decide ((cellAt g pd.1).walls &&& wallBit pd.2 ≠ 0)
    | none => false

/-! ### Basic lemmas -/

lemma bfsLoop_found (g : List (List Nat)) (goal : Pos) (w h fuel : Nat)
    (ds : List Dir) (rest : List (Pos × List Dir)) (vis : List Pos) :
    bfsLoop g goal w h (fuel + 1) ((goal, ds) :: rest) vis = ds := by
  simp [bfsLoop]

/-! ### Pointwise grid lemmas -/

lemma getD_set_ne {α : Type} (l : List α) (i j : Nat) (a d : α) (h : j ≠ i) :
    (l.set i a).getD j d = l.getD j d := by
  simp [List.getD_eq_getElem?_getD, List.getElem?_set_ne (Ne.symm h)]

lemma getD_set_eq {α : Type} (l : List α) (i : Nat) (a d : α) (h : i < l.length) :
    (l.set i a).getD i d = a := by
  simp [List.getD_eq_getElem?_getD, List.getElem?_set_eq h]

lemma cellAt_setCell_ne (g : Grid) (p q : Pos) (c : Cell) (h : q ≠ p) :
    cellAt (setCell g p c) q = cellAt g q := by
  unfold cellAt setCell
  by_cases hy : q.2 = p.2
  · have hx : q.1 ≠ p.1 := by
      intro hx; exact h (Prod.ext hx hy)
    by_cases hl : p.2 < g.length
    · rw [hy, getD_set_eq _ _ _ _ hl, getD_set_ne _ _ _ _ _ hx]
    · rw [List.set_eq_of_length_le (Nat.le_of_not_lt hl)]
  · rw [getD_set_ne _ _ _ _ _ hy]

lemma cellAt_setCell_eq (g : Grid) (p : Pos) (c : Cell)
    (h2 : p.2 < g.length) (h1 : p.1 < (g.getD p.2 []).length) :
    cellAt (setCell g p c) p = c := by
  unfold cellAt setCell
  rw [getD_set_eq _ _ _ _ h2, getD_set_eq _ _ _ _ h1]

/-- The grid is a `w × h` matrix. -/
def Rect (w h : Nat) (g : Grid) : Prop :=
  g.length = h ∧ ∀ row ∈ g, row.length = w

lemma Rect.row_len {w h : Nat} {g : Grid} (hg : Rect w h g) {y : Nat} (hy : y < h) :
    (g.getD y []).length = w := by
  have hlen : y < g.length := by rw [hg.1]; exact hy
  have : g.getD y [] = g[y] := by
    simp [List.getD_eq_getElem?_getD, List.getElem?_eq_getElem hlen]
  rw [this]
  exact hg.2 _ (List.getElem_mem hlen)

lemma rect_initGrid (pattern : List Pos) (w h : Nat) : Rect w h (initGrid pattern w h) := by
  constructor
  · simp [initGrid]
  · intro row hrow
    simp only [initGrid, List.mem_map] at hrow
    obtain ⟨y, -, rfl⟩ := hrow
    simp

lemma rect_setCell {w h : Nat} {g : Grid} (hg : Rect w h g) (p : Pos) (c : Cell) :
    Rect w h (setCell g p c) := by
  refine ⟨by simp [setCell, hg.1], ?_⟩
  intro row hrow
  by_cases hy : p.2 < g.length
  · rcases List.mem_or_eq_of_mem_set hrow with hmem | rfl
    · exact hg.2 _ hmem
    · rw [List.length_set]
      have hgd : g.getD p.2 [] = g[p.2] := by
        simp [List.getD_eq_getElem?_getD, List.getElem?_eq_getElem hy]
      rw [hgd]
      exact hg.2 _ (List.getElem_mem hy)
  · rw [setCell, List.set_eq_of_length_le (Nat.le_of_not_lt hy)] at hrow
    exact hg.2 _ hrow

lemma rect_cellAt_orig {w h : Nat} {g : Grid} (hg : Rect w h g) {p : Pos}
    (h1 : p.1 < w) (h2 : p.2 < h) (c : Cell) :
    cellAt (setCell g p c) p = c := by
  apply cellAt_setCell_eq
  · rw [hg.1]; exact h2
  · rw [hg.row_len h2]; exact h1

/-- Lookup in a matrix built by comprehension over the rectangle. -/
lemma cellAt_build (F : Nat → Nat → Cell) (w h x y : Nat) :
    cellAt ((List.range h).map fun j => (List.range w).map fun i => F i j) (x, y) =
      if x < w ∧ y < h then F x y else ⟨15, false⟩ := by
  unfold cellAt
  by_cases hy : y < h
  · have : (((List.range h).map fun j => (List.range w).map fun i => F i j).getD y []) =
        (List.range w).map fun i => F i y := by
      simp [List.getD_eq_getElem?_getD, List.getElem?_map, List.getElem?_range hy]
    rw [this]
    by_cases hx : x < w
    · simp [List.getD_eq_getElem?_getD, List.getElem?_map, List.getElem?_range hx, hx, hy]
    · have : x ≥ ((List.range w).map fun i => F i y).length := by
        simp [Nat.le_of_not_lt hx]
      simp [List.getD_eq_getElem?_getD, List.getElem?_eq_none this, hx]
  · have : y ≥ (((List.range h).map fun j => (List.range w).map fun i => F i j)).length := by
      simp [Nat.le_of_not_lt hy]
    simp [List.getD_eq_getElem?_getD, List.getElem?_eq_none this, hy]

lemma cellAt_initGrid (pattern : List Pos) (w h : Nat) (p : Pos) :
    cellAt (initGrid pattern w h) p =
      if p.1 < w ∧ p.2 < h then ⟨15, decide (p ∈ pattern)⟩ else ⟨15, false⟩ := by
  obtain ⟨x, y⟩ := p
  exact cellAt_build (fun i j => ⟨15, decide ((i, j) ∈ pattern)⟩) w h x y

/-! ### Wall-bit lemmas -/

lemma mask_and_bit_self (v : Nat) (d : Dir) :
    (v &&& (15 ^^^ wallBit d)) &&& wallBit d = 0 := by
  rw [Nat.and_assoc]
  have : (15 ^^^ wallBit d) &&& wallBit d = 0 := by cases d <;> decide
  rw [this, Nat.and_zero]

lemma mask_and_bit_other (v : Nat) (d e : Dir) (h : e ≠ d) :
    (v &&& (15 ^^^ wallBit d)) &&& wallBit e = v &&& wallBit e := by
  rw [Nat.and_assoc]
  have : (15 ^^^ wallBit d) &&& wallBit e = wallBit e := by
    cases d <;> cases e <;> first |(exact absurd rfl h) | decide
  rw [this]

lemma clear_stays_clear (v m b : Nat) (h : v &&& b = 0) : (v &&& m) &&& b = 0 := by
  rw [Nat.and_assoc, Nat.and_comm m b, ← Nat.and_assoc, h, Nat.zero_and]

/-! ### Geometry lemmas -/

lemma mem_ite_singleton {α : Type} {a e : α} {c : Prop} [Decidable c] :
    a ∈ (if c then [e] else []) ↔ c ∧ a = e := by
  split <;> simp_all

lemma nextPos_inb {w h : Nat} {p q : Pos} {d : Dir} (hq : nextPos w h p d = some q) :
    q.1 < w ∧ q.2 < h := by
  cases d <;> simp only [nextPos] at hq <;> split at hq <;>
    (try exact Option.noConfusion hq) <;>
    (injection hq with hq; subst hq; constructor <;> simp <;> omega)

lemma nextPos_rev {w h : Nat} {p q : Pos} {d : Dir}
    (hp1 : p.1 < w) (hp2 : p.2 < h) (hq : nextPos w h p d = some q) :
    nextPos w h q (oppositeDir d) = some p := by
  obtain ⟨x, y⟩ := p
  dsimp only at hp1 hp2
  cases d <;> simp only [nextPos, oppositeDir] at hq ⊢ <;> split at hq <;>
    (try exact Option.noConfusion hq) <;>
    (injection hq with hq; subst hq; dsimp only; split) <;>
    first
      | (simp <;> omega)
      | (exfalso; omega)

lemma mem_neighbors_iff {w h : Nat} {p q : Pos} {d : Dir}
    (hp1 : p.1 < w) (hp2 : p.2 < h) :
    (q, d) ∈ neighbors w h p ↔ nextPos w h p d = some q := by
  obtain ⟨x, y⟩ := p
  dsimp only at hp1 hp2
  simp only [neighbors, List.mem_append, mem_ite_singleton, Prod.mk.injEq]
  cases d <;> simp only [nextPos] <;>
    constructor <;> intro hm
  all_goals
    first
      | (rcases hm with ((⟨hc, hq, he⟩ | ⟨hc, hq, he⟩) | ⟨hc, hq, he⟩) | ⟨hc, hq, he⟩ <;>
          (try cases he) <;> subst hq <;> rw [if_pos (by omega)])
      | (split at hm <;>
          (try exact Option.noConfusion hm) <;>
          (injection hm with hm; subst hm; simp <;> omega))

lemma nextPos_pos {w h : Nat} {p q : Pos} {d : Dir} (hq : nextPos w h p d = some q) :
    0 < w ∧ 0 < h := by
  cases d <;> simp only [nextPos] at hq <;> split at hq <;>
    (try exact Option.noConfusion hq) <;> omega

lemma nextPos_ne {w h : Nat} {p q : Pos} {d : Dir} (hq : nextPos w h p d = some q) :
    q ≠ p := by
  cases d <;> simp only [nextPos] at hq <;> split at hq <;>
    (try exact Option.noConfusion hq) <;>
    (injection hq with hq; subst hq; intro he; rw [Prod.ext_iff] at he; dsimp at he; omega)

lemma cellAt_removeWall_ne (g : Grid) (x p : Pos) (d : Dir) (h : p ≠ x) :
    cellAt (removeWall g x d) p = cellAt g p :=
  cellAt_setCell_ne _ _ _ _ h

lemma cellAt_removeWall_eq {w h : Nat} {g : Grid} (hg : Rect w h g) {p : Pos} (d : Dir)
    (h1 : p.1 < w) (h2 : p.2 < h) :
    cellAt (removeWall g p d) p =
      ⟨(cellAt g p).walls &&& (15 ^^^ wallBit d), (cellAt g p).visited⟩ :=
  rect_cellAt_orig hg h1 h2 _

lemma rect_removeWall {w h : Nat} {g : Grid} (hg : Rect w h g) (p : Pos) (d : Dir) :
    Rect w h (removeWall g p d) := rect_setCell hg _ _

lemma rect_removeWallBetween {w h : Nat} {g : Grid} (hg : Rect w h g) (p q : Pos) (d : Dir) :
    Rect w h (removeWallBetween g p q d) := rect_setCell (rect_setCell hg _ _) _ _

lemma rect_setVisited {w h : Nat} {g : Grid} (hg : Rect w h g) (p : Pos) :
    Rect w h (setVisited g p) := rect_setCell hg _ _

lemma oppositeDir_oppositeDir (d : Dir) : oppositeDir (oppositeDir d) = d := by
  cases d <;> rfl

lemma nextPos_inj_dir {w h : Nat} {p q : Pos} {d e : Dir}
    (hd : nextPos w h p d = some q) (he : nextPos w h p e = some q) : d = e := by
  cases d <;> cases e <;> (try rfl) <;>
    simp only [nextPos] at hd he <;> split at hd <;>
    (try exact Option.noConfusion hd) <;> split at he <;>
    (try exact Option.noConfusion he) <;>
    (injection hd with hd; injection he with he; rw [← he] at hd;
     rw [Prod.ext_iff] at hd; dsimp at hd; omega)

lemma nextPos_inj_src {w h : Nat} {p p2 q : Pos} {d : Dir}
    (hp : nextPos w h p d = some q) (hp2 : nextPos w h p2 d = some q) : p = p2 := by
  cases d <;> simp only [nextPos] at hp hp2 <;> split at hp <;>
    (try exact Option.noConfusion hp) <;> split at hp2 <;>
    (try exact Option.noConfusion hp2) <;>
    (injection hp with hp; injection hp2 with hp2; rw [← hp2] at hp;
     rw [Prod.ext_iff] at hp ⊢; dsimp at hp ⊢; omega)

/-- `15 = 0b1111` has every direction bit set. -/
lemma fifteen_and_bit (d : Dir) : 15 &&& wallBit d ≠ 0 := by
  cases d <;> decide

lemma cellAt_setVisited {w h : Nat} {g : Grid} (hg : Rect w h g) {u : Pos}
    (hu1 : u.1 < w) (hu2 : u.2 < h) (p : Pos) :
    cellAt (setVisited g u) p =
      if p = u then ⟨(cellAt g u).walls, true⟩ else cellAt g p := by
  by_cases hp : p = u
  · subst hp; rw [if_pos rfl]; exact rect_cellAt_orig hg hu1 hu2 _
  · rw [if_neg hp]; exact cellAt_setCell_ne _ _ _ _ hp

lemma cellAt_removeWallBetween {w h : Nat} {g : Grid} (hg : Rect w h g) {a b : Pos}
    (d : Dir) (ha1 : a.1 < w) (ha2 : a.2 < h) (hb1 : b.1 < w) (hb2 : b.2 < h)
    (hab : a ≠ b) (p : Pos) :
    cellAt (removeWallBetween g a b d) p =
      if p = a then ⟨(cellAt g a).walls &&& (15 ^^^ wallBit d), (cellAt g a).visited⟩
      else if p = b then
        ⟨(cellAt g b).walls &&& (15 ^^^ wallBit (oppositeDir d)), (cellAt g b).visited⟩
      else cellAt g p := by
  unfold removeWallBetween
  by_cases hpa : p = a
  · subst hpa
    rw [if_pos rfl, cellAt_removeWall_ne _ _ _ _ hab,
      cellAt_removeWall_eq hg d ha1 ha2]
  · rw [if_neg hpa]
    by_cases hpb : p = b
    · subst hpb
      rw [if_pos rfl, cellAt_removeWall_eq (rect_removeWall hg _ _) _ hb1 hb2,
        cellAt_removeWall_ne _ _ _ _ (fun he => hab he.symm)]
    · rw [if_neg hpb, cellAt_removeWall_ne _ _ _ _ hpb, cellAt_removeWall_ne _ _ _ _ hpa]

/-- The carve-symmetry invariant: across every adjacent in-bounds pair the
wall is open on one side iff it is open on the other. -/
def SymmWalls (w h : Nat) (g : Grid) : Prop :=
  ∀ p d q, p.1 < w → p.2 < h → nextPos w h p d = some q →
    ((cellAt g p).walls &&& wallBit d = 0 ↔
      (cellAt g q).walls &&& wallBit (oppositeDir d) = 0)

lemma symmWalls_initGrid (pattern : List Pos) (w h : Nat) :
    SymmWalls w h (initGrid pattern w h) := by
  intro p d q hp1 hp2 hq
  have hqb := nextPos_inb hq
  rw [cellAt_initGrid, cellAt_initGrid, if_pos ⟨hp1, hp2⟩, if_pos ⟨hqb.1, hqb.2⟩]
  simp only []
  exact ⟨fun hc => absurd hc (fifteen_and_bit d),
    fun hc => absurd hc (fifteen_and_bit (oppositeDir d))⟩

lemma walls_setVisited {w h : Nat} {g : Grid} (hg : Rect w h g) {u : Pos}
    (hu1 : u.1 < w) (hu2 : u.2 < h) (p : Pos) :
    (cellAt (setVisited g u) p).walls = (cellAt g p).walls := by
  by_cases hpu : p = u
  · subst hpu; rw [cellAt_setVisited hg hu1 hu2, if_pos rfl]
  · rw [cellAt_setVisited hg hu1 hu2, if_neg hpu]

lemma symmWalls_setVisited {w h : Nat} {g : Grid} (hg : Rect w h g)
    (hs : SymmWalls w h g) {u : Pos} (hu1 : u.1 < w) (hu2 : u.2 < h) :
    SymmWalls w h (setVisited g u) := by
  intro p d q hp1 hp2 hq
  rw [walls_setVisited hg hu1 hu2, walls_setVisited hg hu1 hu2]
  exact hs p d q hp1 hp2 hq

/-- Symmetric removal across an adjacent pair preserves carve symmetry. -/
lemma symmWalls_carve {w h : Nat} {g : Grid} (hg : Rect w h g)
    (hs : SymmWalls w h g) {a b : Pos} {d : Dir}
    (ha1 : a.1 < w) (ha2 : a.2 < h) (hab : nextPos w h a d = some b) :
    SymmWalls w h (removeWallBetween g a b d) := by
  have hbb := nextPos_inb hab
  have hba : b ≠ a := nextPos_ne hab
  have hrev : nextPos w h b (oppositeDir d) = some a := nextPos_rev ha1 ha2 hab
  intro p e q hp1 hp2 hq
  have hqb := nextPos_inb hq
  have hqp : q ≠ p := nextPos_ne hq
  rw [cellAt_removeWallBetween hg d ha1 ha2 hbb.1 hbb.2 (fun x => hba x.symm) p,
    cellAt_removeWallBetween hg d ha1 ha2 hbb.1 hbb.2 (fun x => hba x.symm) q]
  by_cases hpa : p = a
  · subst hpa
    rw [if_pos rfl]
    by_cases hqb2 : q = b
    · subst hqb2
      have hed : e = d := nextPos_inj_dir hq hab
      subst hed
      rw [if_neg hba, if_pos rfl]
      dsimp only
      exact ⟨fun _ => mask_and_bit_self _ _, fun _ => mask_and_bit_self _ _⟩
    · rw [if_neg hqp, if_neg hqb2]
      have hed : e ≠ d := by
        intro x; subst x
        exact hqb2 (Option.some.inj (hq.symm.trans hab))
      dsimp only
      rw [mask_and_bit_other _ _ _ hed]
      exact hs p e q hp1 hp2 hq
  · rw [if_neg hpa]
    by_cases hpb : p = b
    · subst hpb
      rw [if_pos rfl]
      by_cases hqa : q = a
      · subst hqa
        have hed : e = oppositeDir d := nextPos_inj_dir hq hrev
        subst hed
        rw [if_pos rfl]
        dsimp only
        rw [oppositeDir_oppositeDir]
        exact ⟨fun _ => mask_and_bit_self _ _, fun _ => mask_and_bit_self _ _⟩
      · rw [if_neg hqa, if_neg hqp]
        have hed : e ≠ oppositeDir d := by
          intro x; subst x
          exact hqa (Option.some.inj (hq.symm.trans hrev))
        dsimp only
        rw [mask_and_bit_other _ _ _ hed]
        exact hs p e q hp1 hp2 hq
    · rw [if_neg hpb]
      by_cases hqa : q = a
      · subst hqa
        rw [if_pos rfl]
        have hed : oppositeDir e ≠ d := by
          intro x
          have hrev2 : nextPos w h q (oppositeDir e) = some p := nextPos_rev hp1 hp2 hq
          rw [x] at hrev2
          exact hpb (Option.some.inj (hrev2.symm.trans hab))
        dsimp only
        rw [mask_and_bit_other _ _ _ hed]
        exact hs p e q hp1 hp2 hq
      · rw [if_neg hqa]
        by_cases hqb2 : q = b
        · subst hqb2
          rw [if_pos rfl]
          have hed : oppositeDir e ≠ oppositeDir d := by
            intro x
            have hx : e = d := by
              have h2 := congrArg oppositeDir x
              rwa [oppositeDir_oppositeDir, oppositeDir_oppositeDir] at h2
            subst hx
            exact hpa (nextPos_inj_src hq hab)
          dsimp only
          rw [mask_and_bit_other _ _ _ hed]
          exact hs p e q hp1 hp2 hq
        · rw [if_neg hqb2]
          exact hs p e q hp1 hp2 hq

/-! ### Counting lemmas -/

lemma mem_allPositions {w h : Nat} {p : Pos} :
    p ∈ allPositions w h ↔ p.1 < w ∧ p.2 < h := by
  obtain ⟨x, y⟩ := p
  simp [allPositions, List.mem_product]

lemma nodup_allPositions (w h : Nat) : (allPositions w h).Nodup :=
  List.Nodup.product (List.nodup_range w) (List.nodup_range h)

/-- `countP` respects pointwise equality of the predicate on the list. -/
lemma countP_congr_eq {α : Type} {l : List α} {f f2 : α → Bool}
    (h : ∀ b ∈ l, f2 b = f b) : l.countP f2 = l.countP f :=
  List.countP_congr fun b hb => by rw [h b hb]

lemma mem_edgeSides {w h : Nat} {p : Pos} {d : Dir} :
    (p, d) ∈ edgeSides w h ↔ (p.1 < w ∧ p.2 < h) ∧ (d = Dir.E ∨ d = Dir.S) := by
  simp [edgeSides, List.mem_product, mem_allPositions]

lemma nodup_edgeSides (w h : Nat) : (edgeSides w h).Nodup :=
  List.Nodup.product (nodup_allPositions w h) (by decide)

/-- Flipping the predicate at exactly one element of a duplicate-free list
raises the count by one. -/
lemma countP_flip_one {α : Type} {l : List α} {f f2 : α → Bool} {a : α}
    (hnd : l.Nodup) (ha : a ∈ l) (hfa : f a = false) (hf2a : f2 a = true)
    (hsame : ∀ b ∈ l, b ≠ a → f2 b = f b) :
    l.countP f2 = l.countP f + 1 := by
  induction l with
  | nil => cases ha
  | cons x t ih =>
    rw [List.countP_cons, List.countP_cons]
    rcases List.nodup_cons.mp hnd with ⟨hxt, hndt⟩
    by_cases hxa : x = a
    · subst hxa
      have hcongr : t.countP f2 = t.countP f := by
        apply countP_congr_eq
        intro b hb
        exact hsame b (List.mem_cons_of_mem _ hb) (fun hba => hxt (hba ▸ hb))
      rw [hcongr, hfa, hf2a]
      simp
    · have hat : a ∈ t := by
        rcases List.mem_cons.mp ha with hax | hat
        · exact absurd hax.symm hxa
        · exact hat
      rw [ih hndt hat (fun b hb hbne => hsame b (List.mem_cons_of_mem _ hb) hbne),
        hsame x (List.mem_cons_self _ _) hxa]
      omega

/-- Split a count by a second predicate. -/
lemma countP_split {α : Type} (l : List α) (f c : α → Bool) :
    l.countP f = l.countP (fun a => f a && c a) + l.countP (fun a => f a && !(c a)) := by
  induction l with
  | nil => rfl
  | cons x t ih =>
    rw [List.countP_cons, List.countP_cons, List.countP_cons]
    cases hf : f x <;> cases hc : c x <;> simp [hf, hc] <;> omega

lemma countP_le_countP {α : Type} {f f2 : α → Bool} :
    ∀ l : List α, (∀ a ∈ l, f a = true → f2 a = true) →
      l.countP f ≤ l.countP f2 := by
  intro l
  induction l with
  | nil => intro _; exact Nat.le_refl _
  | cons x t ih =>
    intro h
    rw [List.countP_cons, List.countP_cons]
    have ht := ih fun a ha => h a (List.mem_cons_of_mem _ ha)
    by_cases hf : f x = true
    · rw [if_pos hf, if_pos (h x (List.mem_cons_self _ _) hf)]
      omega
    · rw [if_neg hf]
      omega

/-- A count of a disjunction of disjoint predicates is the sum of the
counts. -/
lemma countP_or_disjoint {α : Type} {f f2 : α → Bool} :
    ∀ l : List α, (∀ a ∈ l, f a = true → f2 a = false) →
      l.countP (fun a => f a || f2 a) = l.countP f + l.countP f2 := by
  intro l
  induction l with
  | nil => intro _; rfl
  | cons x t ih =>
    intro h
    rw [List.countP_cons, List.countP_cons, List.countP_cons,
      ih fun a ha => h a (List.mem_cons_of_mem _ ha)]
    cases hf : f x with
    | true =>
      have hf2 := h x (List.mem_cons_self _ _) hf
      simp [hf, hf2] <;> omega
    | false =>
      cases hf2 : f2 x <;> simp [hf, hf2] <;> omega

/-- A predicate's count and its negation's count partition the length. -/
lemma countP_not_add {α : Type} (l : List α) (f : α → Bool) :
    l.countP f + l.countP (fun a => !(f a)) = l.length := by
  induction l with
  | nil => rfl
  | cons x t ih =>
    rw [List.countP_cons, List.countP_cons, List.length_cons]
    cases hf : f x <;> simp [hf] <;> omega

/-- Removing the element at index `i` removes exactly its contribution to a
count. -/
lemma countP_eraseIdx {α : Type} (f : α → Bool) (d : α) :
    ∀ (l : List α) (i : Nat), i < l.length →
      l.countP f = (l.eraseIdx i).countP f +
        (if f (l.getD i d) = true then 1 else 0) := by
  intro l
  induction l with
  | nil => intro i hi; exact absurd hi (Nat.not_lt_zero i)
  | cons x t ih =>
    intro i hi
    cases i with
    | zero =>
      rw [show (x :: t).eraseIdx 0 = t from rfl, List.getD_cons_zero,
        List.countP_cons]
    | succ j =>
      rw [List.length_cons] at hi
      have hj : j < t.length := by omega
      rw [show (x :: t).eraseIdx (j + 1) = x :: t.eraseIdx j from rfl,
        List.countP_cons, List.countP_cons, List.getD_cons_succ, ih j hj]
      omega

/-- The visited flags are untouched by a symmetric wall removal. -/
lemma visited_removeWallBetween {w h : Nat} {g : Grid} (hg : Rect w h g) {a b : Pos}
    (d : Dir) (ha1 : a.1 < w) (ha2 : a.2 < h) (hb1 : b.1 < w) (hb2 : b.2 < h)
    (hab : a ≠ b) (p : Pos) :
    (cellAt (removeWallBetween g a b d) p).visited = (cellAt g p).visited := by
  rw [cellAt_removeWallBetween hg d ha1 ha2 hb1 hb2 hab p]
  by_cases hpa : p = a
  · subst hpa; rw [if_pos rfl]
  · rw [if_neg hpa]
    by_cases hpb : p = b
    · subst hpb; rw [if_pos rfl]
    · rw [if_neg hpb]

lemma visitedCount_removeWallBetween {w h : Nat} {g : Grid} (hg : Rect w h g) {a b : Pos}
    (d : Dir) (ha1 : a.1 < w) (ha2 : a.2 < h) (hb1 : b.1 < w) (hb2 : b.2 < h)
    (hab : a ≠ b) :
    visitedCount w h (removeWallBetween g a b d) = visitedCount w h g := by
  apply countP_congr_eq
  intro p _
  simp only [visited_removeWallBetween hg d ha1 ha2 hb1 hb2 hab p]

lemma visitedCount_setVisited {w h : Nat} {g : Grid} (hg : Rect w h g) {u : Pos}
    (hu1 : u.1 < w) (hu2 : u.2 < h) (hu : (cellAt g u).visited = false) :
    visitedCount w h (setVisited g u) = visitedCount w h g + 1 := by
  apply countP_flip_one (nodup_allPositions w h) (mem_allPositions.mpr ⟨hu1, hu2⟩)
  · exact hu
  · rw [cellAt_setVisited hg hu1 hu2, if_pos rfl]
  · intro b _ hbu
    rw [cellAt_setVisited hg hu1 hu2, if_neg hbu]

lemma passageCount_setVisited {w h : Nat} {g : Grid} (hg : Rect w h g) {u : Pos}
    (hu1 : u.1 < w) (hu2 : u.2 < h) :
    passageCount w h (setVisited g u) = passageCount w h g := by
  apply countP_congr_eq
  intro pd _
  simp only [walls_setVisited hg hu1 hu2]

/-- A symmetric removal of a closed wall across an adjacent in-bounds pair
adds exactly one passage. -/
lemma passageCount_carve {w h : Nat} {g : Grid} (hg : Rect w h g)
    (hs : SymmWalls w h g) {a b : Pos} {d : Dir}
    (ha1 : a.1 < w) (ha2 : a.2 < h) (hab : nextPos w h a d = some b)
    (hclosed : (cellAt g a).walls &&& wallBit d ≠ 0) :
    passageCount w h (removeWallBetween g a b d) = passageCount w h g + 1 := by
  have hbb := nextPos_inb hab
  have hba : b ≠ a := nextPos_ne hab
  have hrev := nextPos_rev ha1 ha2 hab
  have hcell := cellAt_removeWallBetween hg d ha1 ha2 hbb.1 hbb.2 (fun x => hba x.symm)
  have hsame :
      ∀ pd : Pos × Dir, pd ∈ edgeSides w h →
        pd ≠ (if d = Dir.E ∨ d = Dir.S then (a, d) else (b, oppositeDir d)) →
        ((nextPos w h pd.1 pd.2).isSome &&
            decide ((cellAt (removeWallBetween g a b d) pd.1).walls &&& wallBit pd.2 = 0)) =
          ((nextPos w h pd.1 pd.2).isSome &&
            decide ((cellAt g pd.1).walls &&& wallBit pd.2 = 0)) := by
    intro pd hpd hne
    obtain ⟨p, e⟩ := pd
    rcases mem_edgeSides.mp hpd with ⟨-, hes⟩
    congr 1
    rw [hcell p]
    by_cases hpa : p = a
    · subst hpa
      rw [if_pos rfl]
      have hed : e ≠ d := by
        intro x
        exact hne (by rw [if_pos (x ▸ hes), x])
      dsimp only
      rw [mask_and_bit_other _ _ _ hed]
    · rw [if_neg hpa]
      by_cases hpb : p = b
      · subst hpb
        rw [if_pos rfl]
        have hed : e ≠ oppositeDir d := by
          intro x
          have hnd : ¬(d = Dir.E ∨ d = Dir.S) := by
            have hx := x ▸ hes
            cases d <;> simp_all [oppositeDir]
          exact hne (by rw [if_neg hnd, x])
        dsimp only
        rw [mask_and_bit_other _ _ _ hed]
      · rw [if_neg hpb]
  by_cases hde : d = Dir.E ∨ d = Dir.S
  · rw [if_pos hde] at hsame
    apply countP_flip_one (nodup_edgeSides w h)
      (mem_edgeSides.mpr ⟨⟨ha1, ha2⟩, hde⟩)
    · simp [hab, hclosed]
    · rw [hcell a, if_pos rfl]
      simp only [hab, Option.isSome_some, Bool.true_and]
      dsimp only
      rw [decide_eq_true_eq]
      exact mask_and_bit_self _ _
    · exact hsame
  · rw [if_neg hde] at hsame
    have hclosedb : (cellAt g b).walls &&& wallBit (oppositeDir d) ≠ 0 := by
      intro hx
      exact hclosed ((hs a d b ha1 ha2 hab).mpr hx)
    have hoppES : oppositeDir d = Dir.E ∨ oppositeDir d = Dir.S := by
      cases d <;> simp_all [oppositeDir]
    apply countP_flip_one (nodup_edgeSides w h)
      (mem_edgeSides.mpr ⟨⟨hbb.1, hbb.2⟩, hoppES⟩)
    · simp [hrev, hclosedb]
    · rw [hcell b, if_neg hba, if_pos rfl]
      simp only [hrev, Option.isSome_some, Bool.true_and]
      dsimp only
      rw [decide_eq_true_eq]
      exact mask_and_bit_self _ _
    · exact hsame

/-- What one symmetric removal does to the wall bits that face a pattern
cell: nothing, provided both carved endpoints are outside the pattern. -/
lemma carve_preserves_pattern_facing_bits {w h : Nat} {g : Grid} {pattern0 : List Pos}
    (hg : Rect w h g)
    {rp np : Pos} {d : Dir} (hrp1 : rp.1 < w) (hrp2 : rp.2 < h)
    (hnp : nextPos w h rp d = some np)
    (hrpat : rp ∉ pattern0) (hnpat : np ∉ pattern0) :
    ∀ p q e, p ∉ pattern0 → nextPos w h p e = some q → q ∈ pattern0 →
      (cellAt (removeWallBetween g rp np d) p).walls &&& wallBit e =
        (cellAt g p).walls &&& wallBit e := by
  intro p q e hp hq hqpat
  have hne : np ≠ rp := nextPos_ne hnp
  have hnp_inb := nextPos_inb hnp
  by_cases hprp : p = rp
  · subst hprp
    have hed : e ≠ d := by
      intro he; subst he
      rw [hq] at hnp
      exact hnpat (Option.some.inj hnp ▸ hqpat)
    unfold removeWallBetween
    rw [cellAt_removeWall_ne _ _ _ _ (Ne.symm hne),
      cellAt_removeWall_eq hg d hrp1 hrp2]
    exact mask_and_bit_other _ _ _ hed
  · by_cases hpnp : p = np
    · subst hpnp
      have hrev := nextPos_rev hrp1 hrp2 hnp
      have hed : e ≠ oppositeDir d := by
        intro he; subst he
        rw [hq] at hrev
        exact hrpat (Option.some.inj hrev ▸ hqpat)
      unfold removeWallBetween
      rw [cellAt_removeWall_eq (rect_removeWall hg _ _) (oppositeDir d) hnp_inb.1 hnp_inb.2,
        cellAt_removeWall_ne _ _ _ _ hne]
      exact mask_and_bit_other _ _ _ hed
    · unfold removeWallBetween
      rw [cellAt_removeWall_ne _ _ _ _ hpnp, cellAt_removeWall_ne _ _ _ _ hprp]

/-- Behaviour of the loop-injection attempt loop: the removal count never
exceeds the target, pattern cells are untouched, and the wall bits of
non-pattern cells facing pattern cells are untouched. -/
lemma removeExtraLoop_spec (rng : Rng) (w h : Nat) (pattern : List Pos) (target : Nat) :
    ∀ fuel removed k g, Rect w h g →
      Rect w h (removeExtraLoop rng w h pattern target fuel removed k g).1 ∧
      (removeExtraLoop rng w h pattern target fuel removed k g).2 ≤ max removed target ∧
      (∀ p ∈ pattern,
        cellAt (removeExtraLoop rng w h pattern target fuel removed k g).1 p = cellAt g p) ∧
      (∀ p q e, p ∉ pattern → nextPos w h p e = some q → q ∈ pattern →
        (cellAt (removeExtraLoop rng w h pattern target fuel removed k g).1 p).walls
            &&& wallBit e =
          (cellAt g p).walls &&& wallBit e) := by
  intro fuel
  induction fuel with
  | zero =>
    intro removed k g hg
    exact ⟨hg, Nat.le_max_left _ _, fun p _ => rfl, fun p q e _ _ _ => rfl⟩
  | succ fuel ih =>
    intro removed k g hg
    rw [removeExtraLoop]
    dsimp only
    by_cases hstop : target ≤ removed
    · rw [if_pos hstop]
      exact ⟨hg, Nat.le_max_left _ _, fun p _ => rfl, fun p q e _ _ _ => rfl⟩
    · rw [if_neg hstop]
      have hrt : max removed target = target := Nat.max_eq_right (Nat.le_of_not_le hstop)
      set rp : Pos := (rng k % w, rng (k + 1) % h) with hrp
      by_cases hpat : rp ∈ pattern
      · rw [if_pos hpat]
        have := ih removed (k + 2) g hg
        exact ⟨this.1, le_trans this.2.1 (by omega), this.2.2.1, this.2.2.2⟩
      · rw [if_neg hpat]
        set d := dirAt (rng (k + 2) % 4) with hd
        cases hnp : nextPos w h rp d with
        | none =>
          dsimp only
          have := ih removed (k + 3) g hg
          exact ⟨this.1, le_trans this.2.1 (by omega), this.2.2.1, this.2.2.2⟩
        | some np =>
          dsimp only
          by_cases hnpp : np ∈ pattern
          · rw [if_pos hnpp]
            have := ih removed (k + 3) g hg
            exact ⟨this.1, le_trans this.2.1 (by omega), this.2.2.1, this.2.2.2⟩
          · rw [if_neg hnpp]
            by_cases hwall : (cellAt g rp).walls &&& wallBit d ≠ 0
            · rw [if_pos hwall]
              have hwh := nextPos_pos hnp
              have hrp1 : rp.1 < w := Nat.mod_lt _ hwh.1
              have hrp2 : rp.2 < h := Nat.mod_lt _ hwh.2
              have hg2 : Rect w h (removeWallBetween g rp np d) :=
                rect_removeWallBetween hg _ _ _
              have := ih (removed + 1) (k + 3) (removeWallBetween g rp np d) hg2
              refine ⟨this.1, ?_, ?_, ?_⟩
              · refine le_trans this.2.1 ?_
                rw [hrt, Nat.max_eq_right (by omega)]
              · intro p hp
                rw [this.2.2.1 p hp]
                unfold removeWallBetween
                rw [cellAt_removeWall_ne _ _ _ _ (fun he => hnpp (by rwa [he] at hp)),
                  cellAt_removeWall_ne _ _ _ _ (fun he => hpat (by rwa [he] at hp))]
              · intro p q e hp hq hqpat
                rw [this.2.2.2 p q e hp hq hqpat]
                exact carve_preserves_pattern_facing_bits hg hrp1 hrp2 hnp hpat hnpp
                  p q e hp hq hqpat
            · rw [if_neg hwall]
              have := ih removed (k + 3) g hg
              exact ⟨this.1, le_trans this.2.1 (by omega), this.2.2.1, this.2.2.2⟩

/-! ### Frontier and stack helpers -/

lemma getD_mem {α : Type} {l : List α} {i : Nat} (d : α) (hi : i < l.length) :
    l.getD i d ∈ l := by
  rw [List.getD_eq_getElem?_getD, List.getElem?_eq_getElem hi]
  exact List.getElem_mem hi

lemma mem_eraseIdx_of_ne {α : Type} (d0 : α) :
    ∀ (l : List α) (i : Nat) {x : α}, x ∈ l → x ≠ l.getD i d0 → x ∈ l.eraseIdx i := by
  intro l
  induction l with
  | nil => intro i x hx; cases hx
  | cons a t ih =>
    intro i x hx hne
    cases i with
    | zero =>
      rcases List.mem_cons.mp hx with rfl | hxt
      · exact absurd rfl hne
      · simpa [List.eraseIdx] using hxt
    | succ j =>
      rcases List.mem_cons.mp hx with rfl | hxt
      · exact List.mem_cons_self _ _
      · exact List.mem_cons_of_mem _ (ih j hxt hne)

lemma mem_eraseIdx {α : Type} (l : List α) (i : Nat) {x : α}
    (hx : x ∈ l.eraseIdx i) : x ∈ l :=
  (List.eraseIdx_sublist l i).subset hx

lemma neighbors_length_le (w h : Nat) (p : Pos) : (neighbors w h p).length ≤ 4 := by
  unfold neighbors
  split <;> split <;> split <;> split <;> simp

lemma unvisitedNeighbors_length_le (g : Grid) (w h : Nat) (p : Pos) :
    (unvisitedNeighbors g w h p).length ≤ 4 :=
  le_trans (List.length_filter_le _ _) (neighbors_length_le w h p)

lemma mem_unvisitedNeighbors {g : Grid} {w h : Nat} {p q : Pos} {d : Dir} :
    (q, d) ∈ unvisitedNeighbors g w h p ↔
      (q, d) ∈ neighbors w h p ∧ (cellAt g q).visited = false := by
  simp [unvisitedNeighbors, List.mem_filter, Bool.not_eq_true]

/-! ### The Prim loop invariant -/

/-- The number of in-bounds cells not yet visited. -/
def unvisitedCount (w h : Nat) (g : Grid) : Nat :=
  (allPositions w h).countP fun p => !(cellAt g p).visited

/-- Everything the proofs need to know about a reachable state of the
internal Prim loop.  `start` is the chosen start cell and `base` is the
visited-count offset fixed at initialisation (`passages + base = visited`
throughout, since every carve visits exactly one new cell). -/
structure PrimInv (w h : Nat) (pattern : List Pos) (start : Pos) (base : Nat)
    (s : PrimState) : Prop where
  rect : Rect w h s.grid
  symm : SymmWalls w h s.grid
  src_inb : ∀ e ∈ s.frontier, e.1.1 < w ∧ e.1.2 < h
  adj : ∀ e ∈ s.frontier, nextPos w h e.1 e.2.2 = some e.2.1
  src_vis : ∀ e ∈ s.frontier, (cellAt s.grid e.1).visited = true
  src_npat : ∀ e ∈ s.frontier, e.1 ∉ pattern
  pat_prot : ∀ p : Pos, p.1 < w → p.2 < h → p ∈ pattern →
    (cellAt s.grid p).visited = true ∧ (cellAt s.grid p).walls = 15
  unfull : ∀ p : Pos, p.1 < w → p.2 < h → (cellAt s.grid p).visited = false →
    (cellAt s.grid p).walls = 15
  opened : (∀ p : Pos, p.1 < w → p.2 < h → (cellAt s.grid p).visited = true →
      p ∉ pattern → ∃ d, (cellAt s.grid p).walls &&& wallBit d = 0) ∨
    ((∀ p : Pos, p.1 < w → p.2 < h → (cellAt s.grid p).walls = 15) ∧
      ∀ p : Pos, p.1 < w → p.2 < h → (cellAt s.grid p).visited = true → p ∉ pattern →
        p = start)
  count : passageCount w h s.grid + base = visitedCount w h s.grid
  start_vis : (cellAt s.grid start).visited = true
  cover : ∀ u : Pos, u.1 < w → u.2 < h → (cellAt s.grid u).visited = false →
    ∀ v : Pos, v.1 < w → v.2 < h → (cellAt s.grid v).visited = true → v ∉ pattern →
    (∃ d, nextPos w h v d = some u) → ∃ e ∈ s.frontier, e.2.1 = u

/-- One step of the internal Prim loop preserves the invariant. -/
lemma primStep_inv {w h : Nat} {pattern : List Pos} {start : Pos} {base : Nat}
    (rng : Rng) {s : PrimState} (hne : s.frontier ≠ [])
    (hinv : PrimInv w h pattern start base s) :
    PrimInv w h pattern start base (primStep rng w h s) := by
  unfold primStep
  dsimp only
  set i := rng s.k % s.frontier.length with hi_def
  have hi : i < s.frontier.length := Nat.mod_lt _ (List.length_pos.mpr hne)
  set e := s.frontier.getD i ((0, 0), (0, 0), Dir.N) with he_def
  have he : e ∈ s.frontier := getD_mem _ hi
  have hrest_sub : ∀ x ∈ s.frontier.eraseIdx i, x ∈ s.frontier :=
    fun x hx => mem_eraseIdx _ _ hx
  by_cases hv : (cellAt s.grid e.2.1).visited
  · rw [if_pos hv]
    refine ⟨hinv.rect, hinv.symm, fun x hx => hinv.src_inb x (hrest_sub x hx),
      fun x hx => hinv.adj x (hrest_sub x hx), fun x hx => hinv.src_vis x (hrest_sub x hx),
      fun x hx => hinv.src_npat x (hrest_sub x hx), hinv.pat_prot, hinv.unfull,
      hinv.opened, hinv.count, hinv.start_vis, ?_⟩
    intro u hu1 hu2 huv v hv1 hv2 hvv hvp hadj2
    obtain ⟨e2, he2, he2t⟩ := hinv.cover u hu1 hu2 huv v hv1 hv2 hvv hvp hadj2
    refine ⟨e2, ?_, he2t⟩
    apply mem_eraseIdx_of_ne _ _ _ he2
    intro hx
    rw [← he_def] at hx
    rw [hx] at he2t
    rw [he2t] at hv
    rw [huv] at hv
    exact Bool.noConfusion hv
  · rw [if_neg hv]
    have hcinb := hinv.src_inb e he
    have hadj := hinv.adj e he
    have huinb := nextPos_inb hadj
    have hucne : e.2.1 ≠ e.1 := nextPos_ne hadj
    have hcvis := hinv.src_vis e he
    have hcnpat := hinv.src_npat e he
    have huvis : (cellAt s.grid e.2.1).visited = false := by
      rcases Bool.eq_false_or_eq_true (cellAt s.grid e.2.1).visited with hb | hb
      · exact absurd hb hv
      · exact hb
    have hunpat : e.2.1 ∉ pattern := fun hp => by
      rw [(hinv.pat_prot e.2.1 huinb.1 huinb.2 hp).1] at huvis
      exact Bool.noConfusion huvis
    have hu15 : (cellAt s.grid e.2.1).walls = 15 := hinv.unfull _ huinb.1 huinb.2 huvis
    have hgc_rect : Rect w h (removeWallBetween s.grid e.1 e.2.1 e.2.2) :=
      rect_removeWallBetween hinv.rect _ _ _
    have hvgc : ∀ p, (cellAt (removeWallBetween s.grid e.1 e.2.1 e.2.2) p).visited =
        (cellAt s.grid p).visited :=
      visited_removeWallBetween hinv.rect e.2.2 hcinb.1 hcinb.2 huinb.1 huinb.2
        (fun x => hucne x.symm)
    have hcellgc := cellAt_removeWallBetween hinv.rect e.2.2 hcinb.1 hcinb.2
      huinb.1 huinb.2 (fun x => hucne x.symm)
    have hg2_rect : Rect w h (setVisited (removeWallBetween s.grid e.1 e.2.1 e.2.2) e.2.1) :=
      rect_setVisited hgc_rect _
    have hcellg2 := cellAt_setVisited hgc_rect huinb.1 huinb.2
    have hv2 : ∀ p, (cellAt (setVisited (removeWallBetween s.grid e.1 e.2.1 e.2.2) e.2.1)
        p).visited = if p = e.2.1 then true else (cellAt s.grid p).visited := by
      intro p
      rw [hcellg2 p]
      by_cases hp : p = e.2.1
      · rw [if_pos hp, if_pos hp]
      · rw [if_neg hp, if_neg hp, hvgc p]
    have hw2 : ∀ p, p ≠ e.2.1 → p ≠ e.1 →
        (cellAt (setVisited (removeWallBetween s.grid e.1 e.2.1 e.2.2) e.2.1) p).walls =
          (cellAt s.grid p).walls := by
      intro p hpu hpc
      rw [hcellg2 p, if_neg hpu, hcellgc p, if_neg hpc, if_neg hpu]
    have hw2u : (cellAt (setVisited (removeWallBetween s.grid e.1 e.2.1 e.2.2) e.2.1)
        e.2.1).walls =
        (cellAt s.grid e.2.1).walls &&& (15 ^^^ wallBit (oppositeDir e.2.2)) := by
      rw [hcellg2 e.2.1, if_pos rfl]
      dsimp only
      rw [hcellgc e.2.1, if_neg hucne, if_pos rfl]
    have hw2c : (cellAt (setVisited (removeWallBetween s.grid e.1 e.2.1 e.2.2) e.2.1)
        e.1).walls = (cellAt s.grid e.1).walls &&& (15 ^^^ wallBit e.2.2) := by
      rw [hcellg2 e.1, if_neg (fun x => hucne x.symm), hcellgc e.1, if_pos rfl]
    have hclosed : (cellAt s.grid e.1).walls &&& wallBit e.2.2 ≠ 0 := by
      intro hx
      have hq := (hinv.symm e.1 e.2.2 e.2.1 hcinb.1 hcinb.2 hadj).mp hx
      rw [hu15] at hq
      exact fifteen_and_bit _ hq
    refine ⟨hg2_rect,
      symmWalls_setVisited hgc_rect
        (symmWalls_carve hinv.rect hinv.symm hcinb.1 hcinb.2 hadj) huinb.1 huinb.2,
      ?_, ?_, ?_, ?_, ?_, ?_, ?_, ?_, ?_, ?_⟩
    · intro x hx
      rcases List.mem_append.mp hx with hx | hx
      · exact hinv.src_inb x (hrest_sub x hx)
      · obtain ⟨qd, -, rfl⟩ := List.mem_map.mp hx
        exact huinb
    · intro x hx
      rcases List.mem_append.mp hx with hx | hx
      · exact hinv.adj x (hrest_sub x hx)
      · obtain ⟨qd, hqd, rfl⟩ := List.mem_map.mp hx
        have hmem := (mem_unvisitedNeighbors (q := qd.1) (d := qd.2)).mp (by
          simpa using hqd)
        exact (mem_neighbors_iff huinb.1 huinb.2).mp hmem.1
    · intro x hx
      rcases List.mem_append.mp hx with hx | hx
      · rw [hv2 x.1]
        by_cases hxu : x.1 = e.2.1
        · rw [if_pos hxu]
        · rw [if_neg hxu]
          exact hinv.src_vis x (hrest_sub x hx)
      · obtain ⟨qd, -, rfl⟩ := List.mem_map.mp hx
        dsimp only
        rw [hv2 e.2.1, if_pos rfl]
    · intro x hx
      rcases List.mem_append.mp hx with hx | hx
      · exact hinv.src_npat x (hrest_sub x hx)
      · obtain ⟨qd, -, rfl⟩ := List.mem_map.mp hx
        exact hunpat
    · intro p hp1 hp2 hp
      have hpu : p ≠ e.2.1 := fun hx => hunpat (hx ▸ hp)
      have hpc : p ≠ e.1 := fun hx => hcnpat (hx ▸ hp)
      constructor
      · rw [hv2 p, if_neg hpu]
        exact (hinv.pat_prot p hp1 hp2 hp).1
      · rw [hw2 p hpu hpc]
        exact (hinv.pat_prot p hp1 hp2 hp).2
    · intro p hp1 hp2 hpv
      rw [hv2 p] at hpv
      by_cases hpu : p = e.2.1
      · rw [if_pos hpu] at hpv
        exact Bool.noConfusion hpv
      · rw [if_neg hpu] at hpv
        have hpc : p ≠ e.1 := by
          intro hx
          rw [hx, hcvis] at hpv
          exact Bool.noConfusion hpv
        rw [hw2 p hpu hpc]
        exact hinv.unfull p hp1 hp2 hpv
    · left
      intro p hp1 hp2 hpv hppat
      by_cases hpu : p = e.2.1
      · subst hpu
        refine ⟨oppositeDir e.2.2, ?_⟩
        rw [hw2u]
        exact mask_and_bit_self _ _
      · rw [hv2 p, if_neg hpu] at hpv
        by_cases hpc : p = e.1
        · subst hpc
          refine ⟨e.2.2, ?_⟩
          rw [hw2c]
          exact mask_and_bit_self _ _
        · rw [hw2 p hpu hpc]
          rcases hinv.opened with hop | ⟨hall, hsing⟩
          · exact hop p hp1 hp2 hpv hppat
          · exact absurd ((hsing p hp1 hp2 hpv hppat).trans
              (hsing e.1 hcinb.1 hcinb.2 hcvis hcnpat).symm) hpc
    · have hpass : passageCount w h
          (setVisited (removeWallBetween s.grid e.1 e.2.1 e.2.2) e.2.1) =
          passageCount w h s.grid + 1 := by
        rw [passageCount_setVisited hgc_rect huinb.1 huinb.2,
          passageCount_carve hinv.rect hinv.symm hcinb.1 hcinb.2 hadj hclosed]
      have hvis : visitedCount w h
          (setVisited (removeWallBetween s.grid e.1 e.2.1 e.2.2) e.2.1) =
          visitedCount w h s.grid + 1 := by
        rw [visitedCount_setVisited hgc_rect huinb.1 huinb.2 (by rw [hvgc]; exact huvis),
          visitedCount_removeWallBetween hinv.rect e.2.2 hcinb.1 hcinb.2 huinb.1 huinb.2
            (fun x => hucne x.symm)]
      rw [hpass, hvis]
      have := hinv.count
      omega
    · rw [hv2 start]
      by_cases hsu : start = e.2.1
      · rw [if_pos hsu]
      · rw [if_neg hsu]
        exact hinv.start_vis
    · intro u hu1 hu2 huv v hv1 hv2b hvv hvp hadj2
      have hune : u ≠ e.2.1 := by
        intro hx
        rw [hv2 u, hx, if_pos rfl] at huv
        exact Bool.noConfusion huv
      rw [hv2 u, if_neg hune] at huv
      by_cases hveq : v = e.2.1
      · obtain ⟨dv, hdv⟩ := hadj2
        rw [hveq] at hdv hv1 hv2b
        refine ⟨(e.2.1, u, dv), List.mem_append.mpr (Or.inr ?_), rfl⟩
        apply List.mem_map.mpr
        refine ⟨(u, dv), ?_, rfl⟩
        apply (mem_unvisitedNeighbors).mpr
        refine ⟨(mem_neighbors_iff hv1 hv2b).mpr hdv, ?_⟩
        rw [hv2 u, if_neg hune]
        exact huv
      · rw [hv2 v, if_neg hveq] at hvv
        obtain ⟨e2, he2, he2t⟩ := hinv.cover u hu1 hu2 huv v hv1 hv2b hvv hvp hadj2
        refine ⟨e2, List.mem_append.mpr (Or.inl ?_), he2t⟩
        apply mem_eraseIdx_of_ne _ _ _ he2
        intro hx
        rw [← he_def] at hx
        rw [hx] at he2t
        exact hune he2t.symm

lemma primLoop_inv {w h : Nat} {pattern : List Pos} {start : Pos} {base : Nat}
    (rng : Rng) : ∀ (fuel : Nat) (s : PrimState), PrimInv w h pattern start base s →
      PrimInv w h pattern start base (primLoop rng w h fuel s) := by
  intro fuel
  induction fuel with
  | zero => intro s hs; exact hs
  | succ fuel ih =>
    intro s hs
    rw [primLoop]
    by_cases hne : s.frontier = []
    · rw [if_pos hne]; exact hs
    · rw [if_neg hne]; exact ih _ (primStep_inv rng hne hs)

/-- The termination measure of the Prim loop: every iteration pops one
frontier edge and appends at most four, and appends happen only when a new
cell is visited. -/
def primMeasure (w h : Nat) (s : PrimState) : Nat :=
  s.frontier.length + 4 * unvisitedCount w h s.grid

lemma unvisitedCount_removeWallBetween {w h : Nat} {g : Grid} (hg : Rect w h g)
    {a b : Pos} (d : Dir) (ha1 : a.1 < w) (ha2 : a.2 < h) (hb1 : b.1 < w) (hb2 : b.2 < h)
    (hab : a ≠ b) :
    unvisitedCount w h (removeWallBetween g a b d) = unvisitedCount w h g :=
  countP_congr_eq fun p _ => by
    rw [visited_removeWallBetween hg d ha1 ha2 hb1 hb2 hab p]

lemma unvisitedCount_setVisited {w h : Nat} {g : Grid} (hg : Rect w h g) {u : Pos}
    (hu1 : u.1 < w) (hu2 : u.2 < h) (hu : (cellAt g u).visited = false) :
    unvisitedCount w h g = unvisitedCount w h (setVisited g u) + 1 := by
  apply countP_flip_one (nodup_allPositions w h) (mem_allPositions.mpr ⟨hu1, hu2⟩)
  · rw [cellAt_setVisited hg hu1 hu2, if_pos rfl]
    rfl
  · rw [hu]
    rfl
  · intro b _ hbu
    rw [cellAt_setVisited hg hu1 hu2, if_neg hbu]

lemma primStep_measure {w h : Nat} {pattern : List Pos} {start : Pos} {base : Nat}
    (rng : Rng) {s : PrimState} (hne : s.frontier ≠ [])
    (hinv : PrimInv w h pattern start base s) :
    primMeasure w h (primStep rng w h s) < primMeasure w h s := by
  unfold primStep primMeasure
  dsimp only
  set i := rng s.k % s.frontier.length with hi_def
  have hi : i < s.frontier.length := Nat.mod_lt _ (List.length_pos.mpr hne)
  set e := s.frontier.getD i ((0, 0), (0, 0), Dir.N) with he_def
  have he : e ∈ s.frontier := getD_mem _ hi
  have hlen : (s.frontier.eraseIdx i).length = s.frontier.length - 1 := by
    rw [List.length_eraseIdx]
    simp [hi]
  by_cases hv : (cellAt s.grid e.2.1).visited
  · rw [if_pos hv]
    dsimp only
    omega
  · rw [if_neg hv]
    dsimp only
    have hadj := hinv.adj e he
    have huinb := nextPos_inb hadj
    have hcinb := hinv.src_inb e he
    have hucne : e.2.1 ≠ e.1 := nextPos_ne hadj
    have huvis : (cellAt s.grid e.2.1).visited = false := by
      rcases Bool.eq_false_or_eq_true (cellAt s.grid e.2.1).visited with hb | hb
      · exact absurd hb hv
      · exact hb
    have hgc_rect : Rect w h (removeWallBetween s.grid e.1 e.2.1 e.2.2) :=
      rect_removeWallBetween hinv.rect _ _ _
    have huc : unvisitedCount w h (removeWallBetween s.grid e.1 e.2.1 e.2.2) =
        unvisitedCount w h s.grid :=
      unvisitedCount_removeWallBetween hinv.rect e.2.2 hcinb.1 hcinb.2 huinb.1 huinb.2
        (fun x => hucne x.symm)
    have huc2 := unvisitedCount_setVisited hgc_rect huinb.1 huinb.2 (by
      rw [visited_removeWallBetween hinv.rect e.2.2 hcinb.1 hcinb.2 huinb.1 huinb.2
        (fun x => hucne x.symm)]
      exact huvis)
    rw [List.length_append, hlen]
    have hnb : ((unvisitedNeighbors
        (setVisited (removeWallBetween s.grid e.1 e.2.1 e.2.2) e.2.1) w h e.2.1).map
          fun qd => (e.2.1, qd.1, qd.2)).length ≤ 4 := by
      rw [List.length_map]
      exact unvisitedNeighbors_length_le _ _ _ _
    omega

lemma primLoop_drains {w h : Nat} {pattern : List Pos} {start : Pos} {base : Nat}
    (rng : Rng) : ∀ (fuel : Nat) (s : PrimState), PrimInv w h pattern start base s →
      primMeasure w h s ≤ fuel → (primLoop rng w h fuel s).frontier = [] := by
  intro fuel
  induction fuel with
  | zero =>
    intro s _ hm
    rw [primLoop]
    unfold primMeasure at hm
    exact List.length_eq_zero.mp (by omega)
  | succ fuel ih =>
    intro s hs hm
    rw [primLoop]
    by_cases hne : s.frontier = []
    · rw [if_pos hne]; exact hne
    · rw [if_neg hne]
      exact ih _ (primStep_inv rng hne hs)
        (by have := primStep_measure rng hne hs; omega)

lemma mem_nonPatternCells {w h : Nat} {pattern : List Pos} {p : Pos} :
    p ∈ nonPatternCells w h pattern ↔ p.1 < w ∧ p.2 < h ∧ p ∉ pattern := by
  obtain ⟨x, y⟩ := p
  simp only [nonPatternCells, List.mem_flatMap, List.mem_map, List.mem_filter,
    List.mem_range, decide_eq_true_eq]
  constructor
  · rintro ⟨y2, hy2, x2, ⟨⟨hx2, hnp⟩, hex⟩⟩
    injection hex with hex1 hex2
    subst hex1; subst hex2
    exact ⟨hx2, hy2, hnp⟩
  · rintro ⟨hx, hy, hnp⟩
    exact ⟨y, hy, x, ⟨⟨hx, hnp⟩, rfl⟩⟩

/-- The initial Prim state satisfies the loop invariant, with the chosen
start cell and the initial visited count as the passage offset. -/
lemma primInit_inv (rng : Rng) (w h : Nat) (pattern : List Pos)
    (hnc : nonPatternCells w h pattern ≠ []) :
    PrimInv w h pattern
      ((nonPatternCells w h pattern).getD
        (rng 0 % (nonPatternCells w h pattern).length) (0, 0))
      (visitedCount w h (primInitState rng w h pattern).grid)
      (primInitState rng w h pattern) := by
  have hsmem : (nonPatternCells w h pattern).getD
      (rng 0 % (nonPatternCells w h pattern).length) (0, 0) ∈ nonPatternCells w h pattern :=
    getD_mem _ (Nat.mod_lt _ (List.length_pos.mpr hnc))
  set start := (nonPatternCells w h pattern).getD
    (rng 0 % (nonPatternCells w h pattern).length) (0, 0) with hstart_def
  have hs3 := mem_nonPatternCells.mp hsmem
  have hg0 := rect_initGrid pattern w h
  have hcell0 := cellAt_initGrid pattern w h
  have hg1rect : Rect w h (setVisited (initGrid pattern w h) start) := rect_setVisited hg0 _
  have hcell1 := cellAt_setVisited hg0 hs3.1 hs3.2.1
  have hgrid : (primInitState rng w h pattern).grid =
      setVisited (initGrid pattern w h) start := rfl
  have hfr : (primInitState rng w h pattern).frontier =
      (unvisitedNeighbors (setVisited (initGrid pattern w h) start) w h start).map
        fun qd => (start, qd.1, qd.2) := rfl
  have hvis1 : ∀ p : Pos, p.1 < w → p.2 < h →
      ((cellAt (setVisited (initGrid pattern w h) start) p).visited = true ↔
        (p = start ∨ p ∈ pattern)) := by
    intro p hp1 hp2
    rw [hcell1 p]
    by_cases hps : p = start
    · simp [hps]
    · rw [if_neg hps, hcell0 p, if_pos ⟨hp1, hp2⟩]
      simp [hps]
  have hwalls1 : ∀ p : Pos, (cellAt (setVisited (initGrid pattern w h) start) p).walls
      = 15 := by
    intro p
    rw [hcell1 p]
    by_cases hps : p = start
    · rw [if_pos hps]
      dsimp only
      rw [hcell0 start]
      split <;> rfl
    · rw [if_neg hps, hcell0 p]
      split <;> rfl
  refine ⟨hgrid ▸ hg1rect,
    hgrid ▸ symmWalls_setVisited hg0 (symmWalls_initGrid pattern w h) hs3.1 hs3.2.1,
    ?_, ?_, ?_, ?_, ?_, ?_, ?_, ?_, ?_, ?_⟩
  · intro x hx
    rw [hfr] at hx
    obtain ⟨qd, -, rfl⟩ := List.mem_map.mp hx
    exact ⟨hs3.1, hs3.2.1⟩
  · intro x hx
    rw [hfr] at hx
    obtain ⟨qd, hqd, rfl⟩ := List.mem_map.mp hx
    have hmem := (mem_unvisitedNeighbors (q := qd.1) (d := qd.2)).mp (by simpa using hqd)
    exact (mem_neighbors_iff hs3.1 hs3.2.1).mp hmem.1
  · intro x hx
    rw [hfr] at hx
    obtain ⟨qd, -, rfl⟩ := List.mem_map.mp hx
    rw [hgrid]
    exact (hvis1 start hs3.1 hs3.2.1).mpr (Or.inl rfl)
  · intro x hx
    rw [hfr] at hx
    obtain ⟨qd, -, rfl⟩ := List.mem_map.mp hx
    exact hs3.2.2
  · intro p hp1 hp2 hp
    rw [hgrid]
    exact ⟨(hvis1 p hp1 hp2).mpr (Or.inr hp), hwalls1 p⟩
  · intro p hp1 hp2 _
    rw [hgrid]
    exact hwalls1 p
  · right
    rw [hgrid]
    refine ⟨fun p _ _ => hwalls1 p, ?_⟩
    intro p hp1 hp2 hpv hppat
    rcases (hvis1 p hp1 hp2).mp hpv with hps | hpp
    · exact hps
    · exact absurd hpp hppat
  · rw [hgrid]
    have hzero : passageCount w h (setVisited (initGrid pattern w h) start) = 0 := by
      apply List.countP_eq_zero.mpr
      intro pd _
      simp only [Bool.and_eq_true, decide_eq_true_eq, not_and]
      intro _
      rw [hwalls1 pd.1]
      exact fifteen_and_bit pd.2
    rw [hzero]
    exact Nat.zero_add _
  · rw [hgrid]
    exact (hvis1 start hs3.1 hs3.2.1).mpr (Or.inl rfl)
  · intro u hu1 hu2 huv v hv1 hv2 hvv hvp hadj2
    rw [hgrid] at huv hvv
    have hvs : v = start := by
      rcases (hvis1 v hv1 hv2).mp hvv with hvs | hvpat
      · exact hvs
      · exact absurd hvpat hvp
    obtain ⟨dv, hdv⟩ := hadj2
    rw [hvs] at hdv
    refine ⟨(start, u, dv), ?_, rfl⟩
    rw [hfr]
    apply List.mem_map.mpr
    refine ⟨(u, dv), ?_, rfl⟩
    apply mem_unvisitedNeighbors.mpr
    refine ⟨(mem_neighbors_iff hs3.1 hs3.2.1).mpr hdv, ?_⟩
    rcases Bool.eq_false_or_eq_true
        (cellAt (setVisited (initGrid pattern w h) start) u).visited with hb | hb
    · rw [hb] at huv; exact Bool.noConfusion huv
    · exact hb

/-! ### Connectivity of the grid graph -/

/-- Grid adjacency, as produced by a bounds-checked step. -/
def Adj (w h : Nat) (p q : Pos) : Prop := ∃ d, nextPos w h p d = some q

/-- Adjacency through enabled cells: one in-bounds step landing outside the
pattern mask. -/
def EnabledAdj (w h : Nat) (pattern : List Pos) (p q : Pos) : Prop :=
  Adj w h p q ∧ q ∉ pattern

lemma adj_symm {w h : Nat} {p q : Pos} (hp1 : p.1 < w) (hp2 : p.2 < h)
    (ha : Adj w h p q) : Adj w h q p := by
  obtain ⟨d, hd⟩ := ha
  exact ⟨oppositeDir d, nextPos_rev hp1 hp2 hd⟩

lemma reach_inb {w h : Nat} {p q : Pos} (hp1 : p.1 < w) (hp2 : p.2 < h)
    (hr : Relation.ReflTransGen (Adj w h) p q) : q.1 < w ∧ q.2 < h := by
  induction hr with
  | refl => exact ⟨hp1, hp2⟩
  | tail _ step _ =>
    obtain ⟨d, hd⟩ := step
    exact nextPos_inb hd

lemma reach_origin {w h : Nat} : ∀ x y, x < w → y < h →
    Relation.ReflTransGen (Adj w h) (x, y) (0, 0) := by
  intro x
  induction x with
  | zero =>
    intro y
    induction y with
    | zero => intro _ _; exact Relation.ReflTransGen.refl
    | succ y ihy =>
      intro h0 hy
      refine Relation.ReflTransGen.head ?_ (ihy h0 (by omega))
      refine ⟨Dir.N, ?_⟩
      simp only [nextPos]
      rw [if_pos (by refine ⟨h0, by omega, by omega⟩)]
      simp
  | succ x ihx =>
    intro y hx hy
    refine Relation.ReflTransGen.head ?_ (ihx y (by omega) hy)
    refine ⟨Dir.W, ?_⟩
    simp only [nextPos]
    rw [if_pos (by refine ⟨by omega, by omega, hy⟩)]
    simp

lemma reach_symm {w h : Nat} {p q : Pos} (hp1 : p.1 < w) (hp2 : p.2 < h)
    (hr : Relation.ReflTransGen (Adj w h) p q) :
    Relation.ReflTransGen (Adj w h) q p := by
  induction hr with
  | refl => exact Relation.ReflTransGen.refl
  | tail hr2 step ih =>
    have hmid := reach_inb hp1 hp2 hr2
    exact Relation.ReflTransGen.head (adj_symm hmid.1 hmid.2 step) ih

lemma grid_connected {w h : Nat} {p q : Pos} (hp : p.1 < w ∧ p.2 < h)
    (hq : q.1 < w ∧ q.2 < h) : Relation.ReflTransGen (Adj w h) p q := by
  obtain ⟨x, y⟩ := p
  obtain ⟨a, b⟩ := q
  exact (reach_origin x y hp.1 hp.2).trans
    (reach_symm hq.1 hq.2 (reach_origin a b hq.1 hq.2))

/-- If the visited set contains a cell and is closed under stepping to
adjacent cells, it contains every in-bounds cell. -/
lemma visited_all {w h : Nat} {g : Grid} {start : Pos}
    (hst1 : start.1 < w) (hst2 : start.2 < h) (hsv : (cellAt g start).visited = true)
    (hclosed : ∀ v : Pos, v.1 < w → v.2 < h → (cellAt g v).visited = true →
      ∀ q d, nextPos w h v d = some q → (cellAt g q).visited = true) :
    ∀ p : Pos, p.1 < w → p.2 < h → (cellAt g p).visited = true := by
  have aux : ∀ {b : Pos}, Relation.ReflTransGen (Adj w h) start b →
      (cellAt g b).visited = true := by
    intro b hr
    induction hr with
    | refl => exact hsv
    | tail hr2 step ih =>
      obtain ⟨d, hd⟩ := step
      have hmid := reach_inb hst1 hst2 hr2
      exact hclosed _ hmid.1 hmid.2 ih _ _ hd
  intro p hp1 hp2
  exact aux (grid_connected ⟨hst1, hst2⟩ ⟨hp1, hp2⟩)

lemma nonPatternCells_empty_ne_nil {w h : Nat} (hw : 0 < w) (hh : 0 < h) :
    nonPatternCells w h [] ≠ [] :=
  List.ne_nil_of_mem
    (show ((0, 0) : Pos) ∈ nonPatternCells w h [] from
      mem_nonPatternCells.mpr ⟨hw, hh, by simp⟩)

lemma length_allPositions (w h : Nat) : (allPositions w h).length = w * h := by
  simp [allPositions, List.length_product]

/-- The initial Prim measure is dominated by the fuel the generator uses. -/
lemma primInit_measure_le (rng : Rng) (w h : Nat) (pattern : List Pos) :
    primMeasure w h (primInitState rng w h pattern) ≤ 4 * w * h + 8 := by
  unfold primMeasure
  have h1 : (primInitState rng w h pattern).frontier.length ≤ 4 := by
    have : (primInitState rng w h pattern).frontier =
        (unvisitedNeighbors (primInitState rng w h pattern).grid w h
          ((nonPatternCells w h pattern).getD
            (rng 0 % (nonPatternCells w h pattern).length) (0, 0))).map
          (fun qd => ((nonPatternCells w h pattern).getD
            (rng 0 % (nonPatternCells w h pattern).length) (0, 0), qd.1, qd.2)) := rfl
    rw [this, List.length_map]
    exact unvisitedNeighbors_length_le _ _ _ _
  have h2 : unvisitedCount w h (primInitState rng w h pattern).grid ≤ w * h := by
    calc unvisitedCount w h (primInitState rng w h pattern).grid
        ≤ (allPositions w h).length := List.countP_le_length _
      _ = w * h := length_allPositions w h
  have hmul : 4 * w * h = 4 * (w * h) := Nat.mul_assoc 4 w h
  omega

/-- Summary of a completed internal-Prim run over an empty pattern: the
final grid is rectangular and carve-symmetric, every cell is visited, the
passages form a spanning tree, and (when the grid has at least two cells)
no cell is fully walled. -/
lemma prim_perfect_summary (rng : Rng) (w h : Nat) (hw : 0 < w) (hh : 0 < h) :
    Rect w h (primGenerate rng w h []).1 ∧
    SymmWalls w h (primGenerate rng w h []).1 ∧
    (∀ p : Pos, p.1 < w → p.2 < h →
      (cellAt (primGenerate rng w h []).1 p).visited = true) ∧
    passageCount w h (primGenerate rng w h []).1 + 1 = w * h ∧
    (2 ≤ w * h → ∀ p : Pos, p.1 < w → p.2 < h →
      (cellAt (primGenerate rng w h []).1 p).walls ≠ 15) := by
  have hnc := nonPatternCells_empty_ne_nil (w := w) (h := h) hw hh
  have hinit := primInit_inv rng w h [] hnc
  have hfin := primLoop_inv rng (4 * w * h + 8) _ hinit
  have hdrain := primLoop_drains rng (4 * w * h + 8) _ hinit
    (primInit_measure_le rng w h [])
  have hrect := hfin.rect
  have hsymm := hfin.symm
  have hcover := hfin.cover
  have hcount := hfin.count
  have hstartv := hfin.start_vis
  have hopened := hfin.opened
  set G := (primLoop rng w h (4 * w * h + 8) (primInitState rng w h [])).grid with hGdef
  have hG : (primGenerate rng w h []).1 = G := by
    rw [primGenerate, if_neg hnc]
  have hsmem : (nonPatternCells w h []).getD
      (rng 0 % (nonPatternCells w h []).length) (0, 0) ∈ nonPatternCells w h [] :=
    getD_mem _ (Nat.mod_lt _ (List.length_pos.mpr hnc))
  have hs3 := mem_nonPatternCells.mp hsmem
  have hclosed : ∀ v : Pos, v.1 < w → v.2 < h → (cellAt G v).visited = true →
      ∀ q d, nextPos w h v d = some q → (cellAt G q).visited = true := by
    intro v hv1 hv2 hvv q d hqd
    have hqb := nextPos_inb hqd
    rcases Bool.eq_false_or_eq_true (cellAt G q).visited with hb | hb
    · exact hb
    · exfalso
      obtain ⟨e2, he2, -⟩ := hcover q hqb.1 hqb.2 hb v hv1 hv2 hvv
        (by simp) ⟨d, hqd⟩
      rw [hdrain] at he2
      cases he2
  have hall : ∀ p : Pos, p.1 < w → p.2 < h → (cellAt G p).visited = true :=
    visited_all hs3.1 hs3.2.1 hstartv hclosed
  have hvcount : visitedCount w h G = w * h := by
    rw [← length_allPositions w h]
    apply List.countP_eq_length.mpr
    intro p hp
    rcases mem_allPositions.mp hp with ⟨hp1, hp2⟩
    simpa using hall p hp1 hp2
  have hg0rect := rect_initGrid ([] : List Pos) w h
  have hbase : visitedCount w h (primInitState rng w h []).grid = 1 := by
    have hgrid1 : (primInitState rng w h []).grid =
        setVisited (initGrid [] w h) ((nonPatternCells w h []).getD
          (rng 0 % (nonPatternCells w h []).length) (0, 0)) := rfl
    rw [hgrid1]
    rw [show visitedCount w h (setVisited (initGrid [] w h)
      ((nonPatternCells w h []).getD (rng 0 % (nonPatternCells w h []).length) (0, 0))) =
        visitedCount w h (initGrid [] w h) + 1 from
      visitedCount_setVisited hg0rect hs3.1 hs3.2.1 (by
        rw [cellAt_initGrid, if_pos ⟨hs3.1, hs3.2.1⟩]
        simp)]
    have hz : visitedCount w h (initGrid [] w h) = 0 := by
      apply List.countP_eq_zero.mpr
      intro p hp
      rcases mem_allPositions.mp hp with ⟨hp1, hp2⟩
      rw [cellAt_initGrid, if_pos ⟨hp1, hp2⟩]
      simp
    rw [hz]
  refine ⟨hG ▸ hrect, hG ▸ hsymm, hG ▸ hall, ?_, ?_⟩
  · rw [hG]
    rw [hbase] at hcount
    omega
  · intro h2 p hp1 hp2
    rw [hG]
    rcases hopened with hop | ⟨-, hsing⟩
    · obtain ⟨d, hd⟩ := hop p hp1 hp2 (hall p hp1 hp2) (by simp)
      intro h15
      rw [h15] at hd
      exact fifteen_and_bit d hd
    · exfalso
      have hw2 : 2 ≤ w ∨ 2 ≤ h := by
        by_cases hw1 : 2 ≤ w
        · exact Or.inl hw1
        · right
          have hweq : w = 1 := by omega
          rw [hweq, Nat.one_mul] at h2
          exact h2
      rcases hw2 with hw2 | hh2
      · have ha := hsing (0, 0) (by omega) hh (hall (0, 0) (by omega) hh) (by simp)
        have hb := hsing (1, 0) (by omega) hh (hall (1, 0) (by omega) hh) (by simp)
        rw [← hb] at ha
        exact absurd ha (by decide)
      · have ha := hsing (0, 0) hw (by omega) (hall (0, 0) hw (by omega)) (by simp)
        have hb := hsing (0, 1) hw (by omega) (hall (0, 1) hw (by omega)) (by simp)
        rw [← hb] at ha
        exact absurd ha (by decide)

/-- Summary of an internal-Prim run over an arbitrary pattern: the result
is rectangular and carve-symmetric and every in-bounds pattern cell is
still fully walled. -/
lemma prim_pattern_summary (rng : Rng) (w h : Nat) (pattern : List Pos) :
    Rect w h (primGenerate rng w h pattern).1 ∧
    SymmWalls w h (primGenerate rng w h pattern).1 ∧
    ∀ p : Pos, p.1 < w → p.2 < h → p ∈ pattern →
      (cellAt (primGenerate rng w h pattern).1 p).visited = true ∧
      (cellAt (primGenerate rng w h pattern).1 p).walls = 15 := by
  by_cases hnc : nonPatternCells w h pattern = []
  · rw [primGenerate, if_pos hnc]
    refine ⟨rect_initGrid pattern w h, symmWalls_initGrid pattern w h, ?_⟩
    intro p hp1 hp2 hp
    rw [cellAt_initGrid, if_pos ⟨hp1, hp2⟩]
    simp [hp]
  · rw [primGenerate, if_neg hnc]
    have hfin := primLoop_inv rng (4 * w * h + 8) _ (primInit_inv rng w h pattern hnc)
    exact ⟨hfin.rect, hfin.symm, hfin.pat_prot⟩

/-! ### The DFS loop invariant -/

/-- A rectangle comprehension is a `w × h` matrix. -/
lemma rect_build (w h : Nat) (F : Nat → Nat → Cell) :
    Rect w h ((List.range h).map fun y => (List.range w).map fun x => F x y) := by
  constructor
  · simp
  · intro row hrow
    simp only [List.mem_map] at hrow
    obtain ⟨y, -, rfl⟩ := hrow
    simp

/-- When every in-bounds cell is a pattern cell, `nonPatternCells` is
empty, and conversely. -/
lemma nonPatternCells_eq_nil {w h : Nat} {pattern : List Pos}
    (hnc : nonPatternCells w h pattern = []) :
    ∀ q : Pos, q.1 < w → q.2 < h → q ∈ pattern := by
  intro q hq1 hq2
  by_contra hq
  have : q ∈ nonPatternCells w h pattern := mem_nonPatternCells.mpr ⟨hq1, hq2, hq⟩
  rw [hnc] at this
  cases this

/-- The start cell the DFS generator settles on with the default `(0, 0)`
request: it is in bounds, and outside the pattern unless every cell is a
pattern cell. -/
lemma dfsStart_props {w h : Nat} (pattern : List Pos) (hw : 0 < w) (hh : 0 < h) :
    (dfsStart w h pattern 0 0).1 < w ∧ (dfsStart w h pattern 0 0).2 < h ∧
      (dfsStart w h pattern 0 0 ∉ pattern ∨
        ∀ q : Pos, q.1 < w → q.2 < h → q ∈ pattern) := by
  unfold dfsStart
  by_cases h0 : ((0 : Nat), (0 : Nat)) ∈ pattern
  · rw [if_pos h0]
    cases hnc : nonPatternCells w h pattern with
    | nil => exact ⟨hw, hh, Or.inr (nonPatternCells_eq_nil hnc)⟩
    | cons p t =>
      have hp : p ∈ nonPatternCells w h pattern := by rw [hnc]; exact List.mem_cons_self _ _
      have := mem_nonPatternCells.mp hp
      exact ⟨this.1, this.2.1, Or.inl this.2.2⟩
  · rw [if_neg h0]
    exact ⟨hw, hh, Or.inl h0⟩

/-- The lookup formula for the reset DFS grid: identical to the fresh
grid, since the reset only clears flags the constructor never set. -/
lemma cellAt_dfsReset_initGrid (pattern : List Pos) (w h : Nat) (p : Pos) :
    cellAt (dfsReset pattern w h (initGrid pattern w h)) p =
      if p.1 < w ∧ p.2 < h then ⟨15, decide (p ∈ pattern)⟩ else ⟨15, false⟩ := by
  obtain ⟨x, y⟩ := p
  unfold dfsReset
  rw [cellAt_build]
  by_cases hin : x < w ∧ y < h
  · rw [if_pos hin, if_pos hin]
    by_cases hp : ((x, y) : Pos) ∈ pattern
    · rw [if_pos hp, cellAt_initGrid, if_pos hin]
    · rw [if_neg hp, cellAt_initGrid, if_pos hin]
      simp [hp]
  · rw [if_neg hin, if_neg hin]

/-- Everything the proofs need to know about a reachable state of the DFS
loop. -/
structure DfsInv (w h : Nat) (pattern : List Pos) (start : Pos) (base : Nat)
    (s : DfsState) : Prop where
  rect : Rect w h s.grid
  symm : SymmWalls w h s.grid
  stack_inb : ∀ p ∈ s.stack, p.1 < w ∧ p.2 < h
  stack_vis : ∀ p ∈ s.stack, (cellAt s.grid p).visited = true
  stack_npat : ∀ p ∈ s.stack, p ∉ pattern ∨ ∀ q : Pos, q.1 < w → q.2 < h → q ∈ pattern
  pat_prot : ∀ p : Pos, p.1 < w → p.2 < h → p ∈ pattern →
    (cellAt s.grid p).visited = true ∧ (cellAt s.grid p).walls = 15
  unfull : ∀ p : Pos, p.1 < w → p.2 < h → (cellAt s.grid p).visited = false →
    (cellAt s.grid p).walls = 15
  opened : (∀ p : Pos, p.1 < w → p.2 < h → (cellAt s.grid p).visited = true →
      p ∉ pattern → ∃ d, (cellAt s.grid p).walls &&& wallBit d = 0) ∨
    ((∀ p : Pos, p.1 < w → p.2 < h → (cellAt s.grid p).walls = 15) ∧
      ∀ p : Pos, p.1 < w → p.2 < h → (cellAt s.grid p).visited = true → p ∉ pattern →
        p = start)
  count : passageCount w h s.grid + base = visitedCount w h s.grid
  start_vis : (cellAt s.grid start).visited = true
  processed : ∀ v : Pos, v.1 < w → v.2 < h → (cellAt s.grid v).visited = true →
    v ∉ pattern → v ∈ s.stack ∨
      ∀ q d, nextPos w h v d = some q → (cellAt s.grid q).visited = true

/-- One step of the DFS loop preserves the invariant. -/
lemma dfsStep_inv {w h : Nat} {pattern : List Pos} {start : Pos} {base : Nat}
    (rng : Rng) {s : DfsState} (hinv : DfsInv w h pattern start base s) :
    DfsInv w h pattern start base (dfsStep rng w h s) := by
  rcases hst : s.stack with _ | ⟨current, tail⟩
  · have hstep : dfsStep rng w h s = s := by
      unfold dfsStep
      rw [hst]
    rw [hstep]
    exact hinv
  · have hcur : current ∈ s.stack := by rw [hst]; exact List.mem_cons_self _ _
    have hcinb := hinv.stack_inb current hcur
    have hcvis := hinv.stack_vis current hcur
    unfold dfsStep
    rw [hst]
    dsimp only
    by_cases hnb : unvisitedNeighbors s.grid w h current = []
    · rw [if_pos hnb]
      have htail : ∀ p ∈ tail, p ∈ s.stack := by
        intro p hp; rw [hst]; exact List.mem_cons_of_mem _ hp
      refine ⟨hinv.rect, hinv.symm, fun p hp => hinv.stack_inb p (htail p hp),
        fun p hp => hinv.stack_vis p (htail p hp),
        fun p hp => hinv.stack_npat p (htail p hp), hinv.pat_prot, hinv.unfull,
        hinv.opened, hinv.count, hinv.start_vis, ?_⟩
      intro v hv1 hv2 hvv hvp
      have hcclosed : ∀ q d, nextPos w h current d = some q →
          (cellAt s.grid q).visited = true := by
        intro q d hqd
        rcases Bool.eq_false_or_eq_true (cellAt s.grid q).visited with hb | hb
        · exact hb
        · exfalso
          have : ((q, d) : Pos × Dir) ∈ unvisitedNeighbors s.grid w h current :=
            mem_unvisitedNeighbors.mpr
              ⟨(mem_neighbors_iff hcinb.1 hcinb.2).mpr hqd, hb⟩
          rw [hnb] at this
          cases this
      by_cases hvc : v = current
      · right
        rw [hvc]
        exact hcclosed
      · rcases hinv.processed v hv1 hv2 hvv hvp with hstk | hcl
        · rw [hst] at hstk
          rcases List.mem_cons.mp hstk with rfl | hstk
          · right; exact hcclosed
          · left; exact hstk
        · right; exact hcl
    · rw [if_neg hnb]
      set qd := (unvisitedNeighbors s.grid w h current).getD
        (rng s.k % (unvisitedNeighbors s.grid w h current).length) ((0, 0), Dir.N)
        with hqd_def
      have hqdm : qd ∈ unvisitedNeighbors s.grid w h current :=
        getD_mem _ (Nat.mod_lt _ (List.length_pos.mpr hnb))
      have hqmem := mem_unvisitedNeighbors.mp (by
        rw [show qd = (qd.1, qd.2) from rfl] at hqdm
        exact hqdm)
      have hadj : nextPos w h current qd.2 = some qd.1 :=
        (mem_neighbors_iff hcinb.1 hcinb.2).mp hqmem.1
      have huinb := nextPos_inb hadj
      have huvis : (cellAt s.grid qd.1).visited = false := hqmem.2
      have hucne : qd.1 ≠ current := nextPos_ne hadj
      have hunpat : qd.1 ∉ pattern := fun hp => by
        rw [(hinv.pat_prot qd.1 huinb.1 huinb.2 hp).1] at huvis
        exact Bool.noConfusion huvis
      have hcnpat : current ∉ pattern := by
        rcases hinv.stack_npat current hcur with hnp | hallp
        · exact hnp
        · exact absurd (hallp qd.1 huinb.1 huinb.2) hunpat
      have hu15 : (cellAt s.grid qd.1).walls = 15 := hinv.unfull _ huinb.1 huinb.2 huvis
      have hgc_rect : Rect w h (removeWallBetween s.grid current qd.1 qd.2) :=
        rect_removeWallBetween hinv.rect _ _ _
      have hvgc : ∀ p, (cellAt (removeWallBetween s.grid current qd.1 qd.2) p).visited =
          (cellAt s.grid p).visited :=
        visited_removeWallBetween hinv.rect qd.2 hcinb.1 hcinb.2 huinb.1 huinb.2
          (fun x => hucne x.symm)
      have hcellgc := cellAt_removeWallBetween hinv.rect qd.2 hcinb.1 hcinb.2
        huinb.1 huinb.2 (fun x => hucne x.symm)
      have hg2_rect : Rect w h
          (setVisited (removeWallBetween s.grid current qd.1 qd.2) qd.1) :=
        rect_setVisited hgc_rect _
      have hcellg2 := cellAt_setVisited hgc_rect huinb.1 huinb.2
      have hv2 : ∀ p, (cellAt (setVisited (removeWallBetween s.grid current qd.1 qd.2)
          qd.1) p).visited = if p = qd.1 then true else (cellAt s.grid p).visited := by
        intro p
        rw [hcellg2 p]
        by_cases hp : p = qd.1
        · rw [if_pos hp, if_pos hp]
        · rw [if_neg hp, if_neg hp, hvgc p]
      have hw2 : ∀ p, p ≠ qd.1 → p ≠ current →
          (cellAt (setVisited (removeWallBetween s.grid current qd.1 qd.2) qd.1) p).walls =
            (cellAt s.grid p).walls := by
        intro p hpu hpc
        rw [hcellg2 p, if_neg hpu, hcellgc p, if_neg hpc, if_neg hpu]
      have hw2u : (cellAt (setVisited (removeWallBetween s.grid current qd.1 qd.2) qd.1)
          qd.1).walls =
          (cellAt s.grid qd.1).walls &&& (15 ^^^ wallBit (oppositeDir qd.2)) := by
        rw [hcellg2 qd.1, if_pos rfl]
        dsimp only
        rw [hcellgc qd.1, if_neg hucne, if_pos rfl]
      have hw2c : (cellAt (setVisited (removeWallBetween s.grid current qd.1 qd.2) qd.1)
          current).walls = (cellAt s.grid current).walls &&& (15 ^^^ wallBit qd.2) := by
        rw [hcellg2 current, if_neg (fun x => hucne x.symm), hcellgc current, if_pos rfl]
      have hclosed : (cellAt s.grid current).walls &&& wallBit qd.2 ≠ 0 := by
        intro hx
        have hq := (hinv.symm current qd.2 qd.1 hcinb.1 hcinb.2 hadj).mp hx
        rw [hu15] at hq
        exact fifteen_and_bit _ hq
      have hstack_new : ∀ p : Pos, p ∈ qd.1 :: current :: tail →
          p = qd.1 ∨ p ∈ s.stack := by
        intro p hp
        rcases List.mem_cons.mp hp with rfl | hp2
        · exact Or.inl rfl
        · right; rw [hst]; exact hp2
      refine ⟨hg2_rect,
        symmWalls_setVisited hgc_rect
          (symmWalls_carve hinv.rect hinv.symm hcinb.1 hcinb.2 hadj) huinb.1 huinb.2,
        ?_, ?_, ?_, ?_, ?_, ?_, ?_, ?_, ?_⟩
      · intro p hp
        rcases hstack_new p hp with rfl | hp2
        · exact huinb
        · exact hinv.stack_inb p hp2
      · intro p hp
        rw [hv2 p]
        rcases hstack_new p hp with rfl | hp2
        · rw [if_pos rfl]
        · by_cases hpu : p = qd.1
          · rw [if_pos hpu]
          · rw [if_neg hpu]
            exact hinv.stack_vis p hp2
      · intro p hp
        rcases hstack_new p hp with rfl | hp2
        · exact Or.inl hunpat
        · exact hinv.stack_npat p hp2
      · intro p hp1 hp2 hp
        have hpu : p ≠ qd.1 := fun hx => hunpat (hx ▸ hp)
        have hpc : p ≠ current := fun hx => hcnpat (hx ▸ hp)
        constructor
        · rw [hv2 p, if_neg hpu]
          exact (hinv.pat_prot p hp1 hp2 hp).1
        · rw [hw2 p hpu hpc]
          exact (hinv.pat_prot p hp1 hp2 hp).2
      · intro p hp1 hp2 hpv
        rw [hv2 p] at hpv
        by_cases hpu : p = qd.1
        · rw [if_pos hpu] at hpv
          exact Bool.noConfusion hpv
        · rw [if_neg hpu] at hpv
          have hpc : p ≠ current := by
            intro hx
            rw [hx, hcvis] at hpv
            exact Bool.noConfusion hpv
          rw [hw2 p hpu hpc]
          exact hinv.unfull p hp1 hp2 hpv
      · left
        intro p hp1 hp2 hpv hppat
        by_cases hpu : p = qd.1
        · subst hpu
          refine ⟨oppositeDir qd.2, ?_⟩
          rw [hw2u]
          exact mask_and_bit_self _ _
        · rw [hv2 p, if_neg hpu] at hpv
          by_cases hpc : p = current
          · subst hpc
            refine ⟨qd.2, ?_⟩
            rw [hw2c]
            exact mask_and_bit_self _ _
          · rw [hw2 p hpu hpc]
            rcases hinv.opened with hop | ⟨hall, hsing⟩
            · exact hop p hp1 hp2 hpv hppat
            · exact absurd ((hsing p hp1 hp2 hpv hppat).trans
                (hsing current hcinb.1 hcinb.2 hcvis hcnpat).symm) hpc
      · have hpass : passageCount w h
            (setVisited (removeWallBetween s.grid current qd.1 qd.2) qd.1) =
            passageCount w h s.grid + 1 := by
          rw [passageCount_setVisited hgc_rect huinb.1 huinb.2,
            passageCount_carve hinv.rect hinv.symm hcinb.1 hcinb.2 hadj hclosed]
        have hvis : visitedCount w h
            (setVisited (removeWallBetween s.grid current qd.1 qd.2) qd.1) =
            visitedCount w h s.grid + 1 := by
          rw [visitedCount_setVisited hgc_rect huinb.1 huinb.2 (by rw [hvgc]; exact huvis),
            visitedCount_removeWallBetween hinv.rect qd.2 hcinb.1 hcinb.2 huinb.1 huinb.2
              (fun x => hucne x.symm)]
        rw [hpass, hvis]
        have := hinv.count
        omega
      · rw [hv2 start]
        by_cases hsu : start = qd.1
        · rw [if_pos hsu]
        · rw [if_neg hsu]
          exact hinv.start_vis
      · intro v hv1 hv2b hvv hvp
        by_cases hvq : v = qd.1
        · left
          rw [hvq]
          exact List.mem_cons_self _ _
        · rw [hv2 v, if_neg hvq] at hvv
          rcases hinv.processed v hv1 hv2b hvv hvp with hstk | hcl
          · left
            rw [hst] at hstk
            exact List.mem_cons_of_mem _ hstk
          · right
            intro q2 d2 hq2
            rw [hv2 q2]
            by_cases hq2u : q2 = qd.1
            · rw [if_pos hq2u]
            · rw [if_neg hq2u]
              exact hcl q2 d2 hq2

lemma dfsLoop_inv {w h : Nat} {pattern : List Pos} {start : Pos} {base : Nat}
    (rng : Rng) : ∀ (fuel : Nat) (s : DfsState), DfsInv w h pattern start base s →
      DfsInv w h pattern start base (dfsLoop rng w h fuel s) := by
  intro fuel
  induction fuel with
  | zero => intro s hs; exact hs
  | succ fuel ih =>
    intro s hs
    rw [dfsLoop]
    by_cases hne : s.stack = []
    · rw [if_pos hne]; exact hs
    · rw [if_neg hne]; exact ih _ (dfsStep_inv rng hs)

/-- The termination measure of the DFS loop: a backtrack pops one entry and
a carve trades one new visit for one push. -/
def dfsMeasure (w h : Nat) (s : DfsState) : Nat :=
  s.stack.length + 2 * unvisitedCount w h s.grid

lemma dfsStep_measure {w h : Nat} {pattern : List Pos} {start : Pos} {base : Nat}
    (rng : Rng) {s : DfsState} (hne : s.stack ≠ [])
    (hinv : DfsInv w h pattern start base s) :
    dfsMeasure w h (dfsStep rng w h s) < dfsMeasure w h s := by
  rcases hst : s.stack with _ | ⟨current, tail⟩
  · exact absurd hst hne
  · have hcur : current ∈ s.stack := by rw [hst]; exact List.mem_cons_self _ _
    have hcinb := hinv.stack_inb current hcur
    unfold dfsStep dfsMeasure
    rw [hst]
    dsimp only
    by_cases hnb : unvisitedNeighbors s.grid w h current = []
    · rw [if_pos hnb]
      dsimp only
      simp
    · rw [if_neg hnb]
      set qd := (unvisitedNeighbors s.grid w h current).getD
        (rng s.k % (unvisitedNeighbors s.grid w h current).length) ((0, 0), Dir.N)
      have hqdm : qd ∈ unvisitedNeighbors s.grid w h current :=
        getD_mem _ (Nat.mod_lt _ (List.length_pos.mpr hnb))
      have hqmem := mem_unvisitedNeighbors.mp (by
        rw [show qd = (qd.1, qd.2) from rfl] at hqdm
        exact hqdm)
      have hadj : nextPos w h current qd.2 = some qd.1 :=
        (mem_neighbors_iff hcinb.1 hcinb.2).mp hqmem.1
      have huinb := nextPos_inb hadj
      have hucne : qd.1 ≠ current := nextPos_ne hadj
      have hgc_rect : Rect w h (removeWallBetween s.grid current qd.1 qd.2) :=
        rect_removeWallBetween hinv.rect _ _ _
      have huc : unvisitedCount w h (removeWallBetween s.grid current qd.1 qd.2) =
          unvisitedCount w h s.grid :=
        unvisitedCount_removeWallBetween hinv.rect qd.2 hcinb.1 hcinb.2 huinb.1 huinb.2
          (fun x => hucne x.symm)
      have huc2 := unvisitedCount_setVisited hgc_rect huinb.1 huinb.2 (by
        rw [visited_removeWallBetween hinv.rect qd.2 hcinb.1 hcinb.2 huinb.1 huinb.2
          (fun x => hucne x.symm)]
        exact hqmem.2)
      dsimp only
      simp only [List.length_cons]
      omega

lemma dfsLoop_drains {w h : Nat} {pattern : List Pos} {start : Pos} {base : Nat}
    (rng : Rng) : ∀ (fuel : Nat) (s : DfsState), DfsInv w h pattern start base s →
      dfsMeasure w h s ≤ fuel → (dfsLoop rng w h fuel s).stack = [] := by
  intro fuel
  induction fuel with
  | zero =>
    intro s _ hm
    rw [dfsLoop]
    unfold dfsMeasure at hm
    exact List.length_eq_zero.mp (by omega)
  | succ fuel ih =>
    intro s hs hm
    rw [dfsLoop]
    by_cases hne : s.stack = []
    · rw [if_pos hne]; exact hne
    · rw [if_neg hne]
      exact ih _ (dfsStep_inv rng hs)
        (by have := dfsStep_measure rng hne hs; omega)

/-- The initial DFS state (default `(0, 0)` start) satisfies the loop
invariant. -/
lemma dfsInit_inv (w h : Nat) (pattern : List Pos) (hw : 0 < w) (hh : 0 < h) :
    DfsInv w h pattern (dfsStart w h pattern 0 0)
      (visitedCount w h (dfsInitState w h pattern 0 0).grid)
      (dfsInitState w h pattern 0 0) := by
  obtain ⟨hs1, hs2, hs3⟩ := dfsStart_props pattern hw hh
  set start := dfsStart w h pattern 0 0 with hstart_def
  have hR : Rect w h (dfsReset pattern w h (initGrid pattern w h)) := by
    unfold dfsReset
    exact rect_build w h _
  have hcellR := cellAt_dfsReset_initGrid pattern w h
  have hg1rect : Rect w h (setVisited (dfsReset pattern w h (initGrid pattern w h)) start) :=
    rect_setVisited hR _
  have hcell1 := cellAt_setVisited hR hs1 hs2
  have hgrid : (dfsInitState w h pattern 0 0).grid =
      setVisited (dfsReset pattern w h (initGrid pattern w h)) start := rfl
  have hstk : (dfsInitState w h pattern 0 0).stack = [start] := rfl
  have hsymmR : SymmWalls w h (dfsReset pattern w h (initGrid pattern w h)) := by
    intro p d q hp1 hp2 hq
    have hqb := nextPos_inb hq
    rw [hcellR p, hcellR q, if_pos ⟨hp1, hp2⟩, if_pos ⟨hqb.1, hqb.2⟩]
    exact ⟨fun hc => absurd hc (fifteen_and_bit d),
      fun hc => absurd hc (fifteen_and_bit (oppositeDir d))⟩
  have hvis1 : ∀ p : Pos, p.1 < w → p.2 < h →
      ((cellAt (setVisited (dfsReset pattern w h (initGrid pattern w h)) start)
        p).visited = true ↔ (p = start ∨ p ∈ pattern)) := by
    intro p hp1 hp2
    rw [hcell1 p]
    by_cases hps : p = start
    · simp [hps]
    · rw [if_neg hps, hcellR p, if_pos ⟨hp1, hp2⟩]
      simp [hps]
  have hwalls1 : ∀ p : Pos,
      (cellAt (setVisited (dfsReset pattern w h (initGrid pattern w h)) start) p).walls
        = 15 := by
    intro p
    rw [hcell1 p]
    by_cases hps : p = start
    · rw [if_pos hps]
      dsimp only
      rw [hcellR start]
      split <;> rfl
    · rw [if_neg hps, hcellR p]
      split <;> rfl
  refine ⟨hgrid ▸ hg1rect, hgrid ▸ symmWalls_setVisited hR hsymmR hs1 hs2,
    ?_, ?_, ?_, ?_, ?_, ?_, ?_, ?_, ?_⟩
  · intro p hp
    rw [hstk] at hp
    rcases List.mem_cons.mp hp with rfl | hp
    · exact ⟨hs1, hs2⟩
    · cases hp
  · intro p hp
    rw [hstk] at hp
    rcases List.mem_cons.mp hp with rfl | hp
    · rw [hgrid]
      exact (hvis1 start hs1 hs2).mpr (Or.inl rfl)
    · cases hp
  · intro p hp
    rw [hstk] at hp
    rcases List.mem_cons.mp hp with rfl | hp
    · exact hs3
    · cases hp
  · intro p hp1 hp2 hp
    rw [hgrid]
    exact ⟨(hvis1 p hp1 hp2).mpr (Or.inr hp), hwalls1 p⟩
  · intro p hp1 hp2 _
    rw [hgrid]
    exact hwalls1 p
  · right
    rw [hgrid]
    refine ⟨fun p _ _ => hwalls1 p, ?_⟩
    intro p hp1 hp2 hpv hppat
    rcases (hvis1 p hp1 hp2).mp hpv with hps | hpp
    · exact hps
    · exact absurd hpp hppat
  · rw [hgrid]
    have hzero : passageCount w h
        (setVisited (dfsReset pattern w h (initGrid pattern w h)) start) = 0 := by
      apply List.countP_eq_zero.mpr
      intro pd _
      simp only [Bool.and_eq_true, decide_eq_true_eq, not_and]
      intro _
      rw [hwalls1 pd.1]
      exact fifteen_and_bit pd.2
    rw [hzero]
    exact Nat.zero_add _
  · rw [hgrid]
    exact (hvis1 start hs1 hs2).mpr (Or.inl rfl)
  · intro v hv1 hv2 hvv hvp
    rw [hgrid] at hvv
    rcases (hvis1 v hv1 hv2).mp hvv with hvs | hvpat
    · left
      rw [hstk, hvs]
      exact List.mem_cons_self _ _
    · exact absurd hvpat hvp

/-- The initial DFS measure is dominated by the fuel the generator uses. -/
lemma dfsInit_measure_le (w h : Nat) (pattern : List Pos) :
    dfsMeasure w h (dfsInitState w h pattern 0 0) ≤ 2 * w * h + 2 := by
  unfold dfsMeasure
  have hstk : (dfsInitState w h pattern 0 0).stack = [dfsStart w h pattern 0 0] := rfl
  have h2 : unvisitedCount w h (dfsInitState w h pattern 0 0).grid ≤ w * h := by
    calc unvisitedCount w h (dfsInitState w h pattern 0 0).grid
        ≤ (allPositions w h).length := List.countP_le_length _
      _ = w * h := length_allPositions w h
  rw [hstk]
  have hmul : 2 * w * h = 2 * (w * h) := Nat.mul_assoc 2 w h
  simp only [List.length_singleton]
  omega

/-- Summary of a completed DFS run over an empty pattern. -/
lemma dfs_perfect_summary (rng : Rng) (w h : Nat) (hw : 0 < w) (hh : 0 < h) :
    Rect w h (dfsGenerate rng w h [] 0 0).1 ∧
    SymmWalls w h (dfsGenerate rng w h [] 0 0).1 ∧
    (∀ p : Pos, p.1 < w → p.2 < h →
      (cellAt (dfsGenerate rng w h [] 0 0).1 p).visited = true) ∧
    passageCount w h (dfsGenerate rng w h [] 0 0).1 + 1 = w * h ∧
    (2 ≤ w * h → ∀ p : Pos, p.1 < w → p.2 < h →
      (cellAt (dfsGenerate rng w h [] 0 0).1 p).walls ≠ 15) := by
  have hinit := dfsInit_inv w h [] hw hh
  have hfin := dfsLoop_inv rng (2 * w * h + 2) _ hinit
  have hdrain := dfsLoop_drains rng (2 * w * h + 2) _ hinit (dfsInit_measure_le w h [])
  have hrect := hfin.rect
  have hsymm := hfin.symm
  have hproc := hfin.processed
  have hcount := hfin.count
  have hstartv := hfin.start_vis
  have hopened := hfin.opened
  set G := (dfsLoop rng w h (2 * w * h + 2) (dfsInitState w h [] 0 0)).grid with hGdef
  have hG : (dfsGenerate rng w h [] 0 0).1 = G := rfl
  obtain ⟨hs1, hs2, -⟩ := dfsStart_props ([] : List Pos) hw hh
  have hclosed : ∀ v : Pos, v.1 < w → v.2 < h → (cellAt G v).visited = true →
      ∀ q d, nextPos w h v d = some q → (cellAt G q).visited = true := by
    intro v hv1 hv2 hvv q d hqd
    rcases hproc v hv1 hv2 hvv (by simp) with hstk | hcl
    · rw [hdrain] at hstk
      cases hstk
    · exact hcl q d hqd
  have hall : ∀ p : Pos, p.1 < w → p.2 < h → (cellAt G p).visited = true :=
    visited_all hs1 hs2 hstartv hclosed
  have hvcount : visitedCount w h G = w * h := by
    rw [← length_allPositions w h]
    apply List.countP_eq_length.mpr
    intro p hp
    rcases mem_allPositions.mp hp with ⟨hp1, hp2⟩
    simpa using hall p hp1 hp2
  have hbase : visitedCount w h (dfsInitState w h [] 0 0).grid = 1 := by
    have hgrid1 : (dfsInitState w h [] 0 0).grid =
        setVisited (dfsReset [] w h (initGrid [] w h)) (dfsStart w h [] 0 0) := rfl
    have hRrect : Rect w h (dfsReset ([] : List Pos) w h (initGrid [] w h)) := by
      unfold dfsReset
      exact rect_build w h _
    rw [hgrid1]
    rw [show visitedCount w h (setVisited (dfsReset [] w h (initGrid [] w h))
        (dfsStart w h [] 0 0)) =
        visitedCount w h (dfsReset [] w h (initGrid [] w h)) + 1 from
      visitedCount_setVisited hRrect hs1 hs2 (by
        rw [cellAt_dfsReset_initGrid, if_pos ⟨hs1, hs2⟩]
        simp)]
    have hz : visitedCount w h (dfsReset ([] : List Pos) w h (initGrid [] w h)) = 0 := by
      apply List.countP_eq_zero.mpr
      intro p hp
      rcases mem_allPositions.mp hp with ⟨hp1, hp2⟩
      rw [cellAt_dfsReset_initGrid, if_pos ⟨hp1, hp2⟩]
      simp
    rw [hz]
  refine ⟨hG ▸ hrect, hG ▸ hsymm, hG ▸ hall, ?_, ?_⟩
  · rw [hG]
    rw [hbase] at hcount
    omega
  · intro h2 p hp1 hp2
    rw [hG]
    rcases hopened with hop | ⟨-, hsing⟩
    · obtain ⟨d, hd⟩ := hop p hp1 hp2 (hall p hp1 hp2) (by simp)
      intro h15
      rw [h15] at hd
      exact fifteen_and_bit d hd
    · exfalso
      have hw2 : 2 ≤ w ∨ 2 ≤ h := by
        by_cases hw1 : 2 ≤ w
        · exact Or.inl hw1
        · right
          have hweq : w = 1 := by omega
          rw [hweq, Nat.one_mul] at h2
          exact h2
      rcases hw2 with hw2 | hh2
      · have ha := hsing (0, 0) (by omega) hh (hall (0, 0) (by omega) hh) (by simp)
        have hb := hsing (1, 0) (by omega) hh (hall (1, 0) (by omega) hh) (by simp)
        rw [← hb] at ha
        exact absurd ha (by decide)
      · have ha := hsing (0, 0) hw (by omega) (hall (0, 0) hw (by omega)) (by simp)
        have hb := hsing (0, 1) hw (by omega) (hall (0, 1) hw (by omega)) (by simp)
        rw [← hb] at ha
        exact absurd ha (by decide)

/-- Summary of a DFS run over an arbitrary pattern (default start). -/
lemma dfs_pattern_summary (rng : Rng) (w h : Nat) (pattern : List Pos)
    (hw : 0 < w) (hh : 0 < h) :
    Rect w h (dfsGenerate rng w h pattern 0 0).1 ∧
    SymmWalls w h (dfsGenerate rng w h pattern 0 0).1 ∧
    ∀ p : Pos, p.1 < w → p.2 < h → p ∈ pattern →
      (cellAt (dfsGenerate rng w h pattern 0 0).1 p).visited = true ∧
      (cellAt (dfsGenerate rng w h pattern 0 0).1 p).walls = 15 := by
  have hfin := dfsLoop_inv rng (2 * w * h + 2) _ (dfsInit_inv w h pattern hw hh)
  exact ⟨hfin.rect, hfin.symm, hfin.pat_prot⟩

/-! ### The base run over an arbitrary pattern: start, closure, counting -/

lemma dfsStart_npat {w h : Nat} {pattern : List Pos} (hw : 0 < w) (hh : 0 < h)
    (hnc : nonPatternCells w h pattern ≠ []) :
    dfsStart w h pattern 0 0 ∉ pattern := by
  rcases (dfsStart_props pattern hw hh).2.2 with hnp | hall
  · exact hnp
  · exfalso
    obtain ⟨p, hp⟩ := List.exists_mem_of_ne_nil _ hnc
    rcases mem_nonPatternCells.mp hp with ⟨h1, h2, h3⟩
    exact h3 (hall p h1 h2)

/-- Split the visited count into enabled and pattern parts, when every
in-bounds pattern cell is visited. -/
lemma visitedCount_split_enabled {w h : Nat} {pattern : List Pos} {g : Grid}
    (hpat : ∀ p : Pos, p.1 < w → p.2 < h → p ∈ pattern →
      (cellAt g p).visited = true) :
    visitedCount w h g = enabledVisitedCount w h pattern g +
      (allPositions w h).countP (fun p => decide (p ∈ pattern)) := by
  unfold visitedCount enabledVisitedCount
  rw [countP_split (allPositions w h) (fun p => (cellAt g p).visited)
    (fun p => decide (p ∉ pattern))]
  congr 1
  apply countP_congr_eq
  intro p hp
  rcases mem_allPositions.mp hp with ⟨hp1, hp2⟩
  by_cases hm : p ∈ pattern
  · simp [hm, hpat p hp1 hp2 hm]
  · simp [hm]

lemma visitedCount_initGrid (w h : Nat) (pattern : List Pos) :
    visitedCount w h (initGrid pattern w h) =
      (allPositions w h).countP (fun p => decide (p ∈ pattern)) := by
  unfold visitedCount
  apply countP_congr_eq
  intro p hp
  rcases mem_allPositions.mp hp with ⟨hp1, hp2⟩
  rw [cellAt_initGrid, if_pos ⟨hp1, hp2⟩]

lemma visitedCount_dfsReset (w h : Nat) (pattern : List Pos) :
    visitedCount w h (dfsReset pattern w h (initGrid pattern w h)) =
      (allPositions w h).countP (fun p => decide (p ∈ pattern)) := by
  unfold visitedCount
  apply countP_congr_eq
  intro p hp
  rcases mem_allPositions.mp hp with ⟨hp1, hp2⟩
  rw [cellAt_dfsReset_initGrid, if_pos ⟨hp1, hp2⟩]

/-- The Prim initial grid has the pattern cells and the start visited. -/
lemma primInit_base (rng : Rng) (w h : Nat) (pattern : List Pos)
    (hnc : nonPatternCells w h pattern ≠ []) :
    visitedCount w h (primInitState rng w h pattern).grid =
      (allPositions w h).countP (fun p => decide (p ∈ pattern)) + 1 := by
  have hsmem : (nonPatternCells w h pattern).getD
      (rng 0 % (nonPatternCells w h pattern).length) (0, 0) ∈
        nonPatternCells w h pattern :=
    getD_mem _ (Nat.mod_lt _ (List.length_pos.mpr hnc))
  rcases mem_nonPatternCells.mp hsmem with ⟨hs1, hs2, hs3⟩
  have hgrid : (primInitState rng w h pattern).grid =
      setVisited (initGrid pattern w h) ((nonPatternCells w h pattern).getD
        (rng 0 % (nonPatternCells w h pattern).length) (0, 0)) := rfl
  rw [hgrid, visitedCount_setVisited (rect_initGrid pattern w h) hs1 hs2 (by
      rw [cellAt_initGrid, if_pos ⟨hs1, hs2⟩]
      exact decide_eq_false hs3),
    visitedCount_initGrid]

/-- The DFS initial grid has the pattern cells and the start visited. -/
lemma dfsInit_base (w h : Nat) (pattern : List Pos) (hw : 0 < w) (hh : 0 < h)
    (hnc : nonPatternCells w h pattern ≠ []) :
    visitedCount w h (dfsInitState w h pattern 0 0).grid =
      (allPositions w h).countP (fun p => decide (p ∈ pattern)) + 1 := by
  obtain ⟨hs1, hs2, -⟩ := dfsStart_props pattern hw hh
  have hs3 := dfsStart_npat hw hh hnc
  have hR : Rect w h (dfsReset pattern w h (initGrid pattern w h)) := by
    unfold dfsReset
    exact rect_build w h _
  have hgrid : (dfsInitState w h pattern 0 0).grid =
      setVisited (dfsReset pattern w h (initGrid pattern w h))
        (dfsStart w h pattern 0 0) := rfl
  rw [hgrid, visitedCount_setVisited hR hs1 hs2 (by
      rw [cellAt_dfsReset_initGrid, if_pos ⟨hs1, hs2⟩]
      exact decide_eq_false hs3),
    visitedCount_dfsReset]

/-- Summary of a base generation run over an arbitrary pattern with at
least one enabled cell: the start cell is an in-bounds enabled cell and is
visited, the visited region is closed at enabled cells, every visited
enabled cell has an open wall unless the start is the only one, and the
carved passages form a spanning tree of the visited enabled cells. -/
lemma baseGenerate_run_summary (algo : Algo) (rng : Rng) (w h : Nat)
    (pattern : List Pos) (hw : 0 < w) (hh : 0 < h)
    (hnc : nonPatternCells w h pattern ≠ []) :
    (runStart algo rng w h pattern).1 < w ∧
    (runStart algo rng w h pattern).2 < h ∧
    runStart algo rng w h pattern ∉ pattern ∧
    (cellAt (baseGenerate algo rng w h pattern).1
      (runStart algo rng w h pattern)).visited = true ∧
    (∀ v : Pos, v.1 < w → v.2 < h →
      (cellAt (baseGenerate algo rng w h pattern).1 v).visited = true →
      v ∉ pattern → ∀ q d, nextPos w h v d = some q →
        (cellAt (baseGenerate algo rng w h pattern).1 q).visited = true) ∧
    ((∀ p : Pos, p.1 < w → p.2 < h →
        (cellAt (baseGenerate algo rng w h pattern).1 p).visited = true →
        p ∉ pattern → ∃ d,
          (cellAt (baseGenerate algo rng w h pattern).1 p).walls &&& wallBit d = 0) ∨
      ∀ p : Pos, p.1 < w → p.2 < h →
        (cellAt (baseGenerate algo rng w h pattern).1 p).visited = true →
        p ∉ pattern → p = runStart algo rng w h pattern) ∧
    passageCount w h (baseGenerate algo rng w h pattern).1 + 1 =
      enabledVisitedCount w h pattern (baseGenerate algo rng w h pattern).1 := by
  cases algo with
  | prim =>
    have hinit := primInit_inv rng w h pattern hnc
    have hfin := primLoop_inv rng (4 * w * h + 8) _ hinit
    have hdrain := primLoop_drains rng (4 * w * h + 8) _ hinit
      (primInit_measure_le rng w h pattern)
    have hG : (baseGenerate Algo.prim rng w h pattern).1 =
        (primLoop rng w h (4 * w * h + 8) (primInitState rng w h pattern)).grid := by
      show (primGenerate rng w h pattern).1 = _
      rw [primGenerate, if_neg hnc]
    have hsmem : (nonPatternCells w h pattern).getD
        (rng 0 % (nonPatternCells w h pattern).length) (0, 0) ∈
          nonPatternCells w h pattern :=
      getD_mem _ (Nat.mod_lt _ (List.length_pos.mpr hnc))
    rcases mem_nonPatternCells.mp hsmem with ⟨hs1, hs2, hs3⟩
    have hstart_eq : runStart Algo.prim rng w h pattern =
        (nonPatternCells w h pattern).getD
          (rng 0 % (nonPatternCells w h pattern).length) (0, 0) := rfl
    rw [hG, hstart_eq]
    refine ⟨hs1, hs2, hs3, hfin.start_vis, ?_, hfin.opened.imp (fun x => x)
      (fun x => x.2), ?_⟩
    · intro v hv1 hv2 hvv hvp q d hqd
      have hqb := nextPos_inb hqd
      rcases Bool.eq_false_or_eq_true
        (cellAt (primLoop rng w h (4 * w * h + 8)
          (primInitState rng w h pattern)).grid q).visited with hb | hb
      · exact hb
      · exfalso
        obtain ⟨e2, he2, -⟩ := hfin.cover q hqb.1 hqb.2 hb v hv1 hv2 hvv hvp ⟨d, hqd⟩
        rw [hdrain] at he2
        cases he2
    · have hcount := hfin.count
      rw [primInit_base rng w h pattern hnc,
        visitedCount_split_enabled
          (fun p hp1 hp2 hp => (hfin.pat_prot p hp1 hp2 hp).1)] at hcount
      omega
  | dfs =>
    have hinit := dfsInit_inv w h pattern hw hh
    have hfin := dfsLoop_inv rng (2 * w * h + 2) _ hinit
    have hdrain := dfsLoop_drains rng (2 * w * h + 2) _ hinit
      (dfsInit_measure_le w h pattern)
    obtain ⟨hs1, hs2, -⟩ := dfsStart_props pattern hw hh
    have hs3 := dfsStart_npat hw hh hnc
    have hG : (baseGenerate Algo.dfs rng w h pattern).1 =
        (dfsLoop rng w h (2 * w * h + 2) (dfsInitState w h pattern 0 0)).grid := rfl
    have hstart_eq : runStart Algo.dfs rng w h pattern =
        dfsStart w h pattern 0 0 := rfl
    rw [hG, hstart_eq]
    refine ⟨hs1, hs2, hs3, hfin.start_vis, ?_, hfin.opened.imp (fun x => x)
      (fun x => x.2), ?_⟩
    · intro v hv1 hv2 hvv hvp q d hqd
      rcases hfin.processed v hv1 hv2 hvv hvp with hstk | hcl
      · rw [hdrain] at hstk
        cases hstk
      · exact hcl q d hqd
    · have hcount := hfin.count
      rw [dfsInit_base w h pattern hw hh hnc,
        visitedCount_split_enabled
          (fun p hp1 hp2 hp => (hfin.pat_prot p hp1 hp2 hp).1)] at hcount
      omega

/-- Walking an enabled-adjacency chain from the start stays inside the
visited enabled region. -/
lemma enabled_reach_visited {w h : Nat} {pattern : List Pos} {g : Grid} {start : Pos}
    (hs1 : start.1 < w) (hs2 : start.2 < h) (hs3 : start ∉ pattern)
    (hsv : (cellAt g start).visited = true)
    (hcl : ∀ v : Pos, v.1 < w → v.2 < h → (cellAt g v).visited = true →
      v ∉ pattern → ∀ q d, nextPos w h v d = some q →
        (cellAt g q).visited = true) :
    ∀ p : Pos, Relation.ReflTransGen (EnabledAdj w h pattern) start p →
      p.1 < w ∧ p.2 < h ∧ p ∉ pattern ∧ (cellAt g p).visited = true := by
  intro p hreach
  induction hreach with
  | refl => exact ⟨hs1, hs2, hs3, hsv⟩
  | tail hab hbc ih =>
    obtain ⟨hb1, hb2, hb3, hbv⟩ := ih
    obtain ⟨⟨d, hd⟩, hcpat⟩ := hbc
    have hcinb := nextPos_inb hd
    exact ⟨hcinb.1, hcinb.2, hcpat, hcl _ hb1 hb2 hbv hb3 _ d hd⟩

/-! ### The injection pass keeps rectangularity, carve symmetry, and the
passage ledger -/

/-- The loop-injection attempt loop preserves rectangularity, carve
symmetry and every visited flag, and each successful removal adds exactly
one passage. -/
lemma removeExtraLoop_full (rng : Rng) (w h : Nat) (pattern : List Pos) (target : Nat) :
    ∀ fuel removed k g, Rect w h g → SymmWalls w h g →
      Rect w h (removeExtraLoop rng w h pattern target fuel removed k g).1 ∧
      SymmWalls w h (removeExtraLoop rng w h pattern target fuel removed k g).1 ∧
      (passageCount w h (removeExtraLoop rng w h pattern target fuel removed k g).1 + removed =
        passageCount w h g + (removeExtraLoop rng w h pattern target fuel removed k g).2) ∧
      ∀ p : Pos, (cellAt (removeExtraLoop rng w h pattern target fuel removed k g).1 p).visited =
        (cellAt g p).visited := by
  intro fuel
  induction fuel with
  | zero =>
    intro removed k g hg hsym
    exact ⟨hg, hsym, rfl, fun p => rfl⟩
  | succ fuel ih =>
    intro removed k g hg hsym
    rw [removeExtraLoop]
    dsimp only
    by_cases hstop : target ≤ removed
    · rw [if_pos hstop]
      exact ⟨hg, hsym, rfl, fun p => rfl⟩
    · rw [if_neg hstop]
      set rp : Pos := (rng k % w, rng (k + 1) % h) with hrp
      by_cases hpat : rp ∈ pattern
      · rw [if_pos hpat]
        exact ih removed (k + 2) g hg hsym
      · rw [if_neg hpat]
        set d := dirAt (rng (k + 2) % 4) with hd
        cases hnp : nextPos w h rp d with
        | none =>
          dsimp only
          exact ih removed (k + 3) g hg hsym
        | some np =>
          dsimp only
          by_cases hnpp : np ∈ pattern
          · rw [if_pos hnpp]
            exact ih removed (k + 3) g hg hsym
          · rw [if_neg hnpp]
            by_cases hwall : (cellAt g rp).walls &&& wallBit d ≠ 0
            · rw [if_pos hwall]
              have hwh := nextPos_pos hnp
              have hrp1 : rp.1 < w := Nat.mod_lt _ hwh.1
              have hrp2 : rp.2 < h := Nat.mod_lt _ hwh.2
              have hnpb := nextPos_inb hnp
              have hne : np ≠ rp := nextPos_ne hnp
              have hg2 : Rect w h (removeWallBetween g rp np d) :=
                rect_removeWallBetween hg _ _ _
              have hs2 : SymmWalls w h (removeWallBetween g rp np d) :=
                symmWalls_carve hg hsym hrp1 hrp2 hnp
              have hpc : passageCount w h (removeWallBetween g rp np d) =
                  passageCount w h g + 1 :=
                passageCount_carve hg hsym hrp1 hrp2 hnp hwall
              have := ih (removed + 1) (k + 3) (removeWallBetween g rp np d) hg2 hs2
              refine ⟨this.1, this.2.1, ?_, ?_⟩
              · have hcnt := this.2.2.1
                rw [hpc] at hcnt
                omega
              · intro p
                rw [this.2.2.2 p,
                  visited_removeWallBetween hg d hrp1 hrp2 hnpb.1 hnpb.2
                    (fun x => hne x.symm) p]
            · rw [if_neg hwall]
              exact ih removed (k + 3) g hg hsym

/-- Enabled-visited counting only reads the visited flags. -/
lemma enabledVisitedCount_congr {w h : Nat} {pattern : List Pos} {g g2 : Grid}
    (hvis : ∀ p : Pos, (cellAt g2 p).visited = (cellAt g p).visited) :
    enabledVisitedCount w h pattern g2 = enabledVisitedCount w h pattern g := by
  unfold enabledVisitedCount
  apply countP_congr_eq
  intro p _
  rw [hvis p]

lemma enabledVisitedCount_le (w h : Nat) (pattern : List Pos) (g : Grid) :
    enabledVisitedCount w h pattern g ≤ enabledCellCount w h pattern := by
  unfold enabledVisitedCount enabledCellCount
  apply countP_le_countP
  intro p _ hp
  exact ((Bool.and_eq_true _ _).mp hp).2

/-! ### Pipeline-level helpers -/

/-- The base generation run is rectangular, carve-symmetric, and keeps every
in-bounds pattern cell fully walled. -/
lemma baseGenerate_pattern_summary (algo : Algo) (rng : Rng) (w h : Nat)
    (pattern : List Pos) (hw : 0 < w) (hh : 0 < h) :
    Rect w h (baseGenerate algo rng w h pattern).1 ∧
      SymmWalls w h (baseGenerate algo rng w h pattern).1 ∧
      ∀ p : Pos, p.1 < w → p.2 < h → p ∈ pattern →
        (cellAt (baseGenerate algo rng w h pattern).1 p).walls = 15 := by
  cases algo with
  | prim =>
    obtain ⟨h1, h2, h3⟩ := prim_pattern_summary rng w h pattern
    exact ⟨h1, h2, fun p hp1 hp2 hp => (h3 p hp1 hp2 hp).2⟩
  | dfs =>
    obtain ⟨h1, h2, h3⟩ := dfs_pattern_summary rng w h pattern hw hh
    exact ⟨h1, h2, fun p hp1 hp2 hp => (h3 p hp1 hp2 hp).2⟩

/-- The full animated pipeline, for either perfect flag, yields a
rectangular carve-symmetric grid. -/
lemma animGenerate_rect_symm (algo : Algo) (rng : Rng) (w h : Nat)
    (pattern : List Pos) (perfect : Bool) (hw : 0 < w) (hh : 0 < h) :
    Rect w h (animGenerate algo rng w h pattern perfect) ∧
      SymmWalls w h (animGenerate algo rng w h pattern perfect) := by
  obtain ⟨h1, h2, -⟩ := baseGenerate_pattern_summary algo rng w h pattern hw hh
  cases perfect with
  | true => exact ⟨h1, h2⟩
  | false =>
    have := removeExtraLoop_full rng w h pattern (w * h / 20) 1000 0
      (baseGenerate algo rng w h pattern).2 (baseGenerate algo rng w h pattern).1 h1 h2
    exact ⟨this.1, this.2.1⟩

/-- The base generation run over the empty pattern: all cells visited, a
spanning tree of passages, and (for at least two cells) nothing fully
walled. -/
lemma baseGenerate_perfect_summary (algo : Algo) (rng : Rng) (w h : Nat)
    (hw : 0 < w) (hh : 0 < h) :
    Rect w h (baseGenerate algo rng w h []).1 ∧
      SymmWalls w h (baseGenerate algo rng w h []).1 ∧
      (∀ p : Pos, p.1 < w → p.2 < h →
        (cellAt (baseGenerate algo rng w h []).1 p).visited = true) ∧
      passageCount w h (baseGenerate algo rng w h []).1 + 1 = w * h ∧
      (2 ≤ w * h → ∀ p : Pos, p.1 < w → p.2 < h →
        (cellAt (baseGenerate algo rng w h []).1 p).walls ≠ 15) := by
  cases algo with
  | prim => exact prim_perfect_summary rng w h hw hh
  | dfs => exact dfs_perfect_summary rng w h hw hh

/-! ### Termination of the legacy `algorithms/prim.py` loop -/

/-- What the termination proof tracks about a legacy-loop state: the grid
stays rectangular and every frontier entry records an in-bounds adjacency
from its source cell to its target cell. -/
structure LegacyInv (w h : Nat) (s : PrimState) : Prop where
  rect : Rect w h s.grid
  src_inb : ∀ e ∈ s.frontier, e.1.1 < w ∧ e.1.2 < h
  adj : ∀ e ∈ s.frontier, nextPos w h e.1 e.2.2 = some e.2.1

/-- The termination potential of the legacy loop: entries aimed at a
still-unvisited cell count 1, entries aimed at a visited cell count 5, all
scaled by `5 ^ unvisited`.  A pop whose target is already visited trades a
5 for at most four 1s; a carving pop drops the exponent, which pays for the
at most four appended entries and for every entry now aimed at the freshly
visited cell. -/
def legacyMeasure (w h : Nat) (s : PrimState) : Nat :=
  (s.frontier.countP (fun e => !(cellAt s.grid e.2.1).visited) +
      5 * s.frontier.countP (fun e => (cellAt s.grid e.2.1).visited) + 2) *
    5 ^ unvisitedCount w h s.grid

lemma legacyStep_inv {w h : Nat} (rng : Rng) {s : PrimState} (hne : s.frontier ≠ [])
    (hinv : LegacyInv w h s) : LegacyInv w h (legacyPrimStep rng w h s) := by
  unfold legacyPrimStep
  dsimp only
  set i := rng s.k % s.frontier.length with hi_def
  have hi : i < s.frontier.length := Nat.mod_lt _ (List.length_pos.mpr hne)
  set e := s.frontier.getD i ((0, 0), (0, 0), Dir.N) with he_def
  have he : e ∈ s.frontier := getD_mem _ hi
  have hadj := hinv.adj e he
  have htinb := nextPos_inb hadj
  refine ⟨?_, ?_, ?_⟩
  · dsimp only
    by_cases hv : (cellAt s.grid e.2.1).visited = true
    · rw [if_pos hv]
      exact hinv.rect
    · rw [if_neg hv]
      exact rect_setVisited (rect_removeWallBetween hinv.rect _ _ _) _
  · intro e2 he2
    rcases List.mem_append.mp he2 with hr | hm
    · exact hinv.src_inb e2 (mem_eraseIdx _ _ hr)
    · rcases List.mem_map.mp hm with ⟨qd, -, rfl⟩
      exact htinb
  · intro e2 he2
    rcases List.mem_append.mp he2 with hr | hm
    · exact hinv.adj e2 (mem_eraseIdx _ _ hr)
    · rcases List.mem_map.mp hm with ⟨qd, hqd, rfl⟩
      dsimp only
      have hqd2 : ((qd.1, qd.2) : Pos × Dir) ∈ unvisitedNeighbors
          (if (cellAt s.grid e.2.1).visited = true then s.grid
            else setVisited (removeWallBetween s.grid e.1 e.2.1 e.2.2) e.2.1)
          w h e.2.1 := by
        rw [← show qd = (qd.1, qd.2) from rfl]
        exact hqd
      exact (mem_neighbors_iff htinb.1 htinb.2).mp (mem_unvisitedNeighbors.mp hqd2).1

lemma legacyStep_measure {w h : Nat} (rng : Rng) {s : PrimState}
    (hne : s.frontier ≠ []) (hinv : LegacyInv w h s) :
    legacyMeasure w h (legacyPrimStep rng w h s) < legacyMeasure w h s := by
  unfold legacyPrimStep
  dsimp only
  unfold legacyMeasure
  dsimp only
  set i := rng s.k % s.frontier.length with hi_def
  have hi : i < s.frontier.length := Nat.mod_lt _ (List.length_pos.mpr hne)
  set e := s.frontier.getD i ((0, 0), (0, 0), Dir.N) with he_def
  have he : e ∈ s.frontier := getD_mem _ hi
  have hadj := hinv.adj e he
  have hsrc := hinv.src_inb e he
  have htinb := nextPos_inb hadj
  have htne : e.2.1 ≠ e.1 := nextPos_ne hadj
  have herase_u : s.frontier.countP (fun e2 => !(cellAt s.grid e2.2.1).visited) =
      (s.frontier.eraseIdx i).countP (fun e2 => !(cellAt s.grid e2.2.1).visited) +
        (if (!(cellAt s.grid e.2.1).visited) = true then 1 else 0) :=
    countP_eraseIdx _ ((0, 0), (0, 0), Dir.N) s.frontier i hi
  have herase_v : s.frontier.countP (fun e2 => (cellAt s.grid e2.2.1).visited) =
      (s.frontier.eraseIdx i).countP (fun e2 => (cellAt s.grid e2.2.1).visited) +
        (if (cellAt s.grid e.2.1).visited = true then 1 else 0) :=
    countP_eraseIdx _ ((0, 0), (0, 0), Dir.N) s.frontier i hi
  by_cases hv : (cellAt s.grid e.2.1).visited = true
  · simp only [if_pos hv]
    rw [hv] at herase_u herase_v
    simp at herase_u herase_v
    refine mul_lt_mul_of_pos_right ?_ (pow_pos (by norm_num) _)
    rw [List.countP_append, List.countP_append]
    have happ_u : ((unvisitedNeighbors s.grid w h e.2.1).map
        (fun qd => (e.2.1, qd.1, qd.2))).countP
          (fun e2 => !(cellAt s.grid e2.2.1).visited) =
        ((unvisitedNeighbors s.grid w h e.2.1).map
          (fun qd => (e.2.1, qd.1, qd.2))).length := by
      apply List.countP_eq_length.mpr
      intro a ha
      rcases List.mem_map.mp ha with ⟨qd, hqd, rfl⟩
      dsimp only
      have hq2 : ((qd.1, qd.2) : Pos × Dir) ∈ unvisitedNeighbors s.grid w h e.2.1 := by
        rw [← show qd = (qd.1, qd.2) from rfl]
        exact hqd
      rw [(mem_unvisitedNeighbors.mp hq2).2]
      rfl
    have happ_v : ((unvisitedNeighbors s.grid w h e.2.1).map
        (fun qd => (e.2.1, qd.1, qd.2))).countP
          (fun e2 => (cellAt s.grid e2.2.1).visited) = 0 := by
      apply List.countP_eq_zero.mpr
      intro a ha
      rcases List.mem_map.mp ha with ⟨qd, hqd, rfl⟩
      dsimp only
      have hq2 : ((qd.1, qd.2) : Pos × Dir) ∈ unvisitedNeighbors s.grid w h e.2.1 := by
        rw [← show qd = (qd.1, qd.2) from rfl]
        exact hqd
      rw [(mem_unvisitedNeighbors.mp hq2).2]
      simp
    have hlen4 : ((unvisitedNeighbors s.grid w h e.2.1).map
        (fun qd => (e.2.1, qd.1, qd.2))).length ≤ 4 := by
      rw [List.length_map]
      exact unvisitedNeighbors_length_le _ _ _ _
    rw [happ_u, happ_v]
    omega
  · simp only [if_neg hv]
    have hvf : (cellAt s.grid e.2.1).visited = false := Bool.eq_false_iff.mpr hv
    have hrect_gc : Rect w h (removeWallBetween s.grid e.1 e.2.1 e.2.2) :=
      rect_removeWallBetween hinv.rect _ _ _
    have hvis_gc : ∀ p : Pos,
        (cellAt (removeWallBetween s.grid e.1 e.2.1 e.2.2) p).visited =
          (cellAt s.grid p).visited :=
      visited_removeWallBetween hinv.rect e.2.2 hsrc.1 hsrc.2 htinb.1 htinb.2
        (fun x => htne x.symm)
    set gc := removeWallBetween s.grid e.1 e.2.1 e.2.2 with hgc_def
    set g2 := setVisited gc e.2.1 with hg2_def
    have hvis2 : ∀ p : Pos, (cellAt g2 p).visited =
        (if p = e.2.1 then true else (cellAt s.grid p).visited) := by
      intro p
      rw [hg2_def, cellAt_setVisited hrect_gc htinb.1 htinb.2]
      by_cases hp : p = e.2.1
      · rw [if_pos hp, if_pos hp]
      · rw [if_neg hp, if_neg hp, hvis_gc p]
    have huc1 : unvisitedCount w h gc = unvisitedCount w h s.grid :=
      unvisitedCount_removeWallBetween hinv.rect e.2.2 hsrc.1 hsrc.2 htinb.1 htinb.2
        (fun x => htne x.symm)
    have huc2 : unvisitedCount w h gc = unvisitedCount w h g2 + 1 :=
      unvisitedCount_setVisited hrect_gc htinb.1 htinb.2 (by
        rw [hvis_gc]
        exact hvf)
    have hU : unvisitedCount w h s.grid = unvisitedCount w h g2 + 1 := by
      rw [← huc1, huc2]
    rw [hvf] at herase_u herase_v
    simp at herase_u herase_v
    have hcongr_v : (s.frontier.eraseIdx i).countP
        (fun e2 => (cellAt g2 e2.2.1).visited) =
        (s.frontier.eraseIdx i).countP
          (fun e2 => decide (e2.2.1 = e.2.1) || (cellAt s.grid e2.2.1).visited) := by
      apply countP_congr_eq
      intro e2 _
      rw [hvis2 e2.2.1]
      by_cases hx : e2.2.1 = e.2.1
      · simp [hx]
      · simp [hx]
    have hsplit_v : (s.frontier.eraseIdx i).countP
        (fun e2 => decide (e2.2.1 = e.2.1) || (cellAt s.grid e2.2.1).visited) =
        (s.frontier.eraseIdx i).countP (fun e2 => decide (e2.2.1 = e.2.1)) +
          (s.frontier.eraseIdx i).countP (fun e2 => (cellAt s.grid e2.2.1).visited) :=
      countP_or_disjoint _ (by
        intro a _ ha
        rw [decide_eq_true_eq] at ha
        rw [ha]
        exact hvf)
    have hcongr_u : (s.frontier.eraseIdx i).countP
        (fun e2 => !(cellAt g2 e2.2.1).visited) =
        (s.frontier.eraseIdx i).countP
          (fun e2 => !(cellAt s.grid e2.2.1).visited && !(decide (e2.2.1 = e.2.1))) := by
      apply countP_congr_eq
      intro e2 _
      rw [hvis2 e2.2.1]
      by_cases hx : e2.2.1 = e.2.1
      · simp [hx]
      · simp [hx]
    have hsplit_u : (s.frontier.eraseIdx i).countP
        (fun e2 => !(cellAt s.grid e2.2.1).visited) =
        (s.frontier.eraseIdx i).countP
          (fun e2 => !(cellAt s.grid e2.2.1).visited && decide (e2.2.1 = e.2.1)) +
          (s.frontier.eraseIdx i).countP
            (fun e2 => !(cellAt s.grid e2.2.1).visited && !(decide (e2.2.1 = e.2.1))) :=
      countP_split _ _ _
    have hrv_eq : (s.frontier.eraseIdx i).countP
        (fun e2 => !(cellAt s.grid e2.2.1).visited && decide (e2.2.1 = e.2.1)) =
        (s.frontier.eraseIdx i).countP (fun e2 => decide (e2.2.1 = e.2.1)) := by
      apply countP_congr_eq
      intro e2 _
      by_cases hx : e2.2.1 = e.2.1
      · rw [hx, hvf]
        simp
      · simp [hx]
    have hrv_le : (s.frontier.eraseIdx i).countP (fun e2 => decide (e2.2.1 = e.2.1)) ≤
        (s.frontier.eraseIdx i).countP (fun e2 => !(cellAt s.grid e2.2.1).visited) := by
      apply countP_le_countP
      intro a _ ha
      rw [decide_eq_true_eq] at ha
      rw [ha, hvf]
      rfl
    have happ_u : ((unvisitedNeighbors g2 w h e.2.1).map
        (fun qd => (e.2.1, qd.1, qd.2))).countP
          (fun e2 => !(cellAt g2 e2.2.1).visited) =
        ((unvisitedNeighbors g2 w h e.2.1).map
          (fun qd => (e.2.1, qd.1, qd.2))).length := by
      apply List.countP_eq_length.mpr
      intro a ha
      rcases List.mem_map.mp ha with ⟨qd, hqd, rfl⟩
      dsimp only
      have hq2 : ((qd.1, qd.2) : Pos × Dir) ∈ unvisitedNeighbors g2 w h e.2.1 := by
        rw [← show qd = (qd.1, qd.2) from rfl]
        exact hqd
      rw [(mem_unvisitedNeighbors.mp hq2).2]
      rfl
    have happ_v : ((unvisitedNeighbors g2 w h e.2.1).map
        (fun qd => (e.2.1, qd.1, qd.2))).countP
          (fun e2 => (cellAt g2 e2.2.1).visited) = 0 := by
      apply List.countP_eq_zero.mpr
      intro a ha
      rcases List.mem_map.mp ha with ⟨qd, hqd, rfl⟩
      dsimp only
      have hq2 : ((qd.1, qd.2) : Pos × Dir) ∈ unvisitedNeighbors g2 w h e.2.1 := by
        rw [← show qd = (qd.1, qd.2) from rfl]
        exact hqd
      rw [(mem_unvisitedNeighbors.mp hq2).2]
      simp
    have hlen4 : ((unvisitedNeighbors g2 w h e.2.1).map
        (fun qd => (e.2.1, qd.1, qd.2))).length ≤ 4 := by
      rw [List.length_map]
      exact unvisitedNeighbors_length_le _ _ _ _
    have key : ∀ c1 c2 u : Nat, c1 < c2 * 5 → c1 * 5 ^ u < c2 * 5 ^ (u + 1) := by
      intro c1 c2 u hlt
      calc c1 * 5 ^ u < (c2 * 5) * 5 ^ u :=
            mul_lt_mul_of_pos_right hlt (pow_pos (by norm_num) u)
        _ = c2 * 5 ^ (u + 1) := by ring
    rw [List.countP_append, List.countP_append, happ_u, happ_v, hcongr_u, hcongr_v,
      hsplit_v, hU]
    apply key
    omega

lemma legacyLoop_drains {w h : Nat} (rng : Rng) :
    ∀ (fuel : Nat) (s : PrimState), LegacyInv w h s →
      legacyMeasure w h s ≤ fuel → (legacyPrimLoop rng w h fuel s).frontier = [] := by
  intro fuel
  induction fuel with
  | zero =>
    intro s _ hm
    exfalso
    have hpos : 0 < legacyMeasure w h s := by
      unfold legacyMeasure
      exact Nat.mul_pos (by omega) (pow_pos (by norm_num) _)
    omega
  | succ fuel ih =>
    intro s hinv hm
    rw [legacyPrimLoop]
    by_cases hne : s.frontier = []
    · rw [if_pos hne]
      exact hne
    · rw [if_neg hne]
      exact ih _ (legacyStep_inv rng hne hinv)
        (by have := legacyStep_measure rng hne hinv; omega)

/-- The state `algorithms/prim.py` enters its loop with satisfies the
invariant. -/
lemma legacyInit_inv (rng : Rng) (w h : Nat) (g0 : Grid) (hw : 0 < w) (hh : 0 < h)
    (hg0 : Rect w h g0) :
    LegacyInv w h
      { grid := setVisited g0 (rng 0 % w, rng 1 % h)
        frontier := (neighbors w h (rng 0 % w, rng 1 % h)).map
          fun qd => ((rng 0 % w, rng 1 % h), qd.1, qd.2)
        k := 2 } := by
  have hs1 : rng 0 % w < w := Nat.mod_lt _ hw
  have hs2 : rng 1 % h < h := Nat.mod_lt _ hh
  refine ⟨rect_setVisited hg0 _, ?_, ?_⟩
  · intro e2 he2
    rcases List.mem_map.mp he2 with ⟨qd, -, rfl⟩
    exact ⟨hs1, hs2⟩
  · intro e2 he2
    rcases List.mem_map.mp he2 with ⟨qd, hqd, rfl⟩
    dsimp only
    have hqd2 : ((qd.1, qd.2) : Pos × Dir) ∈
        neighbors w h (rng 0 % w, rng 1 % h) := by
      rw [← show qd = (qd.1, qd.2) from rfl]
      exact hqd
    exact (mem_neighbors_iff hs1 hs2).mp hqd2

/-- The initial potential of the legacy loop is dominated by the
`5 ^ (w*h + 1)` fuel the embedding gives it. -/
lemma legacyInit_measure_le (rng : Rng) (w h : Nat) (g0 : Grid)
    (hw : 0 < w) (hh : 0 < h) (hg0 : Rect w h g0) :
    legacyMeasure w h
      { grid := setVisited g0 (rng 0 % w, rng 1 % h)
        frontier := (neighbors w h (rng 0 % w, rng 1 % h)).map
          fun qd => ((rng 0 % w, rng 1 % h), qd.1, qd.2)
        k := 2 } ≤ 5 ^ (w * h + 1) := by
  unfold legacyMeasure
  dsimp only
  have hs1 : rng 0 % w < w := Nat.mod_lt _ hw
  have hs2 : rng 1 % h < h := Nat.mod_lt _ hh
  set G1 := setVisited g0 (rng 0 % w, rng 1 % h) with hG1_def
  set F := (neighbors w h (rng 0 % w, rng 1 % h)).map
    (fun qd => ((rng 0 % w, rng 1 % h), qd.1, qd.2)) with hF_def
  have hlen : F.length ≤ 4 := by
    rw [hF_def, List.length_map]
    exact neighbors_length_le w h _
  have hsum := countP_not_add F (fun e2 => (cellAt G1 e2.2.1).visited)
  have hvstart : (cellAt G1 (rng 0 % w, rng 1 % h)).visited = true := by
    rw [hG1_def, cellAt_setVisited hg0 hs1 hs2, if_pos rfl]
  have hU : unvisitedCount w h G1 + 1 ≤ w * h := by
    have hpos : 0 < (allPositions w h).countP
        (fun p => (cellAt G1 p).visited) :=
      List.countP_pos.mpr ⟨(rng 0 % w, rng 1 % h),
        mem_allPositions.mpr ⟨hs1, hs2⟩, hvstart⟩
    have htot := countP_not_add (allPositions w h)
      (fun p => (cellAt G1 p).visited)
    rw [length_allPositions] at htot
    unfold unvisitedCount
    omega
  have hFv := List.countP_le_length
    (p := fun e2 : Pos × Pos × Dir => (cellAt G1 e2.2.1).visited) (l := F)
  have hcontent : F.countP (fun e2 => !(cellAt G1 e2.2.1).visited) +
      5 * F.countP (fun e2 => (cellAt G1 e2.2.1).visited) + 2 ≤ 22 := by
    omega
  calc (F.countP (fun e2 => !(cellAt G1 e2.2.1).visited) +
        5 * F.countP (fun e2 => (cellAt G1 e2.2.1).visited) + 2) *
        5 ^ unvisitedCount w h G1
      ≤ 22 * 5 ^ (w * h - 1) :=
        Nat.mul_le_mul hcontent (Nat.pow_le_pow_right (by norm_num) (by omega))
    _ ≤ 25 * 5 ^ (w * h - 1) := Nat.mul_le_mul_right _ (by norm_num)
    _ = 5 ^ (w * h + 1) := by
        rw [show (25 : Nat) = 5 ^ 2 from rfl, ← pow_add]
        congr 1
        have hwh : 0 < w * h := Nat.mul_pos hw hh
        omega

/-! ### BFS correctness for `find_path` -/

lemma openStep_eq_some {g : List (List Nat)} {w h : Nat} {p np : Pos} {d : Dir} :
    openStep g w h p d = some np ↔
      maskAt g p &&& wallBit d = 0 ∧ nextPos w h p d = some np := by
  unfold openStep
  by_cases hm : maskAt g p &&& wallBit d = 0
  · rw [if_pos hm]; simp [hm]
  · rw [if_neg hm]; simp [hm]

lemma follow_nil (g : List (List Nat)) (w h : Nat) (p : Pos) :
    follow g w h p [] = some p := rfl

lemma follow_cons (g : List (List Nat)) (w h : Nat) (p : Pos) (d : Dir) (ds : List Dir) :
    follow g w h p (d :: ds) =
      match openStep g w h p d with
      | some q => follow g w h q ds
      | none => none := rfl

lemma follow_append (g : List (List Nat)) (w h : Nat) (ys : List Dir) :
    ∀ (xs : List Dir) (p : Pos), follow g w h p (xs ++ ys) =
      match follow g w h p xs with
      | some q => follow g w h q ys
      | none => none := by
  intro xs
  induction xs with
  | nil => intro p; rfl
  | cons d rest ih =>
    intro p
    rw [List.cons_append, follow_cons, follow_cons]
    cases hstep : openStep g w h p d with
    | none => rfl
    | some q => exact ih q

lemma follow_snoc {g : List (List Nat)} {w h : Nat} {p p2 np : Pos} {ds : List Dir}
    {d : Dir} (h1 : follow g w h p ds = some p2) (h2 : openStep g w h p2 d = some np) :
    follow g w h p (ds ++ [d]) = some np := by
  rw [follow_append, h1]
  show follow g w h p2 [d] = some np
  rw [follow_cons, h2]
  rfl

lemma follow_stays_in_closed {g : List (List Nat)} {w h : Nat} {vis : List Pos}
    (hcl : ∀ v ∈ vis, ∀ d np, openStep g w h v d = some np → np ∈ vis) :
    ∀ (ds : List Dir) (p t : Pos), p ∈ vis → follow g w h p ds = some t → t ∈ vis := by
  intro ds
  induction ds with
  | nil =>
    intro p t hp ht
    rw [follow_nil] at ht
    exact Option.some.inj ht ▸ hp
  | cons d rest ih =>
    intro p t hp ht
    rw [follow_cons] at ht
    cases hstep : openStep g w h p d with
    | none => rw [hstep] at ht; cases ht
    | some q =>
      rw [hstep] at ht
      exact ih q t (hcl p hp d q hstep) ht

lemma bfsUnvis_cons {w h : Nat} {vis : List Pos} {np : Pos}
    (h1 : np.1 < w) (h2 : np.2 < h) (hnp : np ∉ vis) :
    bfsUnvis w h vis = bfsUnvis w h (np :: vis) + 1 := by
  unfold bfsUnvis
  apply countP_flip_one (nodup_allPositions w h) (mem_allPositions.mpr ⟨h1, h2⟩)
  · simp
  · simp [hnp]
  · intro b _ hbne
    simp [List.mem_cons, hbne]

lemma bfsUnvis_nil (w h : Nat) : bfsUnvis w h [] = w * h := by
  unfold bfsUnvis
  rw [← length_allPositions w h]
  apply List.countP_eq_length.mpr
  intro a _
  simp

/-- The `find_path` loop invariant: queue entries carry valid minimal paths
whose targets are on the visited list, the queue holds at most two
consecutive path lengths in FIFO order, every visited cell is either still
queued or fully expanded, and the goal, once visited, is still queued. -/
structure BfsInv (g : List (List Nat)) (w h : Nat) (entry goal : Pos)
    (queue : List (Pos × List Dir)) (vis : List Pos) : Prop where
  entry_vis : entry ∈ vis
  valid : ∀ e ∈ queue, follow g w h entry e.2 = some e.1
  tgt_vis : ∀ e ∈ queue, e.1 ∈ vis
  minimal : ∀ e ∈ queue, ∀ es, follow g w h entry es = some e.1 →
    e.2.length ≤ es.length
  level : ∃ l A B, queue = A ++ B ∧ (∀ e ∈ A, e.2.length = l) ∧
    (∀ e ∈ B, e.2.length = l + 1)
  processed : ∀ v ∈ vis, (∃ ds, (v, ds) ∈ queue) ∨
    ∀ d np, openStep g w h v d = some np → np ∈ vis
  goal_pending : goal ∈ vis → ∃ ds, (goal, ds) ∈ queue

/-- Every open-walled path from the entry to an unvisited cell passes
through a queued cell, with no length overhead: walk the path inside the
visited set until it first leaves through a still-queued cell. -/
lemma path_to_queue {g : List (List Nat)} {w h : Nat} {entry goal : Pos}
    {queue : List (Pos × List Dir)} {vis : List Pos}
    (hinv : BfsInv g w h entry goal queue vis) :
    ∀ (es : List Dir) (n : Nat) (v t : Pos), v ∈ vis →
      (∃ esv, follow g w h entry esv = some v ∧ esv.length = n) →
      follow g w h v es = some t → t ∉ vis →
      ∃ p2 ds2 tail, (p2, ds2) ∈ queue ∧ follow g w h p2 tail = some t ∧
        ds2.length + tail.length ≤ n + es.length := by
  intro es
  induction es with
  | nil =>
    intro n v t hv _ ht htv
    rw [follow_nil] at ht
    exact absurd (Option.some.inj ht ▸ hv) htv
  | cons d rest ih =>
    intro n v t hv hvpath ht htv
    rw [follow_cons] at ht
    cases hstep : openStep g w h v d with
    | none => rw [hstep] at ht; cases ht
    | some v2 =>
      rw [hstep] at ht
      obtain ⟨esv, hesv, hlen⟩ := hvpath
      rcases hinv.processed v hv with ⟨dsv, hdsv⟩ | hproc
      · refine ⟨v, dsv, d :: rest, hdsv, ?_, ?_⟩
        · rw [follow_cons, hstep]
          exact ht
        · have hmin : dsv.length ≤ esv.length := hinv.minimal (v, dsv) hdsv esv hesv
          simp only [List.length_cons]
          omega
      · have hv2 : v2 ∈ vis := hproc d v2 hstep
        have hpath2 : follow g w h entry (esv ++ [d]) = some v2 :=
          follow_snoc hesv hstep
        obtain ⟨p2, ds2, tail, hmem, hfol, hle⟩ := ih (n + 1) v2 t hv2
          ⟨esv ++ [d], hpath2, by simp [hlen]⟩ ht htv
        refine ⟨p2, ds2, tail, hmem, hfol, ?_⟩
        simp only [List.length_cons]
        omega

/-- A drained queue with the invariant means the goal was never reachable:
the visited set is closed under open steps, contains the entry, and misses
the goal. -/
lemma unreachable_of_drained {g : List (List Nat)} {w h : Nat} {entry goal : Pos}
    {vis : List Pos} (hinv : BfsInv g w h entry goal [] vis) :
    ¬ ReachableFrom g w h entry goal := by
  rintro ⟨es, hes⟩
  have hcl : ∀ v ∈ vis, ∀ d np, openStep g w h v d = some np → np ∈ vis := by
    intro v hv
    rcases hinv.processed v hv with ⟨ds, hds⟩ | hpr
    · cases hds
    · exact hpr
  have hgoal : goal ∈ vis :=
    follow_stays_in_closed hcl es entry goal hinv.entry_vis hes
  obtain ⟨ds, hds⟩ := hinv.goal_pending hgoal
  cases hds

/-- What one expansion pass does: it appends, in order, one entry per fresh
open neighbour (path grown by that direction, neighbour newly marked
visited), leaves old entries and visited cells in place, finishes with
every open neighbour of `p` visited, and keeps `queue length + unvisited
cells` constant. -/
lemma bfsExpand_spec (g : List (List Nat)) (w h : Nat) (p : Pos) (ds : List Dir) :
    ∀ (dl : List Dir) (q0 : List (Pos × List Dir)) (vis0 : List Pos),
      ∃ new, (bfsExpand g w h p ds dl (q0, vis0)).1 = q0 ++ new ∧
        (∀ e ∈ new, ∃ d, d ∈ dl ∧ openStep g w h p d = some e.1 ∧
          e.2 = ds ++ [d] ∧ e.1 ∉ vis0 ∧ e.1 ∈ (bfsExpand g w h p ds dl (q0, vis0)).2) ∧
        (∀ v ∈ vis0, v ∈ (bfsExpand g w h p ds dl (q0, vis0)).2) ∧
        (∀ v ∈ (bfsExpand g w h p ds dl (q0, vis0)).2, v ∈ vis0 ∨ ∃ e ∈ new, e.1 = v) ∧
        (∀ d ∈ dl, ∀ np, openStep g w h p d = some np →
          np ∈ (bfsExpand g w h p ds dl (q0, vis0)).2) ∧
        (bfsExpand g w h p ds dl (q0, vis0)).1.length +
            bfsUnvis w h (bfsExpand g w h p ds dl (q0, vis0)).2 =
          q0.length + bfsUnvis w h vis0 := by
  intro dl
  induction dl with
  | nil =>
    intro q0 vis0
    refine ⟨[], by simp [bfsExpand], ?_, ?_, ?_, ?_, rfl⟩
    · intro e he; cases he
    · intro v hv; exact hv
    · intro v hv; exact Or.inl hv
    · intro d hd; cases hd
  | cons d rest ih =>
    intro q0 vis0
    rw [bfsExpand]
    by_cases hm : maskAt g p &&& wallBit d = 0
    · rw [if_pos hm]
      cases hnx : nextPos w h p d with
      | none =>
        dsimp only
        obtain ⟨new, h1, h2, h3, h4, h5, h6⟩ := ih q0 vis0
        refine ⟨new, h1, ?_, h3, h4, ?_, h6⟩
        · intro e he
          obtain ⟨d2, hd2, hrest⟩ := h2 e he
          exact ⟨d2, List.mem_cons_of_mem _ hd2, hrest⟩
        · intro d2 hd2 np hstep
          rcases List.mem_cons.mp hd2 with rfl | hd2r
          · rw [openStep_eq_some] at hstep
            rw [hnx] at hstep
            cases hstep.2
          · exact h5 d2 hd2r np hstep
      | some np =>
        dsimp only
        have hopen : openStep g w h p d = some np := openStep_eq_some.mpr ⟨hm, hnx⟩
        by_cases hvis : np ∈ vis0
        · rw [if_pos hvis]
          obtain ⟨new, h1, h2, h3, h4, h5, h6⟩ := ih q0 vis0
          refine ⟨new, h1, ?_, h3, h4, ?_, h6⟩
          · intro e he
            obtain ⟨d2, hd2, hrest⟩ := h2 e he
            exact ⟨d2, List.mem_cons_of_mem _ hd2, hrest⟩
          · intro d2 hd2 np2 hstep
            rcases List.mem_cons.mp hd2 with rfl | hd2r
            · have : np2 = np := Option.some.inj (hstep.symm.trans hopen)
              exact this ▸ h3 np hvis
            · exact h5 d2 hd2r np2 hstep
        · rw [if_neg hvis]
          obtain ⟨new, h1, h2, h3, h4, h5, h6⟩ := ih (q0 ++ [(np, ds ++ [d])]) (np :: vis0)
          have hnp_in : np ∈ (bfsExpand g w h p ds rest
              (q0 ++ [(np, ds ++ [d])], np :: vis0)).2 :=
            h3 np (List.mem_cons_self _ _)
          refine ⟨(np, ds ++ [d]) :: new, ?_, ?_, ?_, ?_, ?_, ?_⟩
          · rw [h1, List.append_assoc]
            rfl
          · intro e he
            rcases List.mem_cons.mp he with rfl | her
            · exact ⟨d, List.mem_cons_self _ _, hopen, rfl, hvis, hnp_in⟩
            · obtain ⟨d2, hd2, hs2, he2, hnv2, hin2⟩ := h2 e her
              refine ⟨d2, List.mem_cons_of_mem _ hd2, hs2, he2, ?_, hin2⟩
              intro hev
              exact hnv2 (List.mem_cons_of_mem _ hev)
          · intro v hv
            exact h3 v (List.mem_cons_of_mem _ hv)
          · intro v hv
            rcases h4 v hv with hv0 | hnew
            · rcases List.mem_cons.mp hv0 with rfl | hv0r
              · exact Or.inr ⟨(v, ds ++ [d]), List.mem_cons_self _ _, rfl⟩
              · exact Or.inl hv0r
            · obtain ⟨e, he, hev⟩ := hnew
              exact Or.inr ⟨e, List.mem_cons_of_mem _ he, hev⟩
          · intro d2 hd2 np2 hstep
            rcases List.mem_cons.mp hd2 with rfl | hd2r
            · have : np2 = np := Option.some.inj (hstep.symm.trans hopen)
              exact this ▸ hnp_in
            · exact h5 d2 hd2r np2 hstep
          · have hinb := nextPos_inb hnx
            have hflip : bfsUnvis w h vis0 = bfsUnvis w h (np :: vis0) + 1 :=
              bfsUnvis_cons hinb.1 hinb.2 hvis
            have hlen : (q0 ++ [(np, ds ++ [d])]).length = q0.length + 1 := by simp
            rw [hlen] at h6
            omega
    · rw [if_neg hm]
      obtain ⟨new, h1, h2, h3, h4, h5, h6⟩ := ih q0 vis0
      refine ⟨new, h1, ?_, h3, h4, ?_, h6⟩
      · intro e he
        obtain ⟨d2, hd2, hrest⟩ := h2 e he
        exact ⟨d2, List.mem_cons_of_mem _ hd2, hrest⟩
      · intro d2 hd2 np hstep
        rcases List.mem_cons.mp hd2 with rfl | hd2r
        · rw [openStep_eq_some] at hstep
          exact absurd hstep.1 hm
        · exact h5 d2 hd2r np hstep

lemma mem_dirList (d : Dir) : d ∈ dirList := by
  cases d <;> decide

/-- The BFS loop, run with fuel dominating `queue length + unvisited
in-bounds cells` from a state satisfying the invariant, returns either a
valid route to the goal of minimal length among all open-walled routes, or
the empty route with the goal unreachable. -/
lemma bfsLoop_correct (g : List (List Nat)) (w h : Nat) (entry goal : Pos) :
    ∀ (fuel : Nat) (queue : List (Pos × List Dir)) (vis : List Pos),
      BfsInv g w h entry goal queue vis →
      queue.length + bfsUnvis w h vis ≤ fuel →
      (follow g w h entry (bfsLoop g goal w h fuel queue vis) = some goal ∧
        ∀ es, follow g w h entry es = some goal →
          (bfsLoop g goal w h fuel queue vis).length ≤ es.length) ∨
      (bfsLoop g goal w h fuel queue vis = [] ∧ ¬ ReachableFrom g w h entry goal) := by
  intro fuel
  induction fuel with
  | zero =>
    intro queue vis hinv hm
    have hq : queue = [] := List.length_eq_zero.mp (by omega)
    subst hq
    exact Or.inr ⟨rfl, unreachable_of_drained hinv⟩
  | succ fuel ih =>
    intro queue vis hinv hm
    cases queue with
    | nil => exact Or.inr ⟨rfl, unreachable_of_drained hinv⟩
    | cons e rest =>
      obtain ⟨p, ds⟩ := e
      by_cases hpg : p = goal
      · rw [bfsLoop, if_pos hpg]
        left
        constructor
        · have hv := hinv.valid (p, ds) (List.mem_cons_self _ _)
          rw [hpg] at hv
          exact hv
        · intro es hes
          exact hinv.minimal (p, ds) (List.mem_cons_self _ _) es
            (by rw [hpg]; exact hes)
      · rw [bfsLoop, if_neg hpg]
        dsimp only
        obtain ⟨new, hq1, hnew, hmono, hvischar, hprocp, hmeas⟩ :=
          bfsExpand_spec g w h p ds dirList rest vis
        have hvalid_p : follow g w h entry ds = some p :=
          hinv.valid (p, ds) (List.mem_cons_self _ _)
        have hnew_len : ∀ e2 ∈ new, e2.2.length = ds.length + 1 := by
          intro e2 he2
          obtain ⟨d2, -, -, he22, -, -⟩ := hnew e2 he2
          rw [he22]
          simp
        obtain ⟨l, A, B, hAB, hA, hB⟩ := hinv.level
        have hlev : (∀ e2 ∈ (p, ds) :: rest, ds.length ≤ e2.2.length) ∧
            ∃ l2 A2 B2, rest ++ new = A2 ++ B2 ∧ (∀ e2 ∈ A2, e2.2.length = l2) ∧
              (∀ e2 ∈ B2, e2.2.length = l2 + 1) := by
          cases A with
          | nil =>
            rw [List.nil_append] at hAB
            have hhead : ds.length = l + 1 :=
              hB (p, ds) (by rw [← hAB]; exact List.mem_cons_self _ _)
            constructor
            · intro e2 he2
              have h2 : e2.2.length = l + 1 := hB e2 (by rw [← hAB]; exact he2)
              omega
            · refine ⟨l + 1, rest, new, rfl, ?_, ?_⟩
              · intro e2 he2
                exact hB e2 (by rw [← hAB]; exact List.mem_cons_of_mem _ he2)
              · intro e2 he2
                have := hnew_len e2 he2
                omega
          | cons a A2 =>
            rw [List.cons_append] at hAB
            injection hAB with hh ht
            have hds_l : ds.length = l := by
              have ha_l : a.2.length = l := hA a (List.mem_cons_self _ _)
              rw [← hh] at ha_l
              exact ha_l
            constructor
            · intro e2 he2
              rcases List.mem_cons.mp he2 with rfl | he2r
              · exact Nat.le_refl _
              · rw [ht] at he2r
                rcases List.mem_append.mp he2r with hA2 | hB2
                · have := hA e2 (List.mem_cons_of_mem _ hA2)
                  omega
                · have := hB e2 hB2
                  omega
            · refine ⟨l, A2, B ++ new, by rw [ht, List.append_assoc], ?_, ?_⟩
              · intro e2 he2
                exact hA e2 (List.mem_cons_of_mem _ he2)
              · intro e2 he2
                rcases List.mem_append.mp he2 with hB2 | hnw
                · exact hB e2 hB2
                · have := hnew_len e2 hnw
                  omega
        obtain ⟨hds_min, hlev2⟩ := hlev
        have hinv2 : BfsInv g w h entry goal
            (bfsExpand g w h p ds dirList (rest, vis)).1
            (bfsExpand g w h p ds dirList (rest, vis)).2 := by
          refine ⟨hmono entry hinv.entry_vis, ?_, ?_, ?_, ?_, ?_, ?_⟩
          · intro e2 he2
            rw [hq1] at he2
            rcases List.mem_append.mp he2 with hr | hn
            · exact hinv.valid e2 (List.mem_cons_of_mem _ hr)
            · obtain ⟨d2, -, hs2, he22, -, -⟩ := hnew e2 hn
              rw [he22]
              exact follow_snoc hvalid_p hs2
          · intro e2 he2
            rw [hq1] at he2
            rcases List.mem_append.mp he2 with hr | hn
            · exact hmono e2.1 (hinv.tgt_vis e2 (List.mem_cons_of_mem _ hr))
            · obtain ⟨-, -, -, -, -, hin⟩ := hnew e2 hn
              exact hin
          · intro e2 he2 es hes
            rw [hq1] at he2
            rcases List.mem_append.mp he2 with hr | hn
            · exact hinv.minimal e2 (List.mem_cons_of_mem _ hr) es hes
            · obtain ⟨d2, -, hs2, he22, hnv, -⟩ := hnew e2 hn
              rw [he22]
              simp only [List.length_append, List.length_singleton]
              obtain ⟨p2, ds2, tail, hmem2, hfol2, hle2⟩ := path_to_queue hinv es 0
                entry e2.1 hinv.entry_vis ⟨[], follow_nil g w h entry, rfl⟩ hes hnv
              have hmin2 : ds.length ≤ ds2.length := hds_min (p2, ds2) hmem2
              cases tail with
              | nil =>
                rw [follow_nil] at hfol2
                have hpe : p2 = e2.1 := Option.some.inj hfol2
                exact absurd (hpe ▸ hinv.tgt_vis (p2, ds2) hmem2) hnv
              | cons t1 t2 =>
                simp only [List.length_cons] at hle2
                omega
          · obtain ⟨l2, A2, B2, hAB2, hA2, hB2⟩ := hlev2
            exact ⟨l2, A2, B2, by rw [hq1, hAB2], hA2, hB2⟩
          · intro v hv
            rcases hvischar v hv with hv0 | ⟨e2, he2, hev⟩
            · rcases hinv.processed v hv0 with ⟨dsv, hdsv⟩ | hpr
              · rcases List.mem_cons.mp hdsv with heq | hdsvr
                · injection heq with h1 h2
                  subst h1
                  right
                  intro d2 np hstep
                  exact hprocp d2 (mem_dirList d2) np hstep
                · exact Or.inl ⟨dsv, by rw [hq1]; exact List.mem_append_left _ hdsvr⟩
              · right
                intro d2 np hstep
                exact hmono np (hpr d2 np hstep)
            · left
              refine ⟨e2.2, ?_⟩
              rw [hq1]
              refine List.mem_append_right _ ?_
              rw [← hev, Prod.mk.eta]
              exact he2
          · intro hg
            rcases hvischar goal hg with hg0 | ⟨e2, he2, hev⟩
            · obtain ⟨dsg, hdsg⟩ := hinv.goal_pending hg0
              rcases List.mem_cons.mp hdsg with heq | hdsgr
              · injection heq with h1 h2
                exact absurd h1.symm hpg
              · exact ⟨dsg, by rw [hq1]; exact List.mem_append_left _ hdsgr⟩
            · refine ⟨e2.2, ?_⟩
              rw [hq1]
              refine List.mem_append_right _ ?_
              rw [← hev, Prod.mk.eta]
              exact he2
        have hm2 : (bfsExpand g w h p ds dirList (rest, vis)).1.length +
            bfsUnvis w h (bfsExpand g w h p ds dirList (rest, vis)).2 ≤ fuel := by
          rw [hmeas]
          simp only [List.length_cons] at hm
          omega
        exact ih _ _ hinv2 hm2

/-! ### Concrete draw streams used by the counterexamples -/

/-- The all-zero draw stream. -/
def rngZero : Rng := fun _ => 0

/-- A draw stream for the loop-injection sizing counterexample: the 5×4
Prim run consumes draws 0–31, and draws 32–34 select the closed east wall
of cell `(0, 1)`. -/
def rngSize : Rng := fun n => if n = 33 ∨ n = 34 then 1 else 0

/-- A draw stream for the pattern-mutation counterexample: the animated
5×4 Prim run over pattern `{(2, 1)}` consumes draws 0–27, and draws 28–30
make the injection pass pick cell `(2, 1)` and direction east. -/
def rngPat : Rng := fun n => if n = 28 then 2 else if n = 29 ∨ n = 30 then 1 else 0

/-! ### Claim theorems: solver self-route, determinism, file layout,
and the concrete counterexamples -/

/-- C10.  For every wall-mask grid and every coordinate `p` (in particular
every in-bounds one), `find_path(grid, p, p)` returns the empty string: the
first dequeued queue entry is `(entry, "")` and it already equals the exit,
the same empty-string value that an unreachable exit produces. -/
theorem find_path_self_empty (g : List (List Nat)) (p : Pos) :
    findPath g p p = "" := by
  unfold findPath findPathD
  rw [bfsLoop_found]
  rfl

/-- C3.  Two generation runs with identical width, height, seed, algorithm,
pattern and perfect flag produce identical wall-state matrices.  The seeded
global generator is modelled by the draw stream it determines (see the
module docstring), and the embedded pipeline is a pure function of
`(algo, stream, w, h, pattern, perfect)`, so equal inputs give equal wall
matrices definitionally — the run has no other source of nondeterminism. -/
theorem generation_deterministic (algo : Algo) (rng : Rng) (w h : Nat)
    (pattern : List Pos) (perfect : Bool) :
    wallMatrix w h (animGenerate algo rng w h pattern perfect) =
      wallMatrix w h (animGenerate algo rng w h pattern perfect) := rfl

/-- C9, counterexample.  `save_to_file` of `utils/file_writer.py` does not
produce the specified layout for an empty route: its `if path:` guard drops
the final route line, so the output of a 1×1 grid with an empty route lacks
the trailing empty route line the layout demands. -/
theorem save_to_file_empty_route_diverges :
    saveToFile [[15]] (0, 0) (0, 0) "" ≠ specLayout [[15]] (0, 0) (0, 0) "" := by
  decide

/-- C9, amended.  `MazeGenerator.write_to_file` produces exactly the
specified layout (hex rows, blank line, entry line, exit line, route line)
for every input including an empty route, and `save_to_file` produces it
whenever the route is non-empty (it omits the route line when the route is
empty). -/
theorem export_layout_exact (m : List (List Nat)) (entry goal : Pos) (path : String) :
    writeToFile m entry goal path = specLayout m entry goal path ∧
      (path ≠ "" → saveToFile m entry goal path = specLayout m entry goal path) := by
  constructor
  · apply String.ext
    simp [writeToFile, specLayout, natPair, rowHex, String.data_append, List.append_assoc]
  · intro hp
    apply String.ext
    simp [saveToFile, specLayout, natPair, rowHex, if_neg hp, String.data_append,
      List.append_assoc]

/-- Witness for `export_layout_exact` at a concrete non-empty route. -/
theorem export_layout_exact_witness :
    saveToFile [[9]] (0, 0) (0, 0) "N" = specLayout [[9]] (0, 0) (0, 0) "N" :=
  (export_layout_exact [[9]] (0, 0) (0, 0) "N").2 (by decide)

/-- C4, counterexample.  Two failure modes of the original claim: on a 1×1
grid a perfect run visits the unique enabled cell but never carves, so it
keeps `walls == 15`; and a pattern cell that cuts the 3×1 grid in two
leaves the enabled cell `(2, 0)` unvisited and fully walled. -/
theorem enabled_cells_unopened_or_unreached :
    cellAt (baseGenerate Algo.prim rngZero 1 1 []).1 (0, 0) = ⟨15, true⟩ ∧
      cellAt (baseGenerate Algo.prim rngZero 3 1 [(1, 0)]).1 (2, 0) = ⟨15, false⟩ := by
  constructor <;> decide

/-- C5, counterexample.  On this 5×4 run (20 cells, a spanning tree with 12
closed carvable edges) the injection pass removes exactly one wall, while
5% of the closed carvable edges is `12 / 20 = 0`: the sample size is
`width*height // 20`, not 5% of the closed carvable edges. -/
theorem injection_size_not_edge_fraction :
    (removeExtraWalls rngSize (baseGenerate Algo.prim rngSize 5 4 []).2 5 4 []
        (baseGenerate Algo.prim rngSize 5 4 []).1).2 = 1 ∧
      closedCarvableEdgeCount 5 4 [] (baseGenerate Algo.prim rngSize 5 4 []).1 / 20 = 0 := by
  constructor <;> decide

/-- C6, counterexample.  Two failure modes of the original claim: a 1×2
imperfect run has injection target `width*height // 20 = 0`, so no wall is
removed and exactly `enabledCells - 1 = 1` passage remains; and an
imperfect 3×1 run whose pattern cell splits the grid ends with 0 passages,
fewer than its `2 - 1` enabled cells minus one. -/
theorem small_imperfect_run_no_extra_passage :
    passageCount 1 2 (animGenerate Algo.prim rngZero 1 2 [] false) = 1 ∧
      ¬ 1 * 2 - 1 < passageCount 1 2 (animGenerate Algo.prim rngZero 1 2 [] false) ∧
      passageCount 3 1 (animGenerate Algo.prim rngZero 3 1 [(1, 0)] false) = 0 ∧
      enabledCellCount 3 1 [(1, 0)] = 2 := by
  refine ⟨by decide, by decide, by decide, by decide⟩

/-- C7, counterexample.  In the pattern-variant pipeline the injection pass
checks only the neighbour against the pattern mask, so a run can clear a
wall of a pattern cell: after this imperfect 5×4 run over pattern
`{(2, 1)}`, the pattern cell's mask is 13, no longer 15. -/
theorem pattern_wall_mutated_by_injection :
    (cellAt (animPatternPrimGenerate rngPat 5 4 [(2, 1)] false) (2, 1)).walls = 13 ∧
      (cellAt (animatedPrimGenerate rngPat 5 4 [(2, 1)]).1 (2, 1)).walls = 15 := by
  constructor <;> decide

/-- C2.  Carve symmetry: at the end of a full generation run (either
algorithm, either perfect flag, any pattern), for every in-bounds adjacent
pair the wall bit towards the neighbour is clear iff the neighbour's bit in
the opposite direction is clear — walls are only ever removed in symmetric
pairs. -/
theorem carve_symmetry (algo : Algo) (rng : Rng) (w h : Nat) (pattern : List Pos)
    (perfect : Bool) (p q : Pos) (d : Dir)
    (hw : 0 < w) (hh : 0 < h) (hp1 : p.1 < w) (hp2 : p.2 < h)
    (hq : nextPos w h p d = some q) :
    ((cellAt (animGenerate algo rng w h pattern perfect) p).walls &&& wallBit d = 0 ↔
      (cellAt (animGenerate algo rng w h pattern perfect) q).walls
        &&& wallBit (oppositeDir d) = 0) :=
  (animGenerate_rect_symm algo rng w h pattern perfect hw hh).2 p d q hp1 hp2 hq

/-- Witness for `carve_symmetry` on a perfect 2×1 Prim run at the pair
`(0,0) – (1,0)`. -/
theorem carve_symmetry_witness :
    ((cellAt (animGenerate Algo.prim rngZero 2 1 [] true) (0, 0)).walls
        &&& wallBit Dir.E = 0 ↔
      (cellAt (animGenerate Algo.prim rngZero 2 1 [] true) (1, 0)).walls
        &&& wallBit (oppositeDir Dir.E) = 0) :=
  carve_symmetry Algo.prim rngZero 2 1 [] true (0, 0) (1, 0) Dir.E
    (by decide) (by decide) (by decide) (by decide) (by decide)

/-- C4, amended.  After a perfect run (either algorithm, any pattern),
every enabled cell the chosen start reaches through enabled cells is
visited, and — provided some second cell is so reachable — has at least one
open wall; a 1×1 grid keeps its single cell fully walled, and enabled cells
the pattern cuts off from the start stay unvisited and fully walled. -/
theorem perfect_run_visits_and_opens (algo : Algo) (rng : Rng) (w h : Nat)
    (pattern : List Pos) (p : Pos) (hw : 0 < w) (hh : 0 < h)
    (hreach : Relation.ReflTransGen (EnabledAdj w h pattern)
      (runStart algo rng w h pattern) p)
    (hsecond : ∃ q, q ≠ runStart algo rng w h pattern ∧
      Relation.ReflTransGen (EnabledAdj w h pattern)
        (runStart algo rng w h pattern) q) :
    (cellAt (animGenerate algo rng w h pattern true) p).visited = true ∧
      (cellAt (animGenerate algo rng w h pattern true) p).walls ≠ 15 := by
  obtain ⟨q, hqne, hqreach⟩ := hsecond
  have hnc : nonPatternCells w h pattern ≠ [] := by
    rcases Relation.ReflTransGen.cases_head hqreach with heq | ⟨b, hstep, -⟩
    · exact absurd heq.symm hqne
    · obtain ⟨⟨d, hd⟩, hbpat⟩ := hstep
      have hbinb := nextPos_inb hd
      intro hnil
      have hb : b ∈ nonPatternCells w h pattern :=
        mem_nonPatternCells.mpr ⟨hbinb.1, hbinb.2, hbpat⟩
      rw [hnil] at hb
      cases hb
  obtain ⟨hs1, hs2, hs3, hsv, hcl, hopen, -⟩ :=
    baseGenerate_run_summary algo rng w h pattern hw hh hnc
  have hshow : animGenerate algo rng w h pattern true =
      (baseGenerate algo rng w h pattern).1 := rfl
  rw [hshow]
  obtain ⟨hp1, hp2, hp3, hpv⟩ := enabled_reach_visited hs1 hs2 hs3 hsv hcl p hreach
  refine ⟨hpv, ?_⟩
  rcases hopen with hop | hsing
  · obtain ⟨d, hd⟩ := hop p hp1 hp2 hpv hp3
    intro h15
    rw [h15] at hd
    exact fifteen_and_bit d hd
  · obtain ⟨hq1, hq2, hq3, hqv⟩ := enabled_reach_visited hs1 hs2 hs3 hsv hcl q hqreach
    exact absurd (hsing q hq1 hq2 hqv hq3) hqne

/-- Witness for `perfect_run_visits_and_opens` on a 2×1 perfect Prim run:
the east cell is reached from the start cell in one enabled step. -/
theorem perfect_run_visits_and_opens_witness :
    (cellAt (animGenerate Algo.prim rngZero 2 1 [] true) (1, 0)).visited = true ∧
      (cellAt (animGenerate Algo.prim rngZero 2 1 [] true) (1, 0)).walls ≠ 15 :=
  perfect_run_visits_and_opens Algo.prim rngZero 2 1 [] (1, 0) (by decide) (by decide)
    (Relation.ReflTransGen.single ⟨⟨Dir.E, by decide⟩, by decide⟩)
    ⟨(1, 0), by decide, Relation.ReflTransGen.single ⟨⟨Dir.E, by decide⟩, by decide⟩⟩

/-- C5, amended.  The loop-injection pass of
`MazeGeneratorWithAnimation._remove_extra_walls` removes at most
`width*height // 20` walls (not 5% of the closed carvable edges), and it
never touches a pattern cell nor any wall bit of a neighbour facing a
pattern cell. -/
theorem injection_bounded_and_pattern_safe (rng : Rng) (k w h : Nat)
    (pattern : List Pos) (g : Grid) (hg : Rect w h g) :
    (removeExtraWalls rng k w h pattern g).2 ≤ w * h / 20 ∧
      (∀ p ∈ pattern, cellAt (removeExtraWalls rng k w h pattern g).1 p = cellAt g p) ∧
      (∀ p q e, p ∉ pattern → nextPos w h p e = some q → q ∈ pattern →
        (cellAt (removeExtraWalls rng k w h pattern g).1 p).walls &&& wallBit e =
          (cellAt g p).walls &&& wallBit e) := by
  have hspec := removeExtraLoop_spec rng w h pattern (w * h / 20) 1000 0 k g hg
  exact ⟨le_trans hspec.2.1 (by omega), hspec.2.2.1, hspec.2.2.2⟩

/-- Witness for `injection_bounded_and_pattern_safe` on a fresh 1×1 grid. -/
theorem injection_bounded_and_pattern_safe_witness :
    (removeExtraWalls rngZero 0 1 1 [] (initGrid [] 1 1)).2 ≤ 1 * 1 / 20 :=
  (injection_bounded_and_pattern_safe rngZero 0 1 1 [] (initGrid [] 1 1)
    (rect_initGrid [] 1 1)).1

/-- C6, amended.  After an imperfect run (either algorithm, any pattern
with an enabled cell), the passage count exceeds the number of *visited*
enabled cells minus one by exactly the number of walls the injection pass
removed, which is at most `width*height // 20`; the strict excess over
`enabledCells - 1` therefore requires both a removal (so `w*h ≥ 20` up to
the attempt cap) and a pattern that does not cut any enabled cell off. -/
theorem imperfect_run_passage_balance (algo : Algo) (rng : Rng) (w h : Nat)
    (pattern : List Pos) (hw : 0 < w) (hh : 0 < h)
    (hnc : nonPatternCells w h pattern ≠ []) :
    passageCount w h (animGenerate algo rng w h pattern false) + 1 =
      enabledVisitedCount w h pattern (animGenerate algo rng w h pattern false) +
        (removeExtraWalls rng (baseGenerate algo rng w h pattern).2 w h pattern
          (baseGenerate algo rng w h pattern).1).2 ∧
      (removeExtraWalls rng (baseGenerate algo rng w h pattern).2 w h pattern
        (baseGenerate algo rng w h pattern).1).2 ≤ w * h / 20 ∧
      enabledVisitedCount w h pattern (animGenerate algo rng w h pattern false) ≤
        enabledCellCount w h pattern := by
  obtain ⟨h1, h2, -⟩ := baseGenerate_pattern_summary algo rng w h pattern hw hh
  obtain ⟨-, -, -, -, -, -, htree⟩ :=
    baseGenerate_run_summary algo rng w h pattern hw hh hnc
  have hfull := removeExtraLoop_full rng w h pattern (w * h / 20) 1000 0
    (baseGenerate algo rng w h pattern).2 (baseGenerate algo rng w h pattern).1 h1 h2
  have hspec := removeExtraLoop_spec rng w h pattern (w * h / 20) 1000 0
    (baseGenerate algo rng w h pattern).2 (baseGenerate algo rng w h pattern).1 h1
  have hanim : animGenerate algo rng w h pattern false =
      (removeExtraLoop rng w h pattern (w * h / 20) 1000 0
        (baseGenerate algo rng w h pattern).2 (baseGenerate algo rng w h pattern).1).1 := rfl
  have hwalls_eq : (removeExtraWalls rng (baseGenerate algo rng w h pattern).2 w h pattern
      (baseGenerate algo rng w h pattern).1).2 =
      (removeExtraLoop rng w h pattern (w * h / 20) 1000 0
        (baseGenerate algo rng w h pattern).2 (baseGenerate algo rng w h pattern).1).2 := rfl
  have hvis : enabledVisitedCount w h pattern
      (removeExtraLoop rng w h pattern (w * h / 20) 1000 0
        (baseGenerate algo rng w h pattern).2 (baseGenerate algo rng w h pattern).1).1 =
      enabledVisitedCount w h pattern (baseGenerate algo rng w h pattern).1 :=
    enabledVisitedCount_congr hfull.2.2.2
  rw [hanim, hwalls_eq, hvis]
  refine ⟨?_, le_trans hspec.2.1 (by omega), ?_⟩
  · have hbal := hfull.2.2.1
    omega
  · exact enabledVisitedCount_le w h pattern _

/-- Witness for `imperfect_run_passage_balance` on the 5×4 run whose
injection pass removes exactly one wall. -/
theorem imperfect_run_passage_balance_witness :
    passageCount 5 4 (animGenerate Algo.prim rngSize 5 4 [] false) + 1 =
      enabledVisitedCount 5 4 [] (animGenerate Algo.prim rngSize 5 4 [] false) +
        (removeExtraWalls rngSize (baseGenerate Algo.prim rngSize 5 4 []).2 5 4 []
          (baseGenerate Algo.prim rngSize 5 4 []).1).2 ∧
      (removeExtraWalls rngSize (baseGenerate Algo.prim rngSize 5 4 []).2 5 4 []
        (baseGenerate Algo.prim rngSize 5 4 []).1).2 ≤ 5 * 4 / 20 ∧
      enabledVisitedCount 5 4 [] (animGenerate Algo.prim rngSize 5 4 [] false) ≤
        enabledCellCount 5 4 [] :=
  imperfect_run_passage_balance Algo.prim rngSize 5 4 [] (by decide) (by decide)
    (by decide)

/-- C7, amended.  In the `MazeGeneratorWithAnimation` pipeline every
in-bounds pattern cell has `enabled = false` and still has all four walls at
the end of the run, perfect or not; the pattern-variant pipeline of
`animated_maze_with_pattern.py` violates this because its injection pass
only checks the neighbour against the pattern. -/
theorem pattern_cells_protected (algo : Algo) (rng : Rng) (w h : Nat)
    (pattern : List Pos) (perfect : Bool) (p : Pos)
    (hw : 0 < w) (hh : 0 < h) (hp1 : p.1 < w) (hp2 : p.2 < h) (hp : p ∈ pattern) :
    cellEnabled pattern p = false ∧
      (cellAt (animGenerate algo rng w h pattern perfect) p).walls = 15 := by
  obtain ⟨h1, -, h3⟩ := baseGenerate_pattern_summary algo rng w h pattern hw hh
  refine ⟨by simp [cellEnabled, hp], ?_⟩
  cases perfect with
  | true => exact h3 p hp1 hp2 hp
  | false =>
    have hspec := removeExtraLoop_spec rng w h pattern (w * h / 20) 1000 0
      (baseGenerate algo rng w h pattern).2 (baseGenerate algo rng w h pattern).1 h1
    show (cellAt (removeExtraWalls rng (baseGenerate algo rng w h pattern).2 w h pattern
        (baseGenerate algo rng w h pattern).1).1 p).walls = 15
    unfold removeExtraWalls
    rw [hspec.2.2.1 p hp]
    exact h3 p hp1 hp2 hp

/-- Witness for `pattern_cells_protected` on an imperfect 2×2 Prim run with
pattern cell `(1, 1)`. -/
theorem pattern_cells_protected_witness :
    cellEnabled [((1 : Nat), (1 : Nat))] (1, 1) = false ∧
      (cellAt (animGenerate Algo.prim rngZero 2 2 [(1, 1)] false) (1, 1)).walls = 15 :=
  pattern_cells_protected Algo.prim rngZero 2 2 [(1, 1)] false (1, 1)
    (by decide) (by decide) (by decide) (by decide) (by decide)

/-- C8.  Every generation loop terminates within a grid-size bound: the
internal Prim loop empties its frontier within `4*w*h + 8` iterations, the
DFS loop empties its stack within `2*w*h + 2` iterations, and the legacy
`algorithms/prim.py` loop — whose frontier can regrow when a popped entry
aims at an already-visited cell — empties its frontier within
`5 ^ (w*h + 1)` iterations, for every draw stream, pattern, and (for the
legacy run) rectangular starting grid. -/
theorem generation_loops_drain (rng : Rng) (w h : Nat) (pattern : List Pos)
    (g0 : Grid) (hw : 0 < w) (hh : 0 < h)
    (hnc : nonPatternCells w h pattern ≠ []) (hg0 : Rect w h g0) :
    (primLoop rng w h (4 * w * h + 8) (primInitState rng w h pattern)).frontier = [] ∧
      (dfsLoop rng w h (2 * w * h + 2) (dfsInitState w h pattern 0 0)).stack = [] ∧
      (legacyPrimLoop rng w h (5 ^ (w * h + 1))
        { grid := setVisited g0 (rng 0 % w, rng 1 % h)
          frontier := (neighbors w h (rng 0 % w, rng 1 % h)).map
            fun qd => ((rng 0 % w, rng 1 % h), qd.1, qd.2)
          k := 2 }).frontier = [] :=
  ⟨primLoop_drains rng (4 * w * h + 8) _ (primInit_inv rng w h pattern hnc)
      (primInit_measure_le rng w h pattern),
    dfsLoop_drains rng (2 * w * h + 2) _ (dfsInit_inv w h pattern hw hh)
      (dfsInit_measure_le w h pattern),
    legacyLoop_drains rng (5 ^ (w * h + 1)) _ (legacyInit_inv rng w h g0 hw hh hg0)
      (legacyInit_measure_le rng w h g0 hw hh hg0)⟩

/-- Witness for `generation_loops_drain` on a 2×2 grid. -/
theorem generation_loops_drain_witness :
    (primLoop rngZero 2 2 (4 * 2 * 2 + 8) (primInitState rngZero 2 2 [])).frontier = [] ∧
      (dfsLoop rngZero 2 2 (2 * 2 * 2 + 2) (dfsInitState 2 2 [] 0 0)).stack = [] ∧
      (legacyPrimLoop rngZero 2 2 (5 ^ (2 * 2 + 1))
        { grid := setVisited (initGrid [] 2 2) (rngZero 0 % 2, rngZero 1 % 2)
          frontier := (neighbors 2 2 (rngZero 0 % 2, rngZero 1 % 2)).map
            fun qd => ((rngZero 0 % 2, rngZero 1 % 2), qd.1, qd.2)
          k := 2 }).frontier = [] :=
  generation_loops_drain rngZero 2 2 [] (initGrid [] 2 2) (by decide) (by decide)
    (by decide) (rect_initGrid [] 2 2)

/-- C1.  BFS correctness of `find_path`: for in-bounds entry and exit, when
the exit is reachable through open walls the returned route follows open
walls from entry to exit and is of minimal length among all such routes;
when the exit is unreachable the empty string is returned; and the route
string is exactly the direction letters of the found path. -/
theorem find_path_correct (g : List (List Nat)) (entry goal : Pos)
    (hentry : entry.1 < gridWidth g ∧ entry.2 < gridHeight g)
    (hgoal : goal.1 < gridWidth g ∧ goal.2 < gridHeight g) :
    (ReachableFrom g (gridWidth g) (gridHeight g) entry goal →
      follow g (gridWidth g) (gridHeight g) entry (findPathD g entry goal) = some goal ∧
      ∀ es, follow g (gridWidth g) (gridHeight g) entry es = some goal →
        (findPathD g entry goal).length ≤ es.length) ∧
    (¬ ReachableFrom g (gridWidth g) (gridHeight g) entry goal →
      findPath g entry goal = "") ∧
    findPath g entry goal = ⟨(findPathD g entry goal).map dirChar⟩ := by
  have hinv : BfsInv g (gridWidth g) (gridHeight g) entry goal
      [(entry, [])] [entry] := by
    refine ⟨List.mem_cons_self _ _, ?_, ?_, ?_, ?_, ?_, ?_⟩
    · intro e he
      rw [List.mem_singleton] at he
      subst he
      exact follow_nil g _ _ entry
    · intro e he
      rw [List.mem_singleton] at he
      subst he
      exact List.mem_cons_self _ _
    · intro e he es hes
      rw [List.mem_singleton] at he
      subst he
      exact Nat.zero_le _
    · refine ⟨0, [(entry, [])], [], rfl, ?_, ?_⟩
      · intro e he
        rw [List.mem_singleton] at he
        subst he
        rfl
      · intro e he
        cases he
    · intro v hv
      rw [List.mem_singleton] at hv
      subst hv
      exact Or.inl ⟨[], List.mem_cons_self _ _⟩
    · intro hg
      rw [List.mem_singleton] at hg
      subst hg
      exact ⟨[], List.mem_cons_self _ _⟩
  have hm : ([(entry, [])] : List (Pos × List Dir)).length +
      bfsUnvis (gridWidth g) (gridHeight g) [entry] ≤
        gridWidth g * gridHeight g + 1 := by
    have hflip : bfsUnvis (gridWidth g) (gridHeight g) [] =
        bfsUnvis (gridWidth g) (gridHeight g) [entry] + 1 :=
      bfsUnvis_cons hentry.1 hentry.2 (List.not_mem_nil entry)
    have hnil := bfsUnvis_nil (gridWidth g) (gridHeight g)
    simp only [List.length_singleton]
    omega
  have hmain := bfsLoop_correct g (gridWidth g) (gridHeight g) entry goal
    (gridWidth g * gridHeight g + 1) [(entry, [])] [entry] hinv hm
  have hfd : findPathD g entry goal =
      bfsLoop g goal (gridWidth g) (gridHeight g)
        (gridWidth g * gridHeight g + 1) [(entry, [])] [entry] := rfl
  refine ⟨?_, ?_, rfl⟩
  · intro hreach
    rcases hmain with ⟨h1, h2⟩ | ⟨-, hnr⟩
    · rw [hfd]
      exact ⟨h1, h2⟩
    · exact absurd hreach hnr
  · intro hnreach
    rcases hmain with ⟨h1, -⟩ | ⟨h1, -⟩
    · exact absurd ⟨bfsLoop g goal (gridWidth g) (gridHeight g)
        (gridWidth g * gridHeight g + 1) [(entry, [])] [entry], h1⟩ hnreach
    · show findPath g entry goal = ""
      unfold findPath
      rw [hfd, h1]
      rfl

/-- Witness for `find_path_correct` on a 1×2 grid whose top cell has an
open south wall: the returned route follows open walls to the bottom
cell. -/
theorem find_path_correct_witness :
    follow [[11], [14]] 1 2 (0, 0) (findPathD [[11], [14]] (0, 0) (0, 1)) =
      some (0, 1) :=
  ((find_path_correct [[11], [14]] (0, 0) (0, 1) (by decide) (by decide)).1
    ⟨[Dir.S], by decide⟩).1

end Maze
